import Mathlib

/-!
# Verification of the sudoku solver (`src/main.cpp`)

A shallow embedding of the constraint-propagation + split-backtracking
sudoku solver.  `uint16_t` bitmaps are modelled as `Nat` (all reachable
values fit in 16 bits; the C++ `~` on a `uint16_t` operand is modelled by
`compl16`, xor with `0xFFFF`).  The 9 `SubGrid`s of a `Grid` and the 9
`Cell`s of a `SubGrid` are modelled as `List`s addressed exactly as the
C++ arrays (column-major index `col*3 + row` on both levels); out-of-range
reads yield the default (zero) element, matching the fact that the C++
arrays always have size 9.  Stateful bits (the `_isSolved` cache of
`SubGrid`, mutated by `isSolved()`) are modelled by explicit state
passing.  `int maxNbSolutions` is modelled as `Int`.

The unbounded C++ loops (`do/while` in `intersectConstraints` and
`solve`) are modelled by structural recursion on an explicit fuel that is
chosen large enough; the accompanying theorems (`sweep_spec`,
`icAux_fix`, and the stack-measure lemmas) prove the fuel is never
exhausted, so the models compute exactly what the C++ loops compute.
-/

namespace Sudoku

/-- Fuel-driven population count; `popcountAux f n` is the bit count of
`n` whenever `n ≤ f`. -/
def popcountAux : Nat → Nat → Nat
  | 0, _ => 0
  | f + 1, n => if n = 0 then 0 else popcountAux f (n / 2) + n % 2

/-- Population count of a natural number (the model of `std::popcount`). -/
def popcount (n : Nat) : Nat := popcountAux n n

/-- Complement within 16 bits: model of `~x` applied to a `uint16_t`. -/
def compl16 (n : Nat) : Nat := n ^^^ 65535

/-- `Cell::kAllPossibleBmp = (1U << 9) - 1`. -/
def kAllPossibleBmp : Nat := (1 <<< 9) - 1

/-- A single position of the board: a 9-bit candidate set
(`struct Cell`, `src/main.cpp` lines 9-65). -/
structure Cell where
  bmp : Nat := 0
deriving DecidableEq, Repr, Inhabited

/-- `Cell::contains`: bit `i-1` of `bmp` is set. -/
def Cell.contains (cell : Cell) (i : Nat) : Bool :=
  cell.bmp &&& (1 <<< (i - 1)) != 0

/-- `Cell::is`: `bmp == (1 << (i-1))`. -/
def Cell.is (cell : Cell) (i : Nat) : Bool :=
  cell.bmp == 1 <<< (i - 1)

/-- `Cell::isKnown`: `bmp && (bmp & (bmp - 1)) == 0`. -/
def Cell.isKnown (cell : Cell) : Bool :=
  cell.bmp != 0 && cell.bmp &&& (cell.bmp - 1) == 0

/-- `Cell::nbPossibleValues`: `std::popcount(bmp)`. -/
def Cell.nbPossibleValues (cell : Cell) : Nat := popcount cell.bmp

/-- `Cell::set`: `bmp |= (1U << (i - 1))`. -/
def Cell.set (cell : Cell) (i : Nat) : Cell :=
  ⟨cell.bmp ||| (1 <<< (i - 1))⟩

/-- `Cell::Cell(char c)`: `'.'` gives all candidates, otherwise
`set(c - '0')`. -/
def Cell.ofChar (c : Char) : Cell :=
  if c = '.' then ⟨kAllPossibleBmp⟩ else Cell.set ⟨0⟩ (c.toNat - 48)

/-- The scan loop of `Cell::split`: walk digits in order, accumulate the
bits of the candidates found into `acc`, and stop as soon as `lhsNbBits`
of them have been taken. -/
def Cell.splitAux (cell : Cell) (lhsNbBits : Nat) :
    List Nat → Nat → Nat → Nat
  | [], _, acc => acc
  | i :: rest, nLhs, acc =>
    if cell.contains i then
      let acc' := acc ||| (1 <<< (i - 1))
      if nLhs + 1 = lhsNbBits then acc'
      else cell.splitAux lhsNbBits rest (nLhs + 1) acc'
    else cell.splitAux lhsNbBits rest nLhs acc

/-- `Cell::split`: bisect the candidate set.  The first
`(nbPossibleValues()+1)/2` candidates (scanning digits 1..9 upward) form
the left cell; the right cell is `(~left.bmp) & bmp`. -/
def Cell.split (cell : Cell) : Cell × Cell :=
  let lhsNbBits := (cell.nbPossibleValues + 1) / 2
  let first := cell.splitAux lhsNbBits [1, 2, 3, 4, 5, 6, 7, 8, 9] 0 0
  (⟨first⟩, ⟨compl16 first &&& cell.bmp⟩)

/-- The candidates of a cell as an ascending list of digits. -/
def candidatesList (cell : Cell) : List Nat :=
  (List.range' 1 9).filter (fun d => cell.contains d)

/-! ## SubGrid and Grid -/
/-- A 3×3 block of nine cells with the `_isSolved` cache flag
(`struct SubGrid`, `src/main.cpp` lines 68-125).  Cells are stored
column-major: `cellAt(row, col)` is `cells[col*3 + row]`. -/
structure SubGrid where
  cells : List Cell
  _isSolved : Bool
deriving DecidableEq, Repr

instance : Inhabited SubGrid := ⟨⟨[], false⟩⟩

/-- `SubGrid::cellAt`: `cells[col * 3 + row]`. -/
def SubGrid.cellAt (sg : SubGrid) (row col : Nat) : Cell :=
  sg.cells.getD (col * 3 + row) default

/-- Writing through the reference returned by `SubGrid::cellAt`. -/
def SubGrid.setCellAt (sg : SubGrid) (row col : Nat) (c : Cell) : SubGrid :=
  { sg with cells := sg.cells.set (col * 3 + row) c }

/-- The nine cells of a sub-grid in the C++ scan order
(`row` outer 0..2, `col` inner 0..2, reading `cells[col*3+row]`). -/
def SubGrid.scanCells (sg : SubGrid) : List Cell :=
  (List.range 3).flatMap fun row => (List.range 3).map fun col => sg.cellAt row col

/-- The accumulation `ret |= cell.bmp` over the known cells of a house
(shared body of `SubGrid::getBmpKnownValues`, `Grid::rowKnownBmp` and
`Grid::colKnownBmp`). -/
def knownMask (cells : List Cell) : Nat :=
  cells.foldl (fun acc cell => if cell.isKnown then acc ||| cell.bmp else acc) 0

/-- `SubGrid::getBmpKnownValues`. -/
def SubGrid.getBmpKnownValues (sg : SubGrid) : Nat := knownMask sg.scanCells

/-- The house-validity loop shared verbatim by `SubGrid::isValid`,
`Grid::isRowValid` and `Grid::isColValid`: walk the nine cells keeping
`bmp` (union of all bitmaps) and `knownBmp` (union of singleton bitmaps);
fail on a duplicated singleton or a zero cell; succeed iff the final
union covers all nine digits. -/
def houseValidAux : List Cell → Nat → Nat → Bool
  | [], bmp, _ => bmp == kAllPossibleBmp
  | cell :: rest, bmp, knownBmp =>
    if cell.isKnown && (knownBmp &&& cell.bmp != 0) then false
    else if cell.bmp == 0 then false
    else houseValidAux rest (bmp ||| cell.bmp)
      (if cell.isKnown then knownBmp ||| cell.bmp else knownBmp)

def houseValid (cells : List Cell) : Bool := houseValidAux cells 0 0

/-- `SubGrid::isValid`. -/
def SubGrid.isValid (sg : SubGrid) : Bool := houseValid sg.scanCells

/-- The all-nine-cells-known scan of `SubGrid::isSolved`. -/
def SubGrid.allCellsKnown (sg : SubGrid) : Bool :=
  (List.range 3).all fun row => (List.range 3).all fun col =>
    (sg.cellAt row col).isKnown

/-- `SubGrid::isSolved`, with its mutation of the `_isSolved` cache made
explicit: returns the updated sub-grid together with the result. -/
def SubGrid.isSolvedS (sg : SubGrid) : SubGrid × Bool :=
  if sg._isSolved then (sg, true)
  else if sg.allCellsKnown then ({ sg with _isSolved := true }, true)
  else (sg, false)

/-- The 9×9 board as nine sub-grids, column-major
(`struct Grid`, `src/main.cpp` lines 127-359):
`subGridAt(row, col)` is `subGrids[col*3 + row]`. -/
structure Grid where
  subGrids : List SubGrid
deriving DecidableEq, Repr

instance : Inhabited Grid := ⟨⟨[]⟩⟩

/-- `Grid::subGridAt`: `subGrids[col * 3 + row]`. -/
def Grid.subGridAt (g : Grid) (row col : Nat) : SubGrid :=
  g.subGrids.getD (col * 3 + row) default

/-- `Grid::cellAt`: `subGridAt(row/3, col/3).cellAt(row%3, col%3)`. -/
def Grid.cellAt (g : Grid) (row col : Nat) : Cell :=
  (g.subGridAt (row / 3) (col / 3)).cellAt (row % 3) (col % 3)

/-- Writing through the reference returned by `Grid::cellAt`. -/
def Grid.setCell (g : Grid) (row col : Nat) (c : Cell) : Grid :=
  ⟨g.subGrids.set ((col / 3) * 3 + row / 3)
    ((g.subGridAt (row / 3) (col / 3)).setCellAt (row % 3) (col % 3) c)⟩

/-- The cells of row `row` in column order (walked by `rowKnownBmp` and
`isRowValid`). -/
def Grid.rowCells (g : Grid) (row : Nat) : List Cell :=
  (List.range 9).map fun col => g.cellAt row col

/-- The cells of column `col` in row order (walked by `colKnownBmp` and
`isColValid`). -/
def Grid.colCells (g : Grid) (col : Nat) : List Cell :=
  (List.range 9).map fun row => g.cellAt row col

/-- `Grid::rowKnownBmp`. -/
def Grid.rowKnownBmp (g : Grid) (row : Nat) : Nat := knownMask (g.rowCells row)

/-- `Grid::colKnownBmp`. -/
def Grid.colKnownBmp (g : Grid) (col : Nat) : Nat := knownMask (g.colCells col)

/-- `Grid::isRowValid`. -/
def Grid.isRowValid (g : Grid) (row : Nat) : Bool := houseValid (g.rowCells row)

/-- `Grid::isColValid`. -/
def Grid.isColValid (g : Grid) (col : Nat) : Bool := houseValid (g.colCells col)

/-- `Grid::isValid`: all nine sub-grids locally valid, then all rows and
columns valid (with the C++ early exits, which `List.all` mirrors). -/
def Grid.isValid (g : Grid) : Bool :=
  ((List.range 9).all fun i => (g.subGrids.getD i default).isValid) &&
  ((List.range 9).all fun i => g.isRowValid i && g.isColValid i)

/-- The loop of `Grid::isSolved`: query the sub-grids in order, keeping
the flag updates made by `SubGrid::isSolved`, stopping at the first
unsolved sub-grid. -/
def isSolvedLoop : Grid → List Nat → Grid × Bool
  | g, [] => (g, true)
  | g, i :: rest =>
    let p := (g.subGrids.getD i default).isSolvedS
    if p.2 then isSolvedLoop ⟨g.subGrids.set i p.1⟩ rest
    else (g, false)

/-- `Grid::isSolved`, with the cache mutations made explicit. -/
def Grid.isSolvedS (g : Grid) : Grid × Bool := isSolvedLoop g (List.range 9)

/-! ## The propagation sweep (`Grid::intersectConstraints`) -/
/-- The three `&=` updates of the inner loop body of
`intersectConstraints`: the cell's bitmap intersected with the
complements of the sub-grid, row and column known-masks. -/
def narrowedBmp (g : Grid) (colBmps : List Nat) (rowBmp : Nat)
    (row col : Nat) : Nat :=
  (g.cellAt row col).bmp &&&
    compl16 (g.subGridAt (row / 3) (col / 3)).getBmpKnownValues &&&
    rowBmp &&& colBmps.getD col 0

/-- One iteration of the inner `col` loop of `intersectConstraints`:
narrow the cell at `(row, col)` (if unresolved) by the sub-grid, row and
column known-masks, and record whether it changed. -/
def sweepCellStep (colBmps : List Nat) (rowBmp : Nat) (row : Nat)
    (acc : Grid × Bool) (col : Nat) : Grid × Bool :=
  if (acc.1.cellAt row col).isKnown then acc
  else
    (acc.1.setCell row col ⟨narrowedBmp acc.1 colBmps rowBmp row col⟩,
      acc.2 || ((acc.1.cellAt row col).bmp != narrowedBmp acc.1 colBmps rowBmp row col))

/-- One iteration of the `row` loop: compute the row mask once from the
current state, then walk the nine columns. -/
def sweepRowStep (colBmps : List Nat) (acc : Grid × Bool) (row : Nat) :
    Grid × Bool :=
  let rowBmp := compl16 (acc.1.rowKnownBmp row)
  (List.range 9).foldl (sweepCellStep colBmps rowBmp row) acc

/-- One full sweep of the `do`-body of `intersectConstraints`: the nine
column masks are precomputed from the pre-sweep state, then every row is
processed; the boolean is `updateDoneStep`. -/
def sweep (g : Grid) : Grid × Bool :=
  let colBmps := (List.range 9).map fun col => compl16 (g.colKnownBmp col)
  (List.range 9).foldl (sweepRowStep colBmps) (g, false)

/-- Total number of candidate bits on the board; each changing sweep
strictly decreases it. -/
def totalBits (g : Grid) : Nat :=
  (g.subGrids.map fun sg => (sg.cells.map fun cell => popcount cell.bmp).sum).sum

/-- Fuel-driven iteration of `sweep`, repeating while `updateDoneStep`. -/
def icAux : Nat → Grid → Grid
  | 0, g => g
  | f + 1, g => cond (sweep g).2 (icAux f (sweep g).1) (sweep g).1

/-- `Grid::intersectConstraints`.  The fuel `totalBits g + 1` is provably
sufficient (`icAux_fix`): the sweep loop reaches its fixpoint before the
fuel runs out, so this equals the C++ `do { } while (updateDoneStep)`. -/
def Grid.intersectConstraints (g : Grid) : Grid := icAux (totalBits g + 1) g

/-- Number of sweeps the `do`/`while` loop executes. -/
def scAux : Nat → Grid → Nat
  | 0, _ => 0
  | f + 1, g => cond (sweep g).2 (scAux f (sweep g).1 + 1) 1

def sweepCount (g : Grid) : Nat := scAux (totalBits g + 1) g

/-! ## The solver driver (`Grid::getCellWithLowestConstraints`,
`Grid::generate`, `Grid::solve`) -/
/-- The scan loop of `getCellWithLowestConstraints`: row-major walk
keeping the best `(row, col)` so far, with the short-circuit return on a
2-candidate cell. -/
def gclcAux (g : Grid) : List (Nat × Nat) → (Nat × Nat) → Nat → Nat × Nat
  | [], ret, _ => ret
  | rc :: rest, ret, lowest =>
    if 1 < (g.cellAt rc.1 rc.2).nbPossibleValues ∧
        (g.cellAt rc.1 rc.2).nbPossibleValues < lowest then
      if (g.cellAt rc.1 rc.2).nbPossibleValues = 2 then rc
      else gclcAux g rest rc (g.cellAt rc.1 rc.2).nbPossibleValues
    else gclcAux g rest ret lowest

/-- All `(row, col)` pairs in the row-major scan order of the C++ double
loop. -/
def rowColPairs : List (Nat × Nat) :=
  (List.range 9).flatMap fun r => (List.range 9).map fun c => (r, c)

/-- `Grid::getCellWithLowestConstraints`: starts from `ret = (0,0)` and
`lowestNbPossibilities = 10`. -/
def Grid.getCellWithLowestConstraints (g : Grid) : Nat × Nat :=
  gclcAux g rowColPairs (0, 0) 10

/-- `Grid::generate`: split the most constrained unresolved cell and push
the two substituted snapshots.  The C++ pushes the `lhs` copy then the
`rhs` copy onto the back of the vector; with the list head as the stack
top, the `rhs` child becomes the new top. -/
def Grid.generate (g : Grid) (stack : List Grid) : List Grid :=
  g.setCell g.getCellWithLowestConstraints.1 g.getCellWithLowestConstraints.2
      (g.cellAt g.getCellWithLowestConstraints.1
        g.getCellWithLowestConstraints.2).split.2 ::
    (g.setCell g.getCellWithLowestConstraints.1 g.getCellWithLowestConstraints.2
      (g.cellAt g.getCellWithLowestConstraints.1
        g.getCellWithLowestConstraints.2).split.1 :: stack)

/-- The `do`/`while` loop of `Grid::solve`, fuel-driven: pop the top
snapshot, propagate, surface it if solved (decrementing the cap and
breaking when the cap hits zero), drop it if invalid, otherwise branch.
`maxNb` is the C++ `int maxNbSolutions`. -/
def solveLoop : Nat → List Grid → List Grid → Int → List Grid
  | 0, _, solutions, _ => solutions
  | _ + 1, [], solutions, _ => solutions
  | f + 1, g :: rest, solutions, maxNb =>
    cond (g.intersectConstraints.isSolvedS).2
      (cond (maxNb - 1 == 0)
        (solutions ++ [(g.intersectConstraints.isSolvedS).1])
        (solveLoop f rest (solutions ++ [(g.intersectConstraints.isSolvedS).1])
          (maxNb - 1)))
      (cond (g.intersectConstraints.isSolvedS).1.isValid
        (solveLoop f ((g.intersectConstraints.isSolvedS).1.generate rest)
          solutions maxNb)
        (solveLoop f rest solutions maxNb))

/-- Fuel bound for `solveLoop`: each iteration strictly decreases this
measure (`solveLoop_fuel_irrelevant` proves any fuel at least this large
computes the loop's true result). -/
def stackMeasure (stack : List Grid) : Nat :=
  (stack.map fun g => 3 ^ (totalBits g + 1)).sum

/-- `Grid::solve(maxNbSolutions)`. -/
def Grid.solve (g : Grid) (maxNb : Int) : List Grid :=
  solveLoop (stackMeasure [g]) [g] [] maxNb

/-- `Grid::Grid(board)`: fill the default-initialized sub-grids from the
characters, `subGridAt(row/3, col/3).init(row%3, col%3, c)`. -/
def Grid.ofBoard (board : List (List Char)) : Grid :=
  board.enum.foldl (fun g rowLine =>
    rowLine.2.enum.foldl (fun g2 colChar =>
      g2.setCell rowLine.1 colChar.1 (Cell.ofChar colChar.2)) g)
    ⟨List.replicate 9 ⟨List.replicate 9 ⟨0⟩, false⟩⟩

/-! ## Well-formed grids and the sweep-count bound (C8) -/
/-- The representation invariant of a real `Grid` value: nine sub-grids
of nine cells each, every bitmap confined to the bottom 9 bits (the C++
arrays have fixed size 9 and the bit-hygiene invariant holds). -/
def Grid.wf (g : Grid) : Prop :=
  g.subGrids.length = 9 ∧ ∀ i < 9, (g.subGrids.getD i default).cells.length = 9 ∧
    ∀ j < 9, ((g.subGrids.getD i default).cells.getD j default).bmp < 512

instance : DecidablePred Grid.wf := fun g => by
  unfold Grid.wf; infer_instance

/-- A board of all-unknown cells (every bitmap `0x1FF`), well-formed. -/
def gridAllUnknown : Grid :=
  ⟨List.replicate 9 ⟨List.replicate 9 ⟨511⟩, false⟩⟩

/-- The physical cell at `(i, j)`: cell `j` of sub-grid `i` in the
column-major storage. -/
def Grid.pcell (g : Grid) (i j : Nat) : Cell :=
  (g.subGrids.getD i default).cells.getD j default

/-- Same cells, arbitrary flags. -/
def CellsEq (g g' : Grid) : Prop :=
  g'.subGrids.length = g.subGrids.length ∧
  ∀ i j : Nat,
    (g'.subGrids.getD i default).cells.length =
      (g.subGrids.getD i default).cells.length ∧
    g'.pcell i j = g.pcell i j

/-- Flags and structure preserved, every cell's candidate set shrunk
(bitwise subset), known cells untouched: the effect of a propagation
sweep. -/
def CellsMono (g g' : Grid) : Prop :=
  g'.subGrids.length = g.subGrids.length ∧
  ∀ i j : Nat,
    (g'.subGrids.getD i default)._isSolved =
      (g.subGrids.getD i default)._isSolved ∧
    (g'.subGrids.getD i default).cells.length =
      (g.subGrids.getD i default).cells.length ∧
    (g'.pcell i j).bmp &&& (g.pcell i j).bmp = (g'.pcell i j).bmp ∧
    ((g.pcell i j).isKnown = true → g'.pcell i j = g.pcell i j)

/-- The cache-honesty invariant: a set `_isSolved` flag really means all
nine cells of that sub-grid are singletons. -/
def Grid.flagsOK (g : Grid) : Prop :=
  ∀ i < 9, (g.subGrids.getD i default)._isSolved = true →
    ∀ j < 9, (g.pcell i j).isKnown = true

instance : DecidablePred Grid.flagsOK := fun g => by
  unfold Grid.flagsOK Grid.pcell; infer_instance

/-- Union of the bitmaps of a list of cells. -/
def unionBmp (cells : List Cell) : Nat :=
  (cells.map Cell.bmp).foldr (· ||| ·) 0

/-! ## Claims C1, C9, C10 -/
/-- The spec-side notion of a globally valid solved board: every row,
column and 3×3 block contains each digit 1..9 exactly once. -/
def validSolutionSpec (g : Grid) : Prop :=
  ∀ d < 10, 1 ≤ d →
    (∀ r < 9, (List.range 9).countP (fun c => (g.cellAt r c).is d) = 1) ∧
    (∀ c < 9, (List.range 9).countP (fun r => (g.cellAt r c).is d) = 1) ∧
    (∀ br < 3, ∀ bc < 3, (List.range 9).countP (fun k =>
      (g.cellAt (3 * br + k / 3) (3 * bc + k % 3)).is d) = 1)

instance : DecidablePred validSolutionSpec := fun g => by
  unfold validSolutionSpec; infer_instance

/-- A fully-filled board of 81 copies of the digit 1: every cell is a
singleton, every row blatantly invalid. -/
def boardAllOnes : List (List Char) := List.replicate 9 (List.replicate 9 '1')

/-! ## Completions: the spec-side notion of a valid completion of a grid -/
/-- An assignment of a digit (represented as `Fin 9`, digit minus one) to
every board position. -/
abbrev Digits9 := Fin 9 → Fin 9 → Fin 9

/-- The assignment satisfies the three house constraints. -/
def completionOK (S : Digits9) : Prop :=
  (∀ r c1 c2 : Fin 9, c1 ≠ c2 → S r c1 ≠ S r c2) ∧
  (∀ c r1 r2 : Fin 9, r1 ≠ r2 → S r1 c ≠ S r2 c) ∧
  (∀ r1 c1 r2 c2 : Fin 9, (r1 : Nat) / 3 = (r2 : Nat) / 3 →
    (c1 : Nat) / 3 = (c2 : Nat) / 3 → (r1, c1) ≠ (r2, c2) → S r1 c1 ≠ S r2 c2)

instance : DecidablePred completionOK := fun S => by
  unfold completionOK; infer_instance

/-- The assignment picks, at every position, a digit still among the
cell's candidates. -/
def extendsGrid (S : Digits9) (g : Grid) : Prop :=
  ∀ r c : Fin 9, (g.cellAt r c).contains ((S r c : Nat) + 1) = true

instance (g : Grid) : Decidable (∃ S : Digits9, completionOK S ∧ extendsGrid S g) := by
  unfold extendsGrid; infer_instance

instance (S : Digits9) (g : Grid) : Decidable (extendsGrid S g) := by
  unfold extendsGrid; infer_instance

instance (g : Grid) :
    DecidablePred (fun S : Digits9 => completionOK S ∧ extendsGrid S g) := fun S => by
  unfold completionOK extendsGrid; infer_instance

/-- "The grid has at least `n` valid completions": an injective family of
`n` assignments, each a valid completion extending the grid. -/
def hasNCompletions (g : Grid) (n : Nat) : Prop :=
  ∃ f : Fin n → Digits9, Function.Injective f ∧
    ∀ i, completionOK (f i) ∧ extendsGrid (f i) g

/-- The singleton cell a completion puts at physical position `(i, j)`. -/
def cellOfDigits (S : Digits9) (i j : Nat) : Cell :=
  ⟨1 <<< ((S ⟨((i % 3) * 3 + j % 3) % 9, Nat.mod_lt _ (by omega)⟩
    ⟨((i / 3) * 3 + j / 3) % 9, Nat.mod_lt _ (by omega)⟩ : Fin 9) : Nat)⟩

def subGridOfDigits (S : Digits9) (i : Nat) : SubGrid :=
  ⟨(List.range 9).map fun j => cellOfDigits S i j, true⟩

/-- The fully-solved grid a completion describes: every cell the
singleton of its digit, every cache flag set — the exact state `solve`
surfaces for that completion. -/
def gridOfDigits (S : Digits9) : Grid :=
  ⟨(List.range 9).map fun i => subGridOfDigits S i⟩

/-- A concrete valid completion: the classic shifted-rows pattern. -/
def samplePattern : Digits9 := fun r c =>
  ⟨((r : Nat) * 3 + (r : Nat) / 3 + (c : Nat)) % 9, Nat.mod_lt _ (by omega)⟩

/-! ## Theorems -/

theorem popcountAux_congr :
    ∀ f f' n, n ≤ f → n ≤ f' → popcountAux f n = popcountAux f' n := by
  intro f
  induction f with
  | zero =>
    intro f' n hf _
    have hn : n = 0 := Nat.le_zero.mp hf
    subst hn
    cases f' <;> simp [popcountAux]
  | succ f ih =>
    intro f' n hf hf'
    by_cases hn : n = 0
    · subst hn; cases f' <;> simp [popcountAux]
    · have hn2 : n / 2 ≤ f := by omega
      cases f' with
      | zero => omega
      | succ f'' =>
        have hn2' : n / 2 ≤ f'' := by omega
        simp only [popcountAux, if_neg hn]
        rw [ih f'' (n / 2) hn2 hn2']

theorem popcount_div_mod (n : Nat) : popcount n = popcount (n / 2) + n % 2 := by
  by_cases hn : n = 0
  · subst hn; simp [popcount, popcountAux]
  · obtain ⟨m, rfl⟩ : ∃ m, n = m + 1 := ⟨n - 1, by omega⟩
    show popcountAux (m + 1) (m + 1) = _
    simp only [popcountAux, if_neg hn]
    congr 1
    exact popcountAux_congr m ((m + 1) / 2) ((m + 1) / 2) (by omega) (le_refl _)

theorem popcount_zero : popcount 0 = 0 := rfl

/-- Bits of `a &&& b` are a subset of those of `a`, so the popcount is
not larger. -/
theorem popcount_and_le (a b : Nat) : popcount (a &&& b) ≤ popcount a := by
  induction a using Nat.strong_induction_on generalizing b with
  | _ a ih =>
    by_cases h0 : a = 0
    · subst h0; simp [popcount_zero]
    · have hrec := ih (a / 2) (Nat.div_lt_self (Nat.pos_of_ne_zero h0) Nat.one_lt_two) (b / 2)
      have hd : (a &&& b) / 2 = a / 2 &&& b / 2 := Nat.and_div_two
      have hmle : (a &&& b) % 2 ≤ a % 2 := by
        rcases Nat.mod_two_eq_zero_or_one (a &&& b) with h | h
        · omega
        · have := (Nat.and_mod_two_eq_one.mp h).1; omega
      rw [popcount_div_mod (a &&& b), popcount_div_mod a, hd]
      omega

/-- If intersecting with `b` changes `a`, the popcount strictly drops. -/
theorem popcount_and_lt (a b : Nat) (h : a &&& b ≠ a) :
    popcount (a &&& b) < popcount a := by
  induction a using Nat.strong_induction_on generalizing b with
  | _ a ih =>
    by_cases h0 : a = 0
    · subst h0; simp at h
    · have hd : (a &&& b) / 2 = a / 2 &&& b / 2 := Nat.and_div_two
      have hmle : (a &&& b) % 2 ≤ a % 2 := by
        rcases Nat.mod_two_eq_zero_or_one (a &&& b) with h' | h'
        · omega
        · have := (Nat.and_mod_two_eq_one.mp h').1; omega
      have hsplit : (a &&& b) / 2 ≠ a / 2 ∨ (a &&& b) % 2 ≠ a % 2 := by
        by_contra hc
        push_neg at hc
        have h1 := Nat.div_add_mod (a &&& b) 2
        have h2 := Nat.div_add_mod a 2
        omega
      rcases hsplit with hne | hne
      · have hrec := ih (a / 2) (Nat.div_lt_self (Nat.pos_of_ne_zero h0) Nat.one_lt_two)
          (b / 2) (by rw [← hd]; exact hne)
        rw [popcount_div_mod (a &&& b), popcount_div_mod a, hd]
        omega
      · have hle : popcount (a / 2 &&& b / 2) ≤ popcount (a / 2) := popcount_and_le _ _
        rw [popcount_div_mod (a &&& b), popcount_div_mod a, hd]
        omega

/-- Popcount is additive on disjoint unions. -/
theorem popcount_or_disjoint (a b : Nat) (h : a &&& b = 0) :
    popcount (a ||| b) = popcount a + popcount b := by
  induction a using Nat.strong_induction_on generalizing b with
  | _ a ih =>
    by_cases h0 : a = 0
    · subst h0; simp [popcount_zero]
    · have hd2 : (a / 2) &&& (b / 2) = 0 := by
        rw [← Nat.and_div_two, h]
      have hrec := ih (a / 2) (Nat.div_lt_self (Nat.pos_of_ne_zero h0) Nat.one_lt_two)
        (b / 2) hd2
      have hod : (a ||| b) / 2 = a / 2 ||| b / 2 := Nat.or_div_two
      have hmNot : ¬(a % 2 = 1 ∧ b % 2 = 1) := by
        intro hc
        have h1 := Nat.and_mod_two_eq_one.mpr hc
        omega
      have hor : (a ||| b) % 2 = 1 ↔ a % 2 = 1 ∨ b % 2 = 1 := Nat.or_mod_two_eq_one
      have horv : (a ||| b) % 2 = a % 2 + b % 2 := by
        rcases Nat.mod_two_eq_zero_or_one a with ha | ha <;>
          rcases Nat.mod_two_eq_zero_or_one b with hb | hb
        · have hno : ¬((a ||| b) % 2 = 1) := by
            intro hc; rcases hor.mp hc with h' | h' <;> omega
          omega
        · have := hor.mpr (Or.inr hb); omega
        · have := hor.mpr (Or.inl ha); omega
        · exact absurd ⟨ha, hb⟩ hmNot
      rw [popcount_div_mod (a ||| b), popcount_div_mod a, popcount_div_mod b, hod]
      omega

theorem popcount_pos (n : Nat) (h : n ≠ 0) : 1 ≤ popcount n := by
  induction n using Nat.strong_induction_on with
  | _ n ih =>
    rw [popcount_div_mod]
    rcases Nat.mod_two_eq_zero_or_one n with hm | hm
    · have hn2 : n / 2 ≠ 0 := by omega
      have := ih (n / 2) (Nat.div_lt_self (Nat.pos_of_ne_zero h) Nat.one_lt_two) hn2
      omega
    · omega

/-- A number that is neither zero nor a power of two (in the
`n & (n-1)` sense) has at least two set bits. -/
theorem two_le_popcount (n : Nat) (h0 : n ≠ 0) (h1 : n &&& (n - 1) ≠ 0) :
    2 ≤ popcount n := by
  induction n using Nat.strong_induction_on with
  | _ n ih =>
    rcases Nat.mod_two_eq_zero_or_one n with hm | hm
    · have hn2 : n / 2 ≠ 0 := by omega
      have hd : (n &&& (n - 1)) / 2 = n / 2 &&& (n - 1) / 2 := Nat.and_div_two
      have hmod : (n &&& (n - 1)) % 2 = 0 := by
        rcases Nat.mod_two_eq_zero_or_one (n &&& (n - 1)) with h | h
        · exact h
        · have := (Nat.and_mod_two_eq_one.mp h).1; omega
      have hhalf : n / 2 &&& (n / 2 - 1) ≠ 0 := by
        have hpred : (n - 1) / 2 = n / 2 - 1 := by omega
        rw [← hpred, ← hd]
        omega
      have := ih (n / 2) (Nat.div_lt_self (Nat.pos_of_ne_zero h0) Nat.one_lt_two)
        hn2 hhalf
      rw [popcount_div_mod]
      omega
    · have hn2 : n / 2 ≠ 0 := by
        intro hc
        have : n = 1 := by omega
        subst this
        simp at h1
      have := popcount_pos (n / 2) hn2
      rw [popcount_div_mod]
      omega

set_option maxRecDepth 4096 in
/-- All split facts for 9-bit cells, by exhaustive check of the 512
possible bitmaps. -/
theorem split_facts :
    ∀ b < 512, 2 ≤ popcount b →
      candidatesList (Cell.split ⟨b⟩).1 =
        (candidatesList ⟨b⟩).take ((popcount b + 1) / 2) ∧
      (Cell.split ⟨b⟩).1.bmp ||| (Cell.split ⟨b⟩).2.bmp = b ∧
      (Cell.split ⟨b⟩).1.bmp &&& (Cell.split ⟨b⟩).2.bmp = 0 ∧
      (Cell.split ⟨b⟩).1.bmp ≠ 0 ∧ (Cell.split ⟨b⟩).2.bmp ≠ 0 ∧
      popcount (Cell.split ⟨b⟩).1.bmp = (popcount b + 1) / 2 ∧
      popcount (Cell.split ⟨b⟩).2.bmp = popcount b - (popcount b + 1) / 2 ∧
      (Cell.split ⟨b⟩).1.bmp < 512 ∧ (Cell.split ⟨b⟩).2.bmp < 512 := by
  decide

/-- C4: `split` on a cell with `k ≥ 2` candidates returns a left cell
holding exactly the first `⌈k/2⌉` candidate digits in ascending digit
order, the two bitmaps are disjoint, their union is the original bitmap,
and both halves are nonzero. -/
theorem claim_C4_split_contract (cell : Cell) (hb : cell.bmp < 512)
    (hk : 2 ≤ cell.nbPossibleValues) :
    candidatesList (Cell.split cell).1 =
      (candidatesList cell).take ((cell.nbPossibleValues + 1) / 2) ∧
    (Cell.split cell).1.bmp ||| (Cell.split cell).2.bmp = cell.bmp ∧
    (Cell.split cell).1.bmp &&& (Cell.split cell).2.bmp = 0 ∧
    (Cell.split cell).1.bmp ≠ 0 ∧ (Cell.split cell).2.bmp ≠ 0 := by
  obtain ⟨b⟩ := cell
  have h := split_facts b hb hk
  exact ⟨h.1, h.2.1, h.2.2.1, h.2.2.2.1, h.2.2.2.2.1⟩

/-- Witness for C4 at the cell `{1,4,6}` (bitmap 41). -/
theorem claim_C4_witness :
    (Cell.mk 41).bmp < 512 ∧ 2 ≤ (Cell.mk 41).nbPossibleValues ∧
    (candidatesList (Cell.split (Cell.mk 41)).1 =
      (candidatesList (Cell.mk 41)).take
        (((Cell.mk 41).nbPossibleValues + 1) / 2) ∧
    (Cell.split (Cell.mk 41)).1.bmp ||| (Cell.split (Cell.mk 41)).2.bmp =
      (Cell.mk 41).bmp ∧
    (Cell.split (Cell.mk 41)).1.bmp &&& (Cell.split (Cell.mk 41)).2.bmp = 0 ∧
    (Cell.split (Cell.mk 41)).1.bmp ≠ 0 ∧ (Cell.split (Cell.mk 41)).2.bmp ≠ 0) :=
  ⟨by decide, by decide, claim_C4_split_contract ⟨41⟩ (by decide) (by decide)⟩

/-! ## Sweep analysis: monotone decrease and the change flag -/
theorem list_set_getD_self {α : Type} :
    ∀ (l : List α) (i : Nat) (d : α), l.set i (l.getD i d) = l
  | [], _, _ => by simp
  | _ :: _, 0, _ => by simp
  | a :: l, i + 1, d => by
    simp only [List.getD_cons_succ, List.set_cons_succ, List.cons.injEq, true_and]
    exact list_set_getD_self l i d

theorem setCellAt_cellAt_self (sg : SubGrid) (row col : Nat) :
    sg.setCellAt row col (sg.cellAt row col) = sg := by
  unfold SubGrid.setCellAt SubGrid.cellAt
  rw [list_set_getD_self]

theorem setCell_cellAt_self (g : Grid) (row col : Nat) :
    g.setCell row col (g.cellAt row col) = g := by
  obtain ⟨l⟩ := g
  unfold Grid.setCell Grid.cellAt
  rw [setCellAt_cellAt_self]
  unfold Grid.subGridAt
  show Grid.mk (l.set _ (l.getD _ default)) = Grid.mk l
  rw [list_set_getD_self]

theorem sum_set_getD :
    ∀ (l : List Nat) (i x : Nat), i < l.length →
      (l.set i x).sum + l.getD i 0 = l.sum + x
  | [], i, x, h => by simp at h
  | a :: l, 0, x, _ => by simp [Nat.add_comm, Nat.add_left_comm]
  | a :: l, i + 1, x, h => by
    have ih := sum_set_getD l i x (by simpa using h)
    simp only [List.set_cons_succ, List.sum_cons, List.getD_cons_succ]
    omega

/-- Replacing an in-range cell changes `totalBits` by exactly the
difference of the popcounts. -/
theorem totalBits_setCell (g : Grid) (row col : Nat) (c : Cell)
    (hj : (col / 3) * 3 + row / 3 < g.subGrids.length)
    (hk : (col % 3) * 3 + row % 3 <
      (g.subGrids.getD ((col / 3) * 3 + row / 3) default).cells.length) :
    totalBits (g.setCell row col c) + popcount (g.cellAt row col).bmp =
      totalBits g + popcount c.bmp := by
  obtain ⟨l⟩ := g
  unfold totalBits Grid.setCell Grid.cellAt Grid.subGridAt SubGrid.setCellAt SubGrid.cellAt
  simp only [List.map_set]
  set j := (col / 3) * 3 + row / 3 with hjdef
  set k := (col % 3) * 3 + row % 3 with hkdef
  set sg := l.getD j default with hsgdef
  have hmap_len : j < (l.map fun sg => (sg.cells.map fun cell => popcount cell.bmp).sum).length := by
    simpa using hj
  have houter := sum_set_getD
    (l.map fun sg => (sg.cells.map fun cell => popcount cell.bmp).sum) j
    (((sg.cells.set k c).map fun cell => popcount cell.bmp).sum)
    hmap_len
  have hinner_len : k < (sg.cells.map fun cell => popcount cell.bmp).length := by
    simpa using hk
  have hinner := sum_set_getD (sg.cells.map fun cell => popcount cell.bmp) k
    (popcount c.bmp) hinner_len
  have hgd_outer : (l.map fun sg => (sg.cells.map fun cell => popcount cell.bmp).sum).getD j 0 =
      (sg.cells.map fun cell => popcount cell.bmp).sum := by
    rw [List.getD_eq_getElem _ _ hmap_len, List.getElem_map, hsgdef,
      List.getD_eq_getElem _ _ hj]
  have hgd_inner : (sg.cells.map fun cell => popcount cell.bmp).getD k 0 =
      popcount (sg.cells.getD k default).bmp := by
    rw [List.getD_eq_getElem _ _ hinner_len, List.getElem_map, List.getD_eq_getElem _ _ hk]
  simp only [List.map_set] at houter
  rw [hgd_outer] at houter
  rw [hgd_inner] at hinner
  omega

/-- An out-of-range `cellAt` read yields the default (zero) cell. -/
theorem cellAt_oob (g : Grid) (row col : Nat)
    (h : ¬((col / 3) * 3 + row / 3 < g.subGrids.length ∧
      (col % 3) * 3 + row % 3 <
        (g.subGrids.getD ((col / 3) * 3 + row / 3) default).cells.length)) :
    g.cellAt row col = ⟨0⟩ := by
  unfold Grid.cellAt Grid.subGridAt SubGrid.cellAt
  by_cases hj : (col / 3) * 3 + row / 3 < g.subGrids.length
  · have hk : ¬((col % 3) * 3 + row % 3 <
        (g.subGrids.getD ((col / 3) * 3 + row / 3) default).cells.length) := by
      intro hc; exact h ⟨hj, hc⟩
    rw [List.getD_eq_default _ _ (by omega)]
    rfl
  · have hd := List.getD_eq_default g.subGrids (default : SubGrid)
      (Nat.le_of_not_lt hj)
    rw [hd]
    rfl

theorem getD_le_sum : ∀ (l : List Nat) (i : Nat), l.getD i 0 ≤ l.sum
  | [], i => by simp
  | a :: l, 0 => by simp
  | a :: l, i + 1 => by
    have := getD_le_sum l i
    simp only [List.getD_cons_succ, List.sum_cons]
    omega

/-- Any single cell's popcount is bounded by the total bit count. -/
theorem popcount_cellAt_le (g : Grid) (row col : Nat) :
    popcount (g.cellAt row col).bmp ≤ totalBits g := by
  by_cases hin : (col / 3) * 3 + row / 3 < g.subGrids.length ∧
      (col % 3) * 3 + row % 3 <
        (g.subGrids.getD ((col / 3) * 3 + row / 3) default).cells.length
  · obtain ⟨l⟩ := g
    obtain ⟨hj, hk⟩ := hin
    have hcell : (Grid.mk l).cellAt row col =
        (l.getD ((col / 3) * 3 + row / 3) default).cells.getD
          ((col % 3) * 3 + row % 3) default := rfl
    rw [hcell]
    set j := (col / 3) * 3 + row / 3
    set k := (col % 3) * 3 + row % 3
    set sg := l.getD j default with hsgdef
    have hmap_len : j <
        (l.map fun sg => (sg.cells.map fun cell => popcount cell.bmp).sum).length := by
      simpa using hj
    have hinner_len : k < (sg.cells.map fun cell => popcount cell.bmp).length := by
      simpa using hk
    have h1 : popcount (sg.cells.getD k default).bmp =
        (sg.cells.map fun cell => popcount cell.bmp).getD k 0 := by
      rw [List.getD_eq_getElem _ _ hinner_len, List.getElem_map,
        List.getD_eq_getElem _ _ hk]
    have h2 : (sg.cells.map fun cell => popcount cell.bmp).sum =
        (l.map fun sg => (sg.cells.map fun cell => popcount cell.bmp).sum).getD j 0 := by
      rw [List.getD_eq_getElem _ _ hmap_len, List.getElem_map, hsgdef,
        List.getD_eq_getElem _ _ hj]
    have h3 := getD_le_sum (sg.cells.map fun cell => popcount cell.bmp) k
    have h4 := getD_le_sum
      (l.map fun sg => (sg.cells.map fun cell => popcount cell.bmp).sum) j
    show popcount (sg.cells.getD k default).bmp ≤ totalBits (Grid.mk l)
    have htb : totalBits (Grid.mk l) =
        (l.map fun sg => (sg.cells.map fun cell => popcount cell.bmp).sum).sum := rfl
    omega
  · rw [cellAt_oob g row col hin]
    simp [popcount_zero]

/-- Each cell step either leaves the accumulator unchanged or raises the
flag while strictly decreasing `totalBits` (which is then at least 2,
since the changed cell was unresolved). -/
theorem sweepCellStep_dichotomy (colBmps : List Nat) (rowBmp row : Nat)
    (acc : Grid × Bool) (col : Nat) :
    sweepCellStep colBmps rowBmp row acc col = acc ∨
      ((sweepCellStep colBmps rowBmp row acc col).2 = true ∧
        totalBits (sweepCellStep colBmps rowBmp row acc col).1 <
          totalBits acc.1 ∧ 2 ≤ totalBits acc.1) := by
  by_cases hknown : (acc.1.cellAt row col).isKnown
  · left; simp [sweepCellStep, hknown]
  · have hstep : sweepCellStep colBmps rowBmp row acc col =
        (acc.1.setCell row col ⟨narrowedBmp acc.1 colBmps rowBmp row col⟩,
          acc.2 || ((acc.1.cellAt row col).bmp !=
            narrowedBmp acc.1 colBmps rowBmp row col)) := by
      simp [sweepCellStep, hknown]
    by_cases hchg : narrowedBmp acc.1 colBmps rowBmp row col = (acc.1.cellAt row col).bmp
    · left
      have hc : (⟨narrowedBmp acc.1 colBmps rowBmp row col⟩ : Cell) =
          acc.1.cellAt row col := by
        rw [hchg]
      rw [hstep, hc, setCell_cellAt_self]
      simp [hchg]
    · right
      rw [hstep]
      have hmask : narrowedBmp acc.1 colBmps rowBmp row col =
          (acc.1.cellAt row col).bmp &&&
            (compl16 (acc.1.subGridAt (row / 3) (col / 3)).getBmpKnownValues &&&
              rowBmp &&& colBmps.getD col 0) := by
        unfold narrowedBmp
        rw [Nat.and_assoc, Nat.and_assoc, Nat.and_assoc, ← Nat.and_assoc (compl16 _)]
      have hlt : popcount (narrowedBmp acc.1 colBmps rowBmp row col) <
          popcount (acc.1.cellAt row col).bmp := by
        rw [hmask]
        exact popcount_and_lt _ _ (by rw [← hmask]; exact hchg)
      have hnz : (acc.1.cellAt row col).bmp ≠ 0 := by
        intro h0
        apply hchg
        unfold narrowedBmp
        rw [h0]
        simp [Nat.zero_and]
      have hin : (col / 3) * 3 + row / 3 < acc.1.subGrids.length ∧
          (col % 3) * 3 + row % 3 <
            (acc.1.subGrids.getD ((col / 3) * 3 + row / 3) default).cells.length := by
        by_contra hoob
        have := cellAt_oob acc.1 row col hoob
        exact hnz (congrArg Cell.bmp this)
      have htb := totalBits_setCell acc.1 row col
        ⟨narrowedBmp acc.1 colBmps rowBmp row col⟩ hin.1 hin.2
      rw [show (⟨narrowedBmp acc.1 colBmps rowBmp row col⟩ : Cell).bmp =
        narrowedBmp acc.1 colBmps rowBmp row col from rfl] at htb
      have hpc2 : 2 ≤ popcount (acc.1.cellAt row col).bmp := by
        apply two_le_popcount _ hnz
        intro hpow
        apply hknown
        rw [Cell.isKnown]
        simp [hnz, hpow]
      have htb2 : 2 ≤ totalBits acc.1 :=
        le_trans hpc2 (popcount_cellAt_le acc.1 row col)
      refine ⟨?_, ?_, htb2⟩
      · show (acc.2 || ((acc.1.cellAt row col).bmp !=
            narrowedBmp acc.1 colBmps rowBmp row col)) = true
        have hb : ((acc.1.cellAt row col).bmp !=
            narrowedBmp acc.1 colBmps rowBmp row col) = true := by
          simp only [bne_iff_ne, ne_eq]
          exact fun h => hchg h.symm
        simp [hb]
      · show totalBits (acc.1.setCell row col
            ⟨narrowedBmp acc.1 colBmps rowBmp row col⟩) < totalBits acc.1
        omega

/-- Propagating the cell-step dichotomy through a fold. -/
theorem foldl_dichotomy (s : (Grid × Bool) → Nat → (Grid × Bool))
    (hs : ∀ acc i, s acc i = acc ∨
      ((s acc i).2 = true ∧ totalBits (s acc i).1 < totalBits acc.1 ∧
        2 ≤ totalBits acc.1)) :
    ∀ (L : List Nat) (acc : Grid × Bool),
      L.foldl s acc = acc ∨
        ((L.foldl s acc).2 = true ∧ totalBits (L.foldl s acc).1 < totalBits acc.1 ∧
          2 ≤ totalBits acc.1)
  | [], acc => Or.inl rfl
  | i :: L, acc => by
    rcases hs acc i with h | h
    · rw [List.foldl_cons, h]
      exact foldl_dichotomy s hs L acc
    · rw [List.foldl_cons]
      rcases foldl_dichotomy s hs L (s acc i) with h2 | h2
      · rw [h2]; exact Or.inr h
      · exact Or.inr ⟨h2.1, Nat.lt_trans h2.2.1 h.2.1, h.2.2⟩

/-- The row step satisfies the same dichotomy. -/
theorem sweepRowStep_dichotomy (colBmps : List Nat) (acc : Grid × Bool) (row : Nat) :
    sweepRowStep colBmps acc row = acc ∨
      ((sweepRowStep colBmps acc row).2 = true ∧
        totalBits (sweepRowStep colBmps acc row).1 < totalBits acc.1 ∧
          2 ≤ totalBits acc.1) := by
  unfold sweepRowStep
  exact foldl_dichotomy _ (fun a i => sweepCellStep_dichotomy colBmps _ row a i) _ acc

/-- A sweep either changes nothing and reports `false`, or reports `true`
and strictly decreases the number of candidate bits (starting from at
least 2). -/
theorem sweep_spec (g : Grid) :
    sweep g = (g, false) ∨
      ((sweep g).2 = true ∧ totalBits (sweep g).1 < totalBits g ∧
        2 ≤ totalBits g) := by
  unfold sweep
  exact foldl_dichotomy _ (fun a row => sweepRowStep_dichotomy _ a row) _ (g, false)

/-- Unfolding `icAux` at successor fuel. -/
theorem icAux_succ (f : Nat) (g : Grid) :
    icAux (f + 1) g = cond (sweep g).2 (icAux f (sweep g).1) (sweep g).1 := rfl

/-- Unfolding `icAux` at successor fuel through a computed sweep. -/
theorem icAux_succ_of_sweep (f : Nat) (g g' : Grid) (b : Bool)
    (h : sweep g = (g', b)) :
    icAux (f + 1) g = if b then icAux f g' else g' := by
  rw [icAux_succ, h]
  cases b <;> rfl

theorem scAux_succ (f : Nat) (g : Grid) :
    scAux (f + 1) g = cond (sweep g).2 (scAux f (sweep g).1 + 1) 1 := rfl

theorem scAux_succ_of_sweep (f : Nat) (g g' : Grid) (b : Bool)
    (h : sweep g = (g', b)) :
    scAux (f + 1) g = if b then scAux f g' + 1 else 1 := by
  rw [scAux_succ, h]
  cases b <;> rfl

/-- With fuel exceeding `totalBits`, the sweep iteration reaches a state
the sweep no longer changes: the C++ loop terminates and the fuel model
computes its exact result. -/
theorem icAux_fix : ∀ (f : Nat) (g : Grid), totalBits g < f →
    sweep (icAux f g) = (icAux f g, false)
  | 0, _, h => by omega
  | f + 1, g, h => by
    rcases sweep_spec g with hs | hs
    · rw [icAux_succ_of_sweep f g g false hs]
      simpa using hs
    · obtain ⟨hflag, hlt, -⟩ := hs
      have hpair : sweep g = ((sweep g).1, true) := by
        rw [← hflag]
      rw [icAux_succ_of_sweep f g (sweep g).1 true hpair]
      simp only [if_true]
      exact icAux_fix f (sweep g).1 (by omega)

theorem intersectConstraints_fix (g : Grid) :
    sweep g.intersectConstraints = (g.intersectConstraints, false) :=
  icAux_fix (totalBits g + 1) g (Nat.lt_succ_self _)

/-- C5: running `intersectConstraints` twice yields exactly the state of
running it once — the returned state is a fixpoint of the sweep, so the
second call's first sweep reports no change and exits immediately. -/
theorem claim_C5_propagation_fixpoint (g : Grid) :
    g.intersectConstraints.intersectConstraints = g.intersectConstraints := by
  have hfix := intersectConstraints_fix g
  show icAux (totalBits g.intersectConstraints + 1) g.intersectConstraints = _
  rw [icAux_succ_of_sweep _ _ _ _ hfix]
  simp

set_option maxRecDepth 4096 in
theorem popcount_le_nine : ∀ b < 512, popcount b ≤ 9 := by decide

theorem sum_le_of_all_le : ∀ (l : List Nat) (c : Nat), (∀ x ∈ l, x ≤ c) →
    l.sum ≤ c * l.length
  | [], _, _ => by simp
  | a :: l, c, h => by
    have h1 := h a (List.mem_cons_self a l)
    have h2 := sum_le_of_all_le l c fun x hx => h x (List.mem_cons_of_mem a hx)
    simp only [List.sum_cons, List.length_cons]
    have : c * (l.length + 1) = c * l.length + c := by ring
    omega

theorem totalBits_le_of_wf (g : Grid) (hwf : g.wf) : totalBits g ≤ 729 := by
  obtain ⟨hlen, hsub⟩ := hwf
  have houter : ∀ x ∈ g.subGrids.map fun sg =>
      (sg.cells.map fun cell => popcount cell.bmp).sum, x ≤ 81 := by
    intro x hx
    rw [List.mem_map] at hx
    obtain ⟨sg, hsg, rfl⟩ := hx
    rw [List.mem_iff_getElem] at hsg
    obtain ⟨i, hi, rfl⟩ := hsg
    have hi9 : i < 9 := by omega
    obtain ⟨hclen, hcell⟩ := hsub i hi9
    rw [List.getD_eq_getElem _ _ hi] at hclen hcell
    have hinner : ∀ y ∈ (g.subGrids[i]).cells.map fun cell => popcount cell.bmp,
        y ≤ 9 := by
      intro y hy
      rw [List.mem_map] at hy
      obtain ⟨cell, hc, rfl⟩ := hy
      rw [List.mem_iff_getElem] at hc
      obtain ⟨j, hj, rfl⟩ := hc
      have hj9 : j < 9 := by omega
      have := hcell j hj9
      rw [List.getD_eq_getElem _ _ hj] at this
      exact popcount_le_nine _ this
    have := sum_le_of_all_le _ 9 hinner
    simp only [List.length_map, hclen] at this
    omega
  have := sum_le_of_all_le _ 81 houter
  simp only [List.length_map, hlen] at this
  unfold totalBits
  omega

theorem scAux_le : ∀ (f : Nat) (g : Grid), totalBits g < f →
    scAux f g ≤ max 1 (totalBits g)
  | 0, _, h => by omega
  | f + 1, g, h => by
    rcases sweep_spec g with hs | hs
    · rw [scAux_succ_of_sweep f g g false hs]
      simp
    · obtain ⟨hflag, hlt, h2⟩ := hs
      have hpair : sweep g = ((sweep g).1, true) := by
        rw [← hflag]
      rw [scAux_succ_of_sweep f g (sweep g).1 true hpair]
      simp only [if_true]
      have hrec := scAux_le f (sweep g).1 (by omega)
      rcases Nat.eq_zero_or_pos (totalBits (sweep g).1) with h0 | h0
      · rw [h0] at hrec
        simp at hrec
        omega
      · have : max 1 (totalBits (sweep g).1) = totalBits (sweep g).1 := by omega
        rw [this] at hrec
        have : max 1 (totalBits g) = totalBits g := by omega
        omega

/-- C8: the sweep loop of `intersectConstraints` always terminates (the
state it returns is a fixpoint of the sweep), and on a well-formed grid
executes at most 81·9 sweeps: each change-producing sweep strictly
reduces the total number of set candidate bits, which is at most 729 and
at least 2 whenever a change happens. -/
theorem claim_C8_propagation_terminates (g : Grid) (hwf : g.wf) :
    sweepCount g ≤ 81 * 9 ∧
      sweep g.intersectConstraints = (g.intersectConstraints, false) := by
  constructor
  · have h1 := scAux_le (totalBits g + 1) g (Nat.lt_succ_self _)
    have h2 := totalBits_le_of_wf g hwf
    unfold sweepCount
    omega
  · exact intersectConstraints_fix g

/-! ## Unfolding lemmas and basic laws of the solve loop -/
theorem solveLoop_zero (stack sols : List Grid) (m : Int) :
    solveLoop 0 stack sols m = sols := rfl

theorem solveLoop_nil (f : Nat) (sols : List Grid) (m : Int) :
    solveLoop (f + 1) [] sols m = sols := rfl

theorem solveLoop_cons (f : Nat) (g : Grid) (rest sols : List Grid) (m : Int) :
    solveLoop (f + 1) (g :: rest) sols m =
      cond (g.intersectConstraints.isSolvedS).2
        (cond (m - 1 == 0)
          (sols ++ [(g.intersectConstraints.isSolvedS).1])
          (solveLoop f rest (sols ++ [(g.intersectConstraints.isSolvedS).1])
            (m - 1)))
        (cond (g.intersectConstraints.isSolvedS).1.isValid
          (solveLoop f ((g.intersectConstraints.isSolvedS).1.generate rest)
            sols m)
          (solveLoop f rest sols m)) := rfl

theorem solveLoop_cons_solved_break (f : Nat) (g : Grid) (rest sols : List Grid)
    (m : Int) (hsolved : (g.intersectConstraints.isSolvedS).2 = true)
    (hbreak : m - 1 = 0) :
    solveLoop (f + 1) (g :: rest) sols m =
      sols ++ [(g.intersectConstraints.isSolvedS).1] := by
  rw [solveLoop_cons, hsolved, hbreak]
  rfl

theorem solveLoop_cons_solved_cont (f : Nat) (g : Grid) (rest sols : List Grid)
    (m : Int) (hsolved : (g.intersectConstraints.isSolvedS).2 = true)
    (hcont : m - 1 ≠ 0) :
    solveLoop (f + 1) (g :: rest) sols m =
      solveLoop f rest (sols ++ [(g.intersectConstraints.isSolvedS).1]) (m - 1) := by
  rw [solveLoop_cons, hsolved]
  have hb : (m - 1 == 0) = false := by
    simp [hcont]
  rw [hb]
  rfl

theorem solveLoop_cons_invalid (f : Nat) (g : Grid) (rest sols : List Grid)
    (m : Int) (hsolved : (g.intersectConstraints.isSolvedS).2 = false)
    (hvalid : (g.intersectConstraints.isSolvedS).1.isValid = false) :
    solveLoop (f + 1) (g :: rest) sols m = solveLoop f rest sols m := by
  rw [solveLoop_cons, hsolved, hvalid]
  rfl

theorem solveLoop_cons_branch (f : Nat) (g : Grid) (rest sols : List Grid)
    (m : Int) (hsolved : (g.intersectConstraints.isSolvedS).2 = false)
    (hvalid : (g.intersectConstraints.isSolvedS).1.isValid = true) :
    solveLoop (f + 1) (g :: rest) sols m =
      solveLoop f ((g.intersectConstraints.isSolvedS).1.generate rest) sols m := by
  rw [solveLoop_cons, hsolved, hvalid]
  rfl

/-- The solutions list is a pure accumulator. -/
theorem solveLoop_append (f : Nat) :
    ∀ (stack sols : List Grid) (m : Int),
      solveLoop f stack sols m = sols ++ solveLoop f stack [] m := by
  induction f with
  | zero => intro stack sols m; simp [solveLoop_zero]
  | succ f ih =>
    intro stack sols m
    cases stack with
    | nil => simp [solveLoop_nil]
    | cons g rest =>
      by_cases hsolved : (g.intersectConstraints.isSolvedS).2 = true
      · by_cases hbreak : m - 1 = 0
        · rw [solveLoop_cons_solved_break f g rest sols m hsolved hbreak,
            solveLoop_cons_solved_break f g rest [] m hsolved hbreak]
          simp
        · rw [solveLoop_cons_solved_cont f g rest sols m hsolved hbreak,
            solveLoop_cons_solved_cont f g rest [] m hsolved hbreak,
            ih rest (sols ++ [(g.intersectConstraints.isSolvedS).1]) (m - 1),
            ih rest ([] ++ [(g.intersectConstraints.isSolvedS).1]) (m - 1)]
          simp
      · rw [Bool.not_eq_true] at hsolved
        by_cases hvalid : (g.intersectConstraints.isSolvedS).1.isValid = true
        · rw [solveLoop_cons_branch f g rest sols m hsolved hvalid,
            solveLoop_cons_branch f g rest [] m hsolved hvalid]
          exact ih _ sols m
        · rw [Bool.not_eq_true] at hvalid
          rw [solveLoop_cons_invalid f g rest sols m hsolved hvalid,
            solveLoop_cons_invalid f g rest [] m hsolved hvalid]
          exact ih rest sols m

/-- Any non-positive cap behaves exactly like `-1`: the cap is
decremented before the zero test, so it never reaches zero from below. -/
theorem solveLoop_nonpos (f : Nat) :
    ∀ (stack sols : List Grid) (m : Int), m ≤ 0 →
      solveLoop f stack sols m = solveLoop f stack sols (-1) := by
  induction f with
  | zero => intro stack sols m _; rfl
  | succ f ih =>
    intro stack sols m hm
    cases stack with
    | nil => rfl
    | cons g rest =>
      by_cases hsolved : (g.intersectConstraints.isSolvedS).2 = true
      · have hc1 : m - 1 ≠ 0 := by omega
        have hc2 : (-1 : Int) - 1 ≠ 0 := by omega
        rw [solveLoop_cons_solved_cont f g rest sols m hsolved hc1,
          solveLoop_cons_solved_cont f g rest sols (-1) hsolved hc2,
          ih rest _ (m - 1) (by omega), ih rest _ (-1 - 1) (by omega)]
      · rw [Bool.not_eq_true] at hsolved
        by_cases hvalid : (g.intersectConstraints.isSolvedS).1.isValid = true
        · rw [solveLoop_cons_branch f g rest sols m hsolved hvalid,
            solveLoop_cons_branch f g rest sols (-1) hsolved hvalid,
            ih _ sols m hm]
        · rw [Bool.not_eq_true] at hvalid
          rw [solveLoop_cons_invalid f g rest sols m hsolved hvalid,
            solveLoop_cons_invalid f g rest sols (-1) hsolved hvalid,
            ih rest sols m hm]

/-- C7: `solve` with `max_solutions = 0` returns exactly the solutions of
the unbounded (`-1`) run: the cap is decremented before the comparison
with zero, so 0 slides to −1 and never trips the break. -/
theorem claim_C7_zero_cap_unbounded (g : Grid) :
    g.solve 0 = g.solve (-1) :=
  solveLoop_nonpos _ [g] [] 0 (by omega)

/-- A positive cap truncates the unbounded enumeration. -/
theorem solveLoop_take (f : Nat) :
    ∀ (stack : List Grid) (k : Int), 0 < k →
      solveLoop f stack [] k =
        List.take k.toNat (solveLoop f stack [] (-1)) := by
  induction f with
  | zero => intro stack k _; simp [solveLoop_zero]
  | succ f ih =>
    intro stack k hk
    cases stack with
    | nil => simp [solveLoop_nil]
    | cons g rest =>
      by_cases hsolved : (g.intersectConstraints.isSolvedS).2 = true
      · have hm1 : (-1 : Int) - 1 ≠ 0 := by omega
        rw [solveLoop_cons_solved_cont f g rest [] (-1) hsolved hm1]
        simp only [List.nil_append]
        rw [solveLoop_append f rest [(g.intersectConstraints.isSolvedS).1] (-1 - 1),
          solveLoop_nonpos f rest [] (-1 - 1) (by omega)]
        by_cases hbreak : k - 1 = 0
        · rw [solveLoop_cons_solved_break f g rest [] k hsolved hbreak]
          have hk1 : k.toNat = 1 := by omega
          rw [hk1]
          simp
        · rw [solveLoop_cons_solved_cont f g rest [] k hsolved hbreak]
          simp only [List.nil_append]
          rw [solveLoop_append f rest [(g.intersectConstraints.isSolvedS).1] (k - 1),
            ih rest (k - 1) (by omega)]
          have hk1 : k.toNat = (k - 1).toNat + 1 := by omega
          rw [hk1]
          simp
      · rw [Bool.not_eq_true] at hsolved
        by_cases hvalid : (g.intersectConstraints.isSolvedS).1.isValid = true
        · rw [solveLoop_cons_branch f g rest [] k hsolved hvalid,
            solveLoop_cons_branch f g rest [] (-1) hsolved hvalid]
          exact ih _ k hk
        · rw [Bool.not_eq_true] at hvalid
          rw [solveLoop_cons_invalid f g rest [] k hsolved hvalid,
            solveLoop_cons_invalid f g rest [] (-1) hsolved hvalid]
          exact ih rest k hk

/-- The capped run is a prefix (`take`) of the unbounded run. -/
theorem solve_take (g : Grid) (k : Int) (hk : 0 < k) :
    g.solve k = List.take k.toNat (g.solve (-1)) :=
  solveLoop_take _ [g] k hk

/-! ## Physical-cell relations between grid states -/
theorem getD_set_self {α : Type} :
    ∀ (l : List α) (i : Nat) (x d : α), i < l.length →
      (l.set i x).getD i d = x
  | [], _, _, _, h => by simp at h
  | _ :: _, 0, _, _, _ => rfl
  | _ :: l, i + 1, x, d, h => by
    simp only [List.set_cons_succ, List.getD_cons_succ]
    exact getD_set_self l i x d (by simpa using h)

theorem getD_set_ne {α : Type} :
    ∀ (l : List α) (i j : Nat) (x d : α), i ≠ j →
      (l.set i x).getD j d = l.getD j d
  | [], _, _, _, _, _ => by simp
  | _ :: _, 0, 0, _, _, h => absurd rfl h
  | _ :: _, 0, _ + 1, _, _, _ => by simp
  | _ :: _, _ + 1, 0, _, _, _ => by simp
  | _ :: l, i + 1, j + 1, x, d, h => by
    simp only [List.set_cons_succ, List.getD_cons_succ]
    exact getD_set_ne l i j x d (by omega)

/-- `cellAt` in terms of physical indices. -/
theorem cellAt_eq_pcell (g : Grid) (row col : Nat) :
    g.cellAt row col = g.pcell ((col / 3) * 3 + row / 3) ((col % 3) * 3 + row % 3) :=
  rfl

theorem cellsMono_refl (g : Grid) : CellsMono g g :=
  ⟨rfl, fun _ _ => ⟨rfl, rfl, Nat.and_self _, fun _ => rfl⟩⟩

theorem cellsMono_trans {g1 g2 g3 : Grid} (h12 : CellsMono g1 g2)
    (h23 : CellsMono g2 g3) : CellsMono g1 g3 := by
  obtain ⟨hl12, h12⟩ := h12
  obtain ⟨hl23, h23⟩ := h23
  refine ⟨hl23.trans hl12, fun i j => ?_⟩
  obtain ⟨hf12, hc12, hs12, hk12⟩ := h12 i j
  obtain ⟨hf23, hc23, hs23, hk23⟩ := h23 i j
  refine ⟨hf23.trans hf12, hc23.trans hc12, ?_, ?_⟩
  · have h1 : (g3.pcell i j).bmp &&& (g1.pcell i j).bmp =
        ((g3.pcell i j).bmp &&& (g2.pcell i j).bmp) &&& (g1.pcell i j).bmp := by
      rw [hs23]
    rw [h1, Nat.and_assoc, hs12, hs23]
  · intro hk
    have h2 := hk12 hk
    have h3 := hk23 (by rw [h2]; exact hk)
    rw [h3, h2]

/-- `setCell` at the sub-grid level. -/
theorem setCell_getD_sub (g : Grid) (row col : Nat) (x : Cell) (i : Nat) :
    (g.setCell row col x).subGrids.getD i default =
      if i = (col / 3) * 3 + row / 3 ∧ i < g.subGrids.length then
        { g.subGrids.getD i default with
            cells := (g.subGrids.getD i default).cells.set
              ((col % 3) * 3 + row % 3) x }
      else g.subGrids.getD i default := by
  show (g.subGrids.set ((col / 3) * 3 + row / 3) _).getD i default = _
  by_cases h1 : i = (col / 3) * 3 + row / 3
  · rw [h1]
    by_cases h2 : (col / 3) * 3 + row / 3 < g.subGrids.length
    · rw [getD_set_self _ _ _ _ h2, if_pos ⟨rfl, h2⟩]
      rfl
    · rw [List.set_eq_of_length_le (by omega)]
      rw [if_neg (fun hc => h2 hc.2)]
  · rw [getD_set_ne _ _ _ _ _ (fun h => h1 h.symm),
      if_neg (fun hc => h1 hc.1)]

theorem setCell_subGrids_length (g : Grid) (row col : Nat) (x : Cell) :
    (g.setCell row col x).subGrids.length = g.subGrids.length := by
  show (g.subGrids.set _ _).length = _
  simp

theorem setCell_flags (g : Grid) (row col : Nat) (x : Cell) (i : Nat) :
    ((g.setCell row col x).subGrids.getD i default)._isSolved =
      (g.subGrids.getD i default)._isSolved := by
  rw [setCell_getD_sub]
  split <;> rfl

theorem setCell_cells_length (g : Grid) (row col : Nat) (x : Cell) (i : Nat) :
    ((g.setCell row col x).subGrids.getD i default).cells.length =
      (g.subGrids.getD i default).cells.length := by
  rw [setCell_getD_sub]
  split
  · simp
  · rfl

theorem setCell_pcell_ne (g : Grid) (row col : Nat) (x : Cell) (i j : Nat)
    (hne : ¬(i = (col / 3) * 3 + row / 3 ∧ j = (col % 3) * 3 + row % 3)) :
    (g.setCell row col x).pcell i j = g.pcell i j := by
  unfold Grid.pcell
  rw [setCell_getD_sub]
  split
  · rename_i hcase
    have hj : j ≠ (col % 3) * 3 + row % 3 := by
      intro hc
      exact hne ⟨hcase.1, hc⟩
    show ((g.subGrids.getD i default).cells.set _ x).getD j default = _
    exact getD_set_ne _ _ _ _ _ (fun h => hj h.symm)
  · rfl

theorem setCell_pcell_self (g : Grid) (row col : Nat) (x : Cell)
    (h1 : (col / 3) * 3 + row / 3 < g.subGrids.length)
    (h2 : (col % 3) * 3 + row % 3 <
      (g.subGrids.getD ((col / 3) * 3 + row / 3) default).cells.length) :
    (g.setCell row col x).pcell ((col / 3) * 3 + row / 3)
      ((col % 3) * 3 + row % 3) = x := by
  unfold Grid.pcell
  rw [setCell_getD_sub, if_pos ⟨rfl, h1⟩]
  show ((g.subGrids.getD _ default).cells.set _ x).getD _ default = _
  exact getD_set_self _ _ _ _ h2

theorem setCell_pcell_oob (g : Grid) (row col : Nat) (x : Cell)
    (h : ¬((col / 3) * 3 + row / 3 < g.subGrids.length ∧
      (col % 3) * 3 + row % 3 <
        (g.subGrids.getD ((col / 3) * 3 + row / 3) default).cells.length)) :
    (g.setCell row col x).pcell ((col / 3) * 3 + row / 3)
      ((col % 3) * 3 + row % 3) = g.pcell ((col / 3) * 3 + row / 3)
      ((col % 3) * 3 + row % 3) := by
  unfold Grid.pcell
  rw [setCell_getD_sub]
  split
  · rename_i hcase
    have h2 : ¬((col % 3) * 3 + row % 3 <
        (g.subGrids.getD ((col / 3) * 3 + row / 3) default).cells.length) := by
      intro hc
      exact h ⟨hcase.2, hc⟩
    show ((g.subGrids.getD _ default).cells.set _ x).getD _ default = _
    rw [List.set_eq_of_length_le (by omega)]
  · rfl

/-- Absorption of the original operand through a chain of `&&&`. -/
theorem and_chain_absorb (a x y z : Nat) :
    (((a &&& x) &&& y) &&& z) &&& a = ((a &&& x) &&& y) &&& z := by
  apply Nat.eq_of_testBit_eq
  intro k
  simp only [Nat.testBit_and]
  cases a.testBit k <;> cases x.testBit k <;> cases y.testBit k <;>
    cases z.testBit k <;> rfl

/-- A single sweep cell step only shrinks unresolved cells. -/
theorem sweepCellStep_mono (colBmps : List Nat) (rowBmp row : Nat)
    (acc : Grid × Bool) (col : Nat) :
    CellsMono acc.1 (sweepCellStep colBmps rowBmp row acc col).1 := by
  by_cases hknown : (acc.1.cellAt row col).isKnown
  · have h : sweepCellStep colBmps rowBmp row acc col = acc := by
      simp [sweepCellStep, hknown]
    rw [h]
    exact cellsMono_refl _
  · have h : (sweepCellStep colBmps rowBmp row acc col).1 =
        acc.1.setCell row col ⟨narrowedBmp acc.1 colBmps rowBmp row col⟩ := by
      simp [sweepCellStep, hknown]
    rw [h]
    refine ⟨setCell_subGrids_length _ _ _ _, fun i j =>
      ⟨setCell_flags _ _ _ _ _, setCell_cells_length _ _ _ _ _, ?_, ?_⟩⟩
    · by_cases hij : i = (col / 3) * 3 + row / 3 ∧ j = (col % 3) * 3 + row % 3
      · obtain ⟨rfl, rfl⟩ := hij
        by_cases hr : (col / 3) * 3 + row / 3 < acc.1.subGrids.length ∧
            (col % 3) * 3 + row % 3 <
              (acc.1.subGrids.getD ((col / 3) * 3 + row / 3) default).cells.length
        · rw [setCell_pcell_self _ _ _ _ hr.1 hr.2]
          show narrowedBmp acc.1 colBmps rowBmp row col &&& (acc.1.pcell _ _).bmp =
            narrowedBmp acc.1 colBmps rowBmp row col
          unfold narrowedBmp
          rw [cellAt_eq_pcell]
          exact and_chain_absorb _ _ _ _
        · rw [setCell_pcell_oob _ _ _ _ hr]
          exact Nat.and_self _
      · rw [setCell_pcell_ne _ _ _ _ _ _ hij]
        exact Nat.and_self _
    · intro hk
      by_cases hij : i = (col / 3) * 3 + row / 3 ∧ j = (col % 3) * 3 + row % 3
      · obtain ⟨rfl, rfl⟩ := hij
        rw [cellAt_eq_pcell] at hknown
        exact absurd hk hknown
      · exact setCell_pcell_ne _ _ _ _ _ _ hij

theorem foldl_mono (s : (Grid × Bool) → Nat → (Grid × Bool))
    (hs : ∀ acc i, CellsMono acc.1 (s acc i).1) :
    ∀ (L : List Nat) (acc : Grid × Bool), CellsMono acc.1 (L.foldl s acc).1
  | [], _ => cellsMono_refl _
  | i :: L, acc => cellsMono_trans (hs acc i) (foldl_mono s hs L (s acc i))

theorem sweepRowStep_mono (colBmps : List Nat) (acc : Grid × Bool) (row : Nat) :
    CellsMono acc.1 (sweepRowStep colBmps acc row).1 := by
  unfold sweepRowStep
  exact foldl_mono _ (fun a i => sweepCellStep_mono colBmps _ row a i) _ acc

theorem sweep_mono (g : Grid) : CellsMono g (sweep g).1 := by
  unfold sweep
  exact foldl_mono _ (fun a row => sweepRowStep_mono _ a row) _ (g, false)

theorem icAux_mono : ∀ (f : Nat) (g : Grid), CellsMono g (icAux f g)
  | 0, g => cellsMono_refl g
  | f + 1, g => by
    rw [icAux_succ]
    cases hb : (sweep g).2
    · exact sweep_mono g
    · exact cellsMono_trans (sweep_mono g) (icAux_mono f (sweep g).1)

theorem ic_mono (g : Grid) : CellsMono g g.intersectConstraints :=
  icAux_mono _ g

theorem wf_of_mono {g g' : Grid} (hwf : g.wf) (hm : CellsMono g g') : g'.wf := by
  obtain ⟨hlen, hsub⟩ := hwf
  refine ⟨hm.1.trans hlen, fun i hi => ?_⟩
  obtain ⟨hclen, hcell⟩ := hsub i hi
  refine ⟨(hm.2 i 0).2.1.trans hclen, fun j hj => ?_⟩
  have hbit := (hm.2 i j).2.2.1
  have : (g'.pcell i j).bmp ≤ (g.pcell i j).bmp := by
    rw [← hbit]; exact Nat.and_le_right
  have := hcell j hj
  unfold Grid.pcell at *
  omega

theorem flagsOK_of_mono {g g' : Grid} (hok : g.flagsOK) (hm : CellsMono g g') :
    g'.flagsOK := by
  intro i hi hflag j hj
  have hf := (hm.2 i j).1
  have hk := hok i hi (by rw [← hf]; exact hflag) j hj
  rw [(hm.2 i j).2.2.2 hk]
  exact hk

theorem cellsEq_refl (g : Grid) : CellsEq g g := ⟨rfl, fun _ _ => ⟨rfl, rfl⟩⟩

theorem cellsEq_trans {g1 g2 g3 : Grid} (h12 : CellsEq g1 g2)
    (h23 : CellsEq g2 g3) : CellsEq g1 g3 :=
  ⟨h23.1.trans h12.1, fun i j =>
    ⟨(h23.2 i j).1.trans (h12.2 i j).1, (h23.2 i j).2.trans (h12.2 i j).2⟩⟩

theorem wf_of_cellsEq {g g' : Grid} (hwf : g.wf) (he : CellsEq g g') : g'.wf := by
  obtain ⟨hlen, hsub⟩ := hwf
  refine ⟨he.1.trans hlen, fun i hi => ?_⟩
  obtain ⟨hclen, hcell⟩ := hsub i hi
  refine ⟨(he.2 i 0).1.trans hclen, fun j hj => ?_⟩
  have := hcell j hj
  have hc := (he.2 i j).2
  unfold Grid.pcell at *
  rw [hc]
  exact this

/-! ## Analysis of `isSolved` (the cache-mutating solved test) -/
theorem isSolvedS_sub_cases (sg : SubGrid) :
    (sg.isSolvedS = (sg, true) ∧ sg._isSolved = true) ∨
    (sg.isSolvedS = ({ sg with _isSolved := true }, true) ∧
      sg._isSolved = false ∧ sg.allCellsKnown = true) ∨
    (sg.isSolvedS = (sg, false) ∧ sg._isSolved = false ∧
      sg.allCellsKnown = false) := by
  unfold SubGrid.isSolvedS
  by_cases h1 : sg._isSolved <;> by_cases h2 : sg.allCellsKnown <;>
    simp [h1, h2]

theorem isSolvedS_sub_cells (sg : SubGrid) :
    (sg.isSolvedS).1.cells = sg.cells := by
  rcases isSolvedS_sub_cases sg with ⟨h, _⟩ | ⟨h, _⟩ | ⟨h, _⟩ <;> rw [h]

theorem allCellsKnown_iff (sg : SubGrid) :
    sg.allCellsKnown = true ↔ ∀ j < 9, (sg.cells.getD j default).isKnown = true := by
  unfold SubGrid.allCellsKnown SubGrid.cellAt
  simp only [List.all_eq_true, List.mem_range]
  constructor
  · intro h j hj
    have := h (j % 3) (by omega) (j / 3) (by omega)
    have hidx : (j / 3) * 3 + j % 3 = j := by omega
    rwa [hidx] at this
  · intro h row hrow col hcol
    exact h (col * 3 + row) (by omega)

/-- Replacing a sub-grid by one with the same cells preserves the cells. -/
theorem cellsEq_set_sub (g : Grid) (i : Nat) (sg' : SubGrid)
    (hcells : sg'.cells = (g.subGrids.getD i default).cells) :
    CellsEq g ⟨g.subGrids.set i sg'⟩ := by
  refine ⟨by simp, fun i' j => ?_⟩
  show ((g.subGrids.set i sg').getD i' default).cells.length = _ ∧
    ((g.subGrids.set i sg').getD i' default).cells.getD j default = _
  by_cases hii : i' = i
  · subst hii
    by_cases hlen : i' < g.subGrids.length
    · rw [getD_set_self _ _ _ _ hlen, hcells]
      exact ⟨rfl, rfl⟩
    · rw [List.set_eq_of_length_le (by omega)]
      exact ⟨rfl, rfl⟩
  · rw [getD_set_ne _ _ _ _ _ (fun h => hii h.symm)]
    exact ⟨rfl, rfl⟩

/-- Setting the sub-grid `i` to the output of its `isSolved` preserves
the flag invariant. -/
theorem flagsOK_set_isSolvedS (g : Grid) (i : Nat) (hok : g.flagsOK) :
    Grid.flagsOK ⟨g.subGrids.set i ((g.subGrids.getD i default).isSolvedS).1⟩ := by
  intro i' hi' hflag j hj
  have hpcell := ((cellsEq_set_sub g i _ (isSolvedS_sub_cells _)).2 i' j).2
  rw [hpcell]
  have hflag' : ((g.subGrids.set i
      ((g.subGrids.getD i default).isSolvedS).1).getD i' default)._isSolved = true :=
    hflag
  by_cases hii : i' = i
  · subst hii
    by_cases hlen : i' < g.subGrids.length
    · rw [getD_set_self _ _ _ _ hlen] at hflag'
      rcases isSolvedS_sub_cases (g.subGrids.getD i' default) with
        ⟨h, hf⟩ | ⟨h, _, hall⟩ | ⟨h, hf, _⟩
      · rw [h] at hflag'
        exact hok i' hi' hflag' j hj
      · exact (allCellsKnown_iff _).mp hall j hj
      · rw [h] at hflag'
        rw [hf] at hflag'
        simp at hflag'
    · rw [List.set_eq_of_length_le (by omega)] at hflag'
      exact hok i' hi' hflag' j hj
  · rw [getD_set_ne _ _ _ _ _ (fun h => hii h.symm)] at hflag'
    exact hok i' hi' hflag' j hj

theorem isSolvedLoop_cons (g : Grid) (i : Nat) (L : List Nat) :
    isSolvedLoop g (i :: L) =
      if ((g.subGrids.getD i default).isSolvedS).2 then
        isSolvedLoop ⟨g.subGrids.set i ((g.subGrids.getD i default).isSolvedS).1⟩ L
      else (g, false) := by
  simp only [isSolvedLoop]

/-- Combined specification of the `Grid::isSolved` loop. -/
theorem isSolvedLoop_spec : ∀ (L : List Nat) (g : Grid), (∀ i ∈ L, i < 9) →
    g.flagsOK →
    CellsEq g (isSolvedLoop g L).1 ∧ (isSolvedLoop g L).1.flagsOK ∧
    ((isSolvedLoop g L).2 = true →
      ∀ i ∈ L, ∀ j < 9, (g.pcell i j).isKnown = true) ∧
    ((isSolvedLoop g L).2 = false →
      ∃ i ∈ L, ∃ j < 9, ¬(g.pcell i j).isKnown = true)
  | [], g, _, hok => by
    refine ⟨cellsEq_refl g, hok, fun _ i hi => absurd hi (List.not_mem_nil i), ?_⟩
    intro h
    simp [isSolvedLoop] at h
  | i :: L, g, hmem, hok => by
    have hi9 : i < 9 := hmem i (List.mem_cons_self i L)
    cases hp : ((g.subGrids.getD i default).isSolvedS).2
    · rw [isSolvedLoop_cons, hp]
      simp only [Bool.false_eq_true, if_false]
      refine ⟨cellsEq_refl g, hok, by simp, fun _ => ?_⟩
      rcases isSolvedS_sub_cases (g.subGrids.getD i default) with
        ⟨h, _⟩ | ⟨h, _, _⟩ | ⟨_, _, hall⟩
      · rw [h] at hp; simp at hp
      · rw [h] at hp; simp at hp
      · have hnall : ¬∀ j < 9,
            ((g.subGrids.getD i default).cells.getD j default).isKnown = true := by
          intro hc
          rw [(allCellsKnown_iff _).mpr hc] at hall
          simp at hall
        push_neg at hnall
        obtain ⟨j, hj, hnk⟩ := hnall
        exact ⟨i, List.mem_cons_self i L, j, hj, hnk⟩
    · rw [isSolvedLoop_cons, hp]
      simp only [if_true]
      have heq : CellsEq g ⟨g.subGrids.set i ((g.subGrids.getD i default).isSolvedS).1⟩ :=
        cellsEq_set_sub g i _ (isSolvedS_sub_cells _)
      have hok' := flagsOK_set_isSolvedS g i hok
      obtain ⟨hEq', hOK', htrue', hfalse'⟩ :=
        isSolvedLoop_spec L ⟨g.subGrids.set i ((g.subGrids.getD i default).isSolvedS).1⟩
          (fun i' hi' => hmem i' (List.mem_cons_of_mem i hi')) hok'
      refine ⟨cellsEq_trans heq hEq', hOK', ?_, ?_⟩
      · intro htr i' hi' j hj
        rcases List.mem_cons.mp hi' with rfl | hi'
        · rcases isSolvedS_sub_cases (g.subGrids.getD i' default) with
            ⟨h, hf⟩ | ⟨h, _, hall⟩ | ⟨h, _, _⟩
          · exact hok i' hi9 hf j hj
          · exact (allCellsKnown_iff _).mp hall j hj
          · rw [h] at hp; simp at hp
        · have := htrue' htr i' hi' j hj
          rwa [(heq.2 i' j).2] at this
      · intro hfa
        obtain ⟨i', hi', j, hj, hnk⟩ := hfalse' hfa
        rw [(heq.2 i' j).2] at hnk
        exact ⟨i', List.mem_cons_of_mem i hi', j, hj, hnk⟩

/-- Specification of `Grid::isSolved`: cells unchanged, flags stay
honest, `true` means every cell is a singleton, `false` exhibits a
non-singleton cell. -/
theorem isSolvedS_spec (g : Grid) (hok : g.flagsOK) :
    CellsEq g (g.isSolvedS).1 ∧ (g.isSolvedS).1.flagsOK ∧
    ((g.isSolvedS).2 = true → ∀ i < 9, ∀ j < 9, (g.pcell i j).isKnown = true) ∧
    ((g.isSolvedS).2 = false → ∃ i < 9, ∃ j < 9, ¬(g.pcell i j).isKnown = true) := by
  obtain ⟨h1, h2, h3, h4⟩ := isSolvedLoop_spec (List.range 9) g
    (fun i hi => List.mem_range.mp hi) hok
  refine ⟨h1, h2, ?_, ?_⟩
  · intro ht i hi j hj
    exact h3 ht i (List.mem_range.mpr hi) j hj
  · intro hf
    obtain ⟨i, hi, j, hj, hnk⟩ := h4 hf
    exact ⟨i, List.mem_range.mp hi, j, hj, hnk⟩

/-! ## Extraction from the house-validity check -/
theorem and_or_absorb (a b : Nat) : a &&& (a ||| b) = a := by
  apply Nat.eq_of_testBit_eq
  intro k
  simp only [Nat.testBit_and, Nat.testBit_or]
  cases a.testBit k <;> cases b.testBit k <;> rfl

theorem le_or_left (a b : Nat) : a ≤ a ||| b := by
  conv_lhs => rw [← and_or_absorb a b]
  exact Nat.and_le_right

theorem le_or_right (a b : Nat) : b ≤ a ||| b := by
  rw [Nat.or_comm]
  exact le_or_left b a

theorem and_or_zero {x a b : Nat} (h : x &&& (a ||| b) = 0) :
    x &&& a = 0 ∧ x &&& b = 0 := by
  rw [Nat.and_or_distrib_left] at h
  constructor
  · have := le_or_left (x &&& a) (x &&& b)
    omega
  · have := le_or_right (x &&& a) (x &&& b)
    omega

theorem unionBmp_cons (c : Cell) (l : List Cell) :
    unionBmp (c :: l) = c.bmp ||| unionBmp l := rfl

theorem mem_le_unionBmp : ∀ (l : List Cell), ∀ c ∈ l, c.bmp ≤ unionBmp l
  | c :: l, c', hc => by
    rcases List.mem_cons.mp hc with rfl | hc
    · rw [unionBmp_cons]
      exact le_or_left _ _
    · rw [unionBmp_cons]
      exact le_trans (mem_le_unionBmp l c' hc) (le_or_right _ _)

/-- What a successful run of the house-validity loop guarantees: no zero
cell, every singleton disjoint from the incoming known-mask, singletons
pairwise disjoint, and the accumulated union covering all nine digits. -/
theorem houseValidAux_spec : ∀ (cells : List Cell) (bmp kb : Nat),
    houseValidAux cells bmp kb = true →
    (∀ cell ∈ cells, cell.bmp ≠ 0) ∧
    (∀ cell ∈ cells, cell.isKnown = true → cell.bmp &&& kb = 0) ∧
    List.Pairwise (fun a b => a.isKnown = true → b.isKnown = true →
      a.bmp &&& b.bmp = 0) cells ∧
    bmp ||| unionBmp cells = 511
  | [], bmp, kb, h => by
    refine ⟨by simp, by simp, List.Pairwise.nil, ?_⟩
    have : (bmp == kAllPossibleBmp) = true := h
    have hb : bmp = kAllPossibleBmp := by simpa using this
    rw [hb]
    rfl
  | cell :: rest, bmp, kb, h => by
    unfold houseValidAux at h
    by_cases hdup : (cell.isKnown && (kb &&& cell.bmp != 0)) = true
    · rw [if_pos hdup] at h
      simp at h
    · rw [if_neg hdup] at h
      by_cases hz : (cell.bmp == 0) = true
      · rw [if_pos hz] at h
        simp at h
      · rw [if_neg hz] at h
        have hznat : cell.bmp ≠ 0 := by simpa using hz
        obtain ⟨h1, h2, h3, h4⟩ := houseValidAux_spec rest (bmp ||| cell.bmp)
          (if cell.isKnown then kb ||| cell.bmp else kb) h
        have hkdisj : cell.isKnown = true → cell.bmp &&& kb = 0 := by
          intro hk
          rw [Bool.and_eq_true] at hdup
          push_neg at hdup
          have := hdup hk
          have h0 : kb &&& cell.bmp = 0 := by simpa using this
          rw [Nat.and_comm]
          exact h0
        refine ⟨?_, ?_, ?_, ?_⟩
        · intro c hc
          rcases List.mem_cons.mp hc with rfl | hc
          · exact hznat
          · exact h1 c hc
        · intro c hc hk
          rcases List.mem_cons.mp hc with rfl | hc
          · exact hkdisj hk
          · have := h2 c hc hk
            by_cases hck : cell.isKnown = true
            · rw [if_pos hck] at this
              exact (and_or_zero this).1
            · rw [if_neg hck] at this
              exact this
        · refine List.Pairwise.cons ?_ h3
          intro c hc hk hck
          have := h2 c hc hck
          by_cases hcellk : cell.isKnown = true
          · rw [if_pos hcellk] at this
            have := (and_or_zero this).2
            rw [Nat.and_comm]
            exact this
          · exact absurd hk hcellk
        · rw [unionBmp_cons, ← Nat.or_assoc]
          exact h4

/-- The cells of row `row` (as walked by the row validator) at index `c`. -/
theorem rowCells_getElem (g : Grid) (row c : Nat) (h : c < 9) :
    (g.rowCells row).getD c default = g.cellAt row c := by
  unfold Grid.rowCells
  rw [List.getD_eq_getElem _ _ (by simp; omega)]
  simp

theorem rowCells_length (g : Grid) (row : Nat) : (g.rowCells row).length = 9 := by
  simp [Grid.rowCells]

theorem mem_rowCells (g : Grid) (row c : Nat) (h : c < 9) :
    g.cellAt row c ∈ g.rowCells row := by
  rw [← rowCells_getElem g row c h]
  rw [List.getD_eq_getElem _ _ (by rw [rowCells_length]; omega)]
  exact List.getElem_mem _

theorem colCells_getElem (g : Grid) (col r : Nat) (h : r < 9) :
    (g.colCells col).getD r default = g.cellAt r col := by
  unfold Grid.colCells
  rw [List.getD_eq_getElem _ _ (by simp; omega)]
  simp

theorem colCells_length (g : Grid) (col : Nat) : (g.colCells col).length = 9 := by
  simp [Grid.colCells]

theorem mem_colCells (g : Grid) (col r : Nat) (h : r < 9) :
    g.cellAt r col ∈ g.colCells col := by
  rw [← colCells_getElem g col r h]
  rw [List.getD_eq_getElem _ _ (by rw [colCells_length]; omega)]
  exact List.getElem_mem _

/-- Splitting `Grid::isValid` into its sub-grid, row and column parts. -/
theorem isValid_parts (g : Grid) (h : g.isValid = true) :
    (∀ i < 9, (g.subGrids.getD i default).isValid = true) ∧
    (∀ i < 9, g.isRowValid i = true ∧ g.isColValid i = true) := by
  unfold Grid.isValid at h
  rw [Bool.and_eq_true] at h
  obtain ⟨h1, h2⟩ := h
  rw [List.all_eq_true] at h1 h2
  constructor
  · intro i hi
    exact h1 i (List.mem_range.mpr hi)
  · intro i hi
    have := h2 i (List.mem_range.mpr hi)
    rw [Bool.and_eq_true] at this
    exact this

theorem isValid_no_zero (g : Grid) (h : g.isValid = true) :
    ∀ r < 9, ∀ c < 9, (g.cellAt r c).bmp ≠ 0 := by
  intro r hr c hc
  have hrow := ((isValid_parts g h).2 r hr).1
  unfold Grid.isRowValid houseValid at hrow
  exact (houseValidAux_spec _ _ _ hrow).1 _ (mem_rowCells g r c hc)

theorem isValid_bmp_lt (g : Grid) (h : g.isValid = true) :
    ∀ r < 9, ∀ c < 9, (g.cellAt r c).bmp < 512 := by
  intro r hr c hc
  have hrow := ((isValid_parts g h).2 r hr).1
  unfold Grid.isRowValid houseValid at hrow
  have h4 := (houseValidAux_spec _ _ _ hrow).2.2.2
  have hle := mem_le_unionBmp _ _ (mem_rowCells g r c hc)
  have h511 : unionBmp (g.rowCells r) = 511 := by simpa using h4
  omega

/-! ## The branching step: chosen cell and stack preservation -/
set_option maxRecDepth 4096 in
theorem unknown_nonzero_two_le :
    ∀ b < 512, Cell.isKnown ⟨b⟩ = false → b ≠ 0 → 2 ≤ popcount b := by
  decide

set_option maxRecDepth 4096 in
theorem two_le_not_known :
    ∀ b < 512, 2 ≤ popcount b → Cell.isKnown ⟨b⟩ = false := by
  decide

theorem isKnown_eta (cell : Cell) : Cell.isKnown ⟨cell.bmp⟩ = cell.isKnown := rfl

theorem pcell_eq_cellAt (g : Grid) (i j : Nat) (_hi : i < 9) (hj : j < 9) :
    g.pcell i j = g.cellAt ((i % 3) * 3 + j % 3) ((i / 3) * 3 + j / 3) := by
  rw [cellAt_eq_pcell]
  have h1 : (((i / 3) * 3 + j / 3) / 3) * 3 + ((i % 3) * 3 + j % 3) / 3 = i := by
    omega
  have h2 : (((i / 3) * 3 + j / 3) % 3) * 3 + ((i % 3) * 3 + j % 3) % 3 = j := by
    omega
  rw [h1, h2]

theorem wf_cellAt_lt (g : Grid) (hwf : g.wf) (r c : Nat) (hr : r < 9) (hc : c < 9) :
    (g.cellAt r c).bmp < 512 := by
  rw [cellAt_eq_pcell]
  exact (hwf.2 ((c / 3) * 3 + r / 3) (by omega)).2 ((c % 3) * 3 + r % 3) (by omega)

theorem gclcAux_mem (g : Grid) :
    ∀ (L : List (Nat × Nat)) (ret : Nat × Nat) (lowest : Nat),
      gclcAux g L ret lowest = ret ∨ gclcAux g L ret lowest ∈ L
  | [], _, _ => Or.inl rfl
  | rc :: L, ret, lowest => by
    unfold gclcAux
    by_cases h1 : 1 < (g.cellAt rc.1 rc.2).nbPossibleValues ∧
        (g.cellAt rc.1 rc.2).nbPossibleValues < lowest
    · rw [if_pos h1]
      by_cases h2 : (g.cellAt rc.1 rc.2).nbPossibleValues = 2
      · rw [if_pos h2]
        exact Or.inr (List.mem_cons_self rc L)
      · rw [if_neg h2]
        rcases gclcAux_mem g L rc (g.cellAt rc.1 rc.2).nbPossibleValues with h | h
        · rw [h]
          exact Or.inr (List.mem_cons_self rc L)
        · exact Or.inr (List.mem_cons_of_mem rc h)
    · rw [if_neg h1]
      rcases gclcAux_mem g L ret lowest with h | h
      · exact Or.inl h
      · exact Or.inr (List.mem_cons_of_mem rc h)

theorem rowColPairs_bounds : ∀ rc ∈ rowColPairs, rc.1 < 9 ∧ rc.2 < 9 := by
  intro rc h
  simp only [rowColPairs, List.mem_flatMap, List.mem_map, List.mem_range] at h
  obtain ⟨r, hr, c, hc, rfl⟩ := h
  exact ⟨hr, hc⟩

theorem mem_rowColPairs (r c : Nat) (hr : r < 9) (hc : c < 9) :
    (r, c) ∈ rowColPairs := by
  simp only [rowColPairs, List.mem_flatMap, List.mem_map, List.mem_range]
  exact ⟨r, hr, c, hc, rfl⟩

theorem gclc_bounds (g : Grid) :
    g.getCellWithLowestConstraints.1 < 9 ∧ g.getCellWithLowestConstraints.2 < 9 := by
  unfold Grid.getCellWithLowestConstraints
  rcases gclcAux_mem g rowColPairs (0, 0) 10 with h | h
  · rw [h]
    exact ⟨by omega, by omega⟩
  · exact rowColPairs_bounds _ h

theorem gclcAux_found (g : Grid) :
    ∀ (L : List (Nat × Nat)) (ret : Nat × Nat) (lowest : Nat),
      (2 ≤ (g.cellAt ret.1 ret.2).nbPossibleValues ∨
        ∃ rc ∈ L, 1 < (g.cellAt rc.1 rc.2).nbPossibleValues ∧
          (g.cellAt rc.1 rc.2).nbPossibleValues < lowest) →
      2 ≤ (g.cellAt (gclcAux g L ret lowest).1
        (gclcAux g L ret lowest).2).nbPossibleValues
  | [], ret, lowest, h => by
    rcases h with h | ⟨rc, hrc, _⟩
    · exact h
    · exact absurd hrc (List.not_mem_nil rc)
  | rc :: L, ret, lowest, h => by
    unfold gclcAux
    by_cases h1 : 1 < (g.cellAt rc.1 rc.2).nbPossibleValues ∧
        (g.cellAt rc.1 rc.2).nbPossibleValues < lowest
    · rw [if_pos h1]
      by_cases h2 : (g.cellAt rc.1 rc.2).nbPossibleValues = 2
      · rw [if_pos h2]
        omega
      · rw [if_neg h2]
        exact gclcAux_found g L rc _ (Or.inl (by omega))
    · rw [if_neg h1]
      apply gclcAux_found g L ret lowest
      rcases h with h | ⟨rc', hrc', hcond⟩
      · exact Or.inl h
      · rcases List.mem_cons.mp hrc' with rfl | hrc'
        · exact absurd hcond h1
        · exact Or.inr ⟨rc', hrc', hcond⟩

theorem gclc_found (g : Grid) (hwf : g.wf)
    (h : ∃ r < 9, ∃ c < 9, 2 ≤ (g.cellAt r c).nbPossibleValues) :
    2 ≤ (g.cellAt g.getCellWithLowestConstraints.1
      g.getCellWithLowestConstraints.2).nbPossibleValues := by
  obtain ⟨r, hr, c, hc, h2⟩ := h
  have h9 : (g.cellAt r c).nbPossibleValues ≤ 9 :=
    popcount_le_nine _ (wf_cellAt_lt g hwf r c hr hc)
  unfold Grid.getCellWithLowestConstraints
  apply gclcAux_found
  exact Or.inr ⟨(r, c), mem_rowColPairs r c hr hc,
    show 1 < (g.cellAt r c).nbPossibleValues by omega,
    show (g.cellAt r c).nbPossibleValues < 10 by omega⟩

/-- Substituting a 9-bit cell for an unresolved cell keeps the grid
well-formed and the flag cache honest. -/
theorem setCell_wf_flags (g : Grid) (r c : Nat) (hr : r < 9) (hc : c < 9)
    (x : Cell) (hx : x.bmp < 512) (hwf : g.wf) (hok : g.flagsOK)
    (hnk : (g.cellAt r c).isKnown = false) :
    (g.setCell r c x).wf ∧ (g.setCell r c x).flagsOK := by
  have hJ : (c / 3) * 3 + r / 3 < 9 := by omega
  have hK : (c % 3) * 3 + r % 3 < 9 := by omega
  constructor
  · refine ⟨by rw [setCell_subGrids_length]; exact hwf.1, fun i hi => ?_⟩
    refine ⟨by rw [setCell_cells_length]; exact (hwf.2 i hi).1, fun j hj => ?_⟩
    by_cases hij : i = (c / 3) * 3 + r / 3 ∧ j = (c % 3) * 3 + r % 3
    · obtain ⟨rfl, rfl⟩ := hij
      have hin1 : (c / 3) * 3 + r / 3 < g.subGrids.length := by
        rw [hwf.1]; omega
      have hin2 : (c % 3) * 3 + r % 3 <
          (g.subGrids.getD ((c / 3) * 3 + r / 3) default).cells.length := by
        rw [(hwf.2 _ hJ).1]; omega
      have := setCell_pcell_self g r c x hin1 hin2
      unfold Grid.pcell at this
      rw [this]
      exact hx
    · have := setCell_pcell_ne g r c x i j hij
      unfold Grid.pcell at this
      rw [this]
      exact (hwf.2 i hi).2 j hj
  · intro i hi hflag j hj
    rw [setCell_flags] at hflag
    have hiJ : i ≠ (c / 3) * 3 + r / 3 := by
      intro hc'
      have := hok i hi hflag ((c % 3) * 3 + r % 3) hK
      rw [pcell_eq_cellAt g i ((c % 3) * 3 + r % 3) hi hK] at this
      have hcoord1 : (((c / 3) * 3 + r / 3) % 3) * 3 + ((c % 3) * 3 + r % 3) % 3 = r := by
        omega
      have hcoord2 : (((c / 3) * 3 + r / 3) / 3) * 3 + ((c % 3) * 3 + r % 3) / 3 = c := by
        omega
      rw [hc', hcoord1, hcoord2] at this
      rw [this] at hnk
      simp at hnk
    have hne : ¬(i = (c / 3) * 3 + r / 3 ∧ j = (c % 3) * 3 + r % 3) := by
      intro hcon
      exact hiJ hcon.1
    rw [show (g.setCell r c x).pcell i j = g.pcell i j from setCell_pcell_ne g r c x i j hne]
    exact hok i hi hflag j hj

/-- The two snapshots pushed by `generate` are well-formed with honest
flags; everything else on the stack is untouched. -/
theorem generate_preserves (g : Grid) (stack : List Grid)
    (hwf : g.wf) (hok : g.flagsOK)
    (hunres : ∃ r < 9, ∃ c < 9, 2 ≤ (g.cellAt r c).nbPossibleValues) :
    ∀ g' ∈ g.generate stack, (g'.wf ∧ g'.flagsOK) ∨ g' ∈ stack := by
  obtain ⟨hr9, hc9⟩ := gclc_bounds g
  have hpc := gclc_found g hwf hunres
  have hblt := wf_cellAt_lt g hwf _ _ hr9 hc9
  have hnk : (g.cellAt g.getCellWithLowestConstraints.1
      g.getCellWithLowestConstraints.2).isKnown = false := by
    rw [← isKnown_eta]
    exact two_le_not_known _ hblt hpc
  have hs := split_facts (g.cellAt g.getCellWithLowestConstraints.1
      g.getCellWithLowestConstraints.2).bmp hblt hpc
  have hbl : ((g.cellAt g.getCellWithLowestConstraints.1
      g.getCellWithLowestConstraints.2).split.1).bmp < 512 := hs.2.2.2.2.2.2.2.1
  have hbr : ((g.cellAt g.getCellWithLowestConstraints.1
      g.getCellWithLowestConstraints.2).split.2).bmp < 512 := hs.2.2.2.2.2.2.2.2
  intro g' hg'
  rcases List.mem_cons.mp hg' with rfl | hg'
  · exact Or.inl (setCell_wf_flags g _ _ hr9 hc9 _ hbr hwf hok hnk)
  rcases List.mem_cons.mp hg' with rfl | hg'
  · exact Or.inl (setCell_wf_flags g _ _ hr9 hc9 _ hbl hwf hok hnk)
  · exact Or.inr hg'

/-! ## Soundness invariant of the solve loop -/
/-- Every grid the loop adds to the solutions list is well-formed, has
honest flags and consists solely of singleton cells. -/
theorem solveLoop_inv : ∀ (f : Nat) (stack sols : List Grid) (m : Int),
    (∀ g ∈ stack, g.wf ∧ g.flagsOK) →
    (∀ s ∈ sols, s.wf ∧ s.flagsOK ∧
      ∀ i < 9, ∀ j < 9, (s.pcell i j).isKnown = true) →
    ∀ s ∈ solveLoop f stack sols m,
      s.wf ∧ s.flagsOK ∧ ∀ i < 9, ∀ j < 9, (s.pcell i j).isKnown = true := by
  intro f
  induction f with
  | zero => intro stack sols m _ hsols; exact hsols
  | succ f ih =>
    intro stack sols m hstack hsols
    cases stack with
    | nil => exact hsols
    | cons g rest =>
      obtain ⟨hwf, hok⟩ := hstack g (List.mem_cons_self g rest)
      have hrest : ∀ g' ∈ rest, g'.wf ∧ g'.flagsOK :=
        fun g' h => hstack g' (List.mem_cons_of_mem g h)
      have hwf1 : g.intersectConstraints.wf := wf_of_mono hwf (ic_mono g)
      have hok1 : g.intersectConstraints.flagsOK := flagsOK_of_mono hok (ic_mono g)
      obtain ⟨hEq, hOK2, htrue, hfalse⟩ := isSolvedS_spec g.intersectConstraints hok1
      have hwf2 : (g.intersectConstraints.isSolvedS).1.wf := wf_of_cellsEq hwf1 hEq
      by_cases hsolved : (g.intersectConstraints.isSolvedS).2 = true
      · have hnew : ∀ s ∈ sols ++ [(g.intersectConstraints.isSolvedS).1],
            s.wf ∧ s.flagsOK ∧ ∀ i < 9, ∀ j < 9, (s.pcell i j).isKnown = true := by
          intro s hs
          rcases List.mem_append.mp hs with hs | hs
          · exact hsols s hs
          · rw [List.mem_singleton.mp hs]
            refine ⟨hwf2, hOK2, fun i hi j hj => ?_⟩
            rw [(hEq.2 i j).2]
            exact htrue hsolved i hi j hj
        by_cases hbreak : m - 1 = 0
        · rw [solveLoop_cons_solved_break f g rest sols m hsolved hbreak]
          exact hnew
        · rw [solveLoop_cons_solved_cont f g rest sols m hsolved hbreak]
          exact ih rest _ (m - 1) hrest hnew
      · rw [Bool.not_eq_true] at hsolved
        by_cases hvalid : (g.intersectConstraints.isSolvedS).1.isValid = true
        · rw [solveLoop_cons_branch f g rest sols m hsolved hvalid]
          apply ih _ sols m _ hsols
          intro g' hg'
          have hunres : ∃ r < 9, ∃ c < 9,
              2 ≤ ((g.intersectConstraints.isSolvedS).1.cellAt r c).nbPossibleValues := by
            obtain ⟨i, hi, j, hj, hnk⟩ := hfalse hsolved
            rw [← (hEq.2 i j).2] at hnk
            rw [Bool.not_eq_true] at hnk
            rw [pcell_eq_cellAt _ i j hi hj] at hnk
            refine ⟨(i % 3) * 3 + j % 3, by omega, (i / 3) * 3 + j / 3, by omega, ?_⟩
            have hnz := isValid_no_zero _ hvalid ((i % 3) * 3 + j % 3) (by omega)
              ((i / 3) * 3 + j / 3) (by omega)
            have hlt := wf_cellAt_lt _ hwf2 ((i % 3) * 3 + j % 3) ((i / 3) * 3 + j / 3)
              (by omega) (by omega)
            have := unknown_nonzero_two_le
              ((g.intersectConstraints.isSolvedS).1.cellAt ((i % 3) * 3 + j % 3)
                ((i / 3) * 3 + j / 3)).bmp hlt (by rw [isKnown_eta]; exact hnk) hnz
            exact this
          rcases generate_preserves _ rest hwf2 hOK2 hunres g' hg' with h | h
          · exact h
          · exact hrest g' h
        · rw [Bool.not_eq_true] at hvalid
          rw [solveLoop_cons_invalid f g rest sols m hsolved hvalid]
          exact ih rest sols m hrest hsols

set_option maxRecDepth 16384 in
/-- C1 is false as stated: on the all-ones input (no valid completion,
every cell a singleton `{1}`), `solve` returns that very grid as a
solution — it is fully solved but not globally valid, because the
solved test precedes the validity test and solved grids are surfaced
unchecked. -/
theorem claim_C1_counterexample :
    ¬ (∀ s ∈ (Grid.ofBoard boardAllOnes).solve (-1),
        (∀ r < 9, ∀ c < 9, (s.cellAt r c).isKnown = true) ∧
          validSolutionSpec s) := by
  decide

/-- C1 (amended): for every well-formed input grid with an honest flag
cache and every cap, every grid in the list returned by `solve` is fully
solved — all 81 cells are singletons.  (The "globally valid" half of the
original claim is refuted by the all-ones counterexample above.) -/
theorem claim_C1_solutions_all_singletons (g : Grid) (m : Int)
    (hwf : g.wf) (hok : g.flagsOK) :
    ∀ s ∈ g.solve m, ∀ r < 9, ∀ c < 9, (s.cellAt r c).isKnown = true := by
  intro s hs r hr c hc
  have hinv := solveLoop_inv (stackMeasure [g]) [g] [] m
    (by
      intro g' hg'
      rw [List.mem_singleton.mp hg']
      exact ⟨hwf, hok⟩)
    (by simp) s hs
  rw [cellAt_eq_pcell]
  exact hinv.2.2 _ (by omega) _ (by omega)

set_option maxRecDepth 8192 in
/-- Witness for the amended C1 at the all-unknown board. -/
theorem claim_C1_witness :
    gridAllUnknown.wf ∧ gridAllUnknown.flagsOK ∧
    (∀ s ∈ gridAllUnknown.solve (-1),
      ∀ r < 9, ∀ c < 9, (s.cellAt r c).isKnown = true) :=
  ⟨by decide, by decide,
    claim_C1_solutions_all_singletons gridAllUnknown (-1) (by decide) (by decide)⟩

/-- C9: bit hygiene — `bmp & ~0x1FF == 0` (equivalently `bmp < 512` for
the 16-bit bitmap) holds for every cell produced by the constructor from
a character, preserved by constraint propagation, by `split` of a 9-bit
cell, by the driver's single-cell substitution, and by the whole solve
run. -/
theorem claim_C9_bit_hygiene :
    (∀ c : Char, c = '.' ∨ (49 ≤ c.toNat ∧ c.toNat ≤ 57) →
      (Cell.ofChar c).bmp < 512) ∧
    (∀ g : Grid, g.wf → g.intersectConstraints.wf) ∧
    (∀ cell : Cell, cell.bmp < 512 → 2 ≤ cell.nbPossibleValues →
      (cell.split).1.bmp < 512 ∧ (cell.split).2.bmp < 512) ∧
    (∀ (g : Grid) (r c : Nat) (x : Cell), r < 9 → c < 9 → x.bmp < 512 →
      g.wf → g.flagsOK → (g.cellAt r c).isKnown = false →
      (g.setCell r c x).wf) ∧
    (∀ (g : Grid) (m : Int), g.wf → g.flagsOK → ∀ s ∈ g.solve m, s.wf) := by
  refine ⟨?_, ?_, ?_, ?_, ?_⟩
  · intro c h
    rcases h with rfl | ⟨h1, h2⟩
    · decide
    · have hne : c ≠ '.' := by
        intro h
        rw [h] at h1
        exact absurd h1 (by decide)
      unfold Cell.ofChar
      rw [if_neg hne]
      show 0 ||| 1 <<< (c.toNat - 48 - 1) < 512
      rw [Nat.zero_or, Nat.one_shiftLeft]
      have h8 : c.toNat - 48 - 1 ≤ 8 := by omega
      calc 2 ^ (c.toNat - 48 - 1) ≤ 2 ^ 8 := Nat.pow_le_pow_right (by omega) h8
      _ < 512 := by omega
  · intro g hwf
    exact wf_of_mono hwf (ic_mono g)
  · intro cell hb hk
    have := split_facts cell.bmp hb hk
    exact ⟨this.2.2.2.2.2.2.2.1, this.2.2.2.2.2.2.2.2⟩
  · intro g r c x hr hc hx hwf hok hnk
    exact (setCell_wf_flags g r c hr hc x hx hwf hok hnk).1
  · intro g m hwf hok s hs
    exact (solveLoop_inv (stackMeasure [g]) [g] [] m
      (by
        intro g' hg'
        rw [List.mem_singleton.mp hg']
        exact ⟨hwf, hok⟩)
      (by simp) s hs).1

set_option maxRecDepth 8192 in
/-- Witness for C9: the solve-run conjunct applied at the all-unknown
board. -/
theorem claim_C9_witness :
    gridAllUnknown.wf ∧ gridAllUnknown.flagsOK ∧
    (∀ s ∈ gridAllUnknown.solve (-1), s.wf) :=
  ⟨by decide, by decide,
    claim_C9_bit_hygiene.2.2.2.2 gridAllUnknown (-1) (by decide) (by decide)⟩

/-- C10: the `_isSolved` cache is never stale.  (i) A sub-grid whose
cache flag is honest answers `isSolved = true` only when all nine cells
really are singletons; honesty of the flags (`flagsOK`) is preserved by
(ii) constraint propagation, (iii) the flag-mutating solved test itself,
and (iv) the branching step, and (v) therefore holds on every grid the
driver's loop surfaces. -/
theorem claim_C10_cache_honest :
    (∀ sg : SubGrid,
      (sg._isSolved = true → ∀ j < 9, (sg.cells.getD j default).isKnown = true) →
      (sg.isSolvedS).2 = true → ∀ j < 9, (sg.cells.getD j default).isKnown = true) ∧
    (∀ g : Grid, g.flagsOK → g.intersectConstraints.flagsOK) ∧
    (∀ g : Grid, g.flagsOK → (g.isSolvedS).1.flagsOK) ∧
    (∀ (g : Grid) (stack : List Grid), g.wf → g.flagsOK →
      (∃ r < 9, ∃ c < 9, 2 ≤ (g.cellAt r c).nbPossibleValues) →
      ∀ g' ∈ g.generate stack, (g'.wf ∧ g'.flagsOK) ∨ g' ∈ stack) ∧
    (∀ (g : Grid) (m : Int), g.wf → g.flagsOK → ∀ s ∈ g.solve m, s.flagsOK) := by
  refine ⟨?_, ?_, ?_, ?_, ?_⟩
  · intro sg hhonest htrue j hj
    rcases isSolvedS_sub_cases sg with ⟨h, hf⟩ | ⟨h, _, hall⟩ | ⟨h, _, _⟩
    · exact hhonest hf j hj
    · exact (allCellsKnown_iff sg).mp hall j hj
    · rw [h] at htrue
      simp at htrue
  · intro g hok
    exact flagsOK_of_mono hok (ic_mono g)
  · intro g hok
    exact (isSolvedLoop_spec (List.range 9) g (fun i hi => List.mem_range.mp hi) hok).2.1
  · intro g stack hwf hok hunres
    exact generate_preserves g stack hwf hok hunres
  · intro g m hwf hok s hs
    exact (solveLoop_inv (stackMeasure [g]) [g] [] m
      (by
        intro g' hg'
        rw [List.mem_singleton.mp hg']
        exact ⟨hwf, hok⟩)
      (by simp) s hs).2.1

set_option maxRecDepth 8192 in
/-- Witness for C10: the solve-run conjunct applied at the all-unknown
board. -/
theorem claim_C10_witness :
    gridAllUnknown.wf ∧ gridAllUnknown.flagsOK ∧
    (∀ s ∈ gridAllUnknown.solve (-1), s.flagsOK) :=
  ⟨by decide, by decide,
    claim_C10_cache_honest.2.2.2.2 gridAllUnknown (-1) (by decide) (by decide)⟩

/-! ## Claim C2 -/
theorem isKnown_ne_zero (cell : Cell) (h : cell.isKnown = true) : cell.bmp ≠ 0 := by
  unfold Cell.isKnown at h
  rw [Bool.and_eq_true, bne_iff_ne] at h
  exact h.1

theorem rowCells_getElem_at (g : Grid) (row c : Nat)
    (hh : c < (g.rowCells row).length) :
    (g.rowCells row)[c] = g.cellAt row c := by
  simp [Grid.rowCells]

/-- Two identical singletons in one row make the grid invalid. -/
theorem dup_known_row_invalid (g : Grid) (r c1 c2 : Nat) (hr : r < 9)
    (hc1 : c1 < 9) (hc2 : c2 < 9) (hne : c1 ≠ c2)
    (hk1 : (g.cellAt r c1).isKnown = true) (hk2 : (g.cellAt r c2).isKnown = true)
    (heq : (g.cellAt r c1).bmp = (g.cellAt r c2).bmp) :
    g.isValid = false := by
  by_contra hvalid
  rw [Bool.not_eq_false] at hvalid
  have hrow := ((isValid_parts g hvalid).2 r hr).1
  unfold Grid.isRowValid houseValid at hrow
  have hpair := (houseValidAux_spec _ _ _ hrow).2.2.1
  rw [List.pairwise_iff_getElem] at hpair
  have hdisj : (g.cellAt r c1).bmp &&& (g.cellAt r c2).bmp = 0 := by
    rcases Nat.lt_or_ge c1 c2 with hlt | hge
    · have := hpair c1 c2 (by rw [rowCells_length]; omega)
        (by rw [rowCells_length]; omega) hlt
      rw [rowCells_getElem_at g r c1, rowCells_getElem_at g r c2] at this
      exact this hk1 hk2
    · have hlt : c2 < c1 := by omega
      have := hpair c2 c1 (by rw [rowCells_length]; omega)
        (by rw [rowCells_length]; omega) hlt
      rw [rowCells_getElem_at g r c2, rowCells_getElem_at g r c1] at this
      rw [Nat.and_comm]
      exact this hk2 hk1
  rw [heq, Nat.and_self] at hdisj
  exact isKnown_ne_zero _ hk2 hdisj

/-- A known cell survives propagation and the solved test unchanged. -/
theorem known_cell_stable (g : Grid) (hok : g.flagsOK) (r c : Nat)
    (_hr : r < 9) (_hc : c < 9) (hk : (g.cellAt r c).isKnown = true) :
    ((g.intersectConstraints.isSolvedS).1).cellAt r c = g.cellAt r c := by
  have hmono := ic_mono g
  obtain ⟨hEq, _, _, _⟩ :=
    isSolvedS_spec g.intersectConstraints (flagsOK_of_mono hok (ic_mono g))
  rw [cellAt_eq_pcell] at hk ⊢
  rw [cellAt_eq_pcell]
  rw [(hEq.2 _ _).2]
  exact (hmono.2 _ _).2.2.2 hk

/-- If propagation leaves an unresolved cell, the solved test answers
`false`. -/
theorem ic_not_solved (g : Grid) (hok : g.flagsOK)
    (h : ∃ r < 9, ∃ c < 9, (g.intersectConstraints.cellAt r c).isKnown = false) :
    ((g.intersectConstraints.isSolvedS)).2 = false := by
  obtain ⟨hEq, _, htrue, _⟩ :=
    isSolvedS_spec g.intersectConstraints (flagsOK_of_mono hok (ic_mono g))
  cases hb : (g.intersectConstraints.isSolvedS).2
  · rfl
  · obtain ⟨r, _hr, c, _hc, hnk⟩ := h
    rw [cellAt_eq_pcell] at hnk
    have := htrue hb ((c / 3) * 3 + r / 3) (by omega) ((c % 3) * 3 + r % 3) (by omega)
    rw [this] at hnk
    simp at hnk

theorem solveLoop_nil_any (f : Nat) (sols : List Grid) (m : Int) :
    solveLoop f [] sols m = sols := by
  cases f <;> rfl

/-- C2 (amended): an input grid with two identical singletons in the
same row whose propagated state still has a non-singleton cell yields an
empty solutions list, for every cap. -/
theorem claim_C2_dup_singletons_empty (g : Grid) (m : Int) (hok : g.flagsOK)
    (hdup : ∃ r < 9, ∃ c1 < 9, ∃ c2 < 9, c1 ≠ c2 ∧
      (g.cellAt r c1).isKnown = true ∧ (g.cellAt r c2).isKnown = true ∧
      (g.cellAt r c1).bmp = (g.cellAt r c2).bmp)
    (hunsolved : ∃ r < 9, ∃ c < 9,
      (g.intersectConstraints.cellAt r c).isKnown = false) :
    g.solve m = [] := by
  unfold Grid.solve
  obtain ⟨f', hf⟩ : ∃ f', stackMeasure [g] = f' + 1 := by
    refine ⟨stackMeasure [g] - 1, ?_⟩
    have : 0 < stackMeasure [g] := by
      unfold stackMeasure
      simp only [List.map_cons, List.map_nil, List.sum_cons, List.sum_nil]
      have := Nat.pos_pow_of_pos (totalBits g + 1) (show 0 < 3 by omega)
      omega
    omega
  rw [hf]
  have hsolved := ic_not_solved g hok hunsolved
  obtain ⟨r, hr, c1, hc1, c2, hc2, hne, hk1, hk2, heq⟩ := hdup
  have hs1 := known_cell_stable g hok r c1 hr hc1 hk1
  have hs2 := known_cell_stable g hok r c2 hr hc2 hk2
  have hvalid : ((g.intersectConstraints.isSolvedS)).1.isValid = false := by
    apply dup_known_row_invalid _ r c1 c2 hr hc1 hc2 hne
    · rw [hs1]; exact hk1
    · rw [hs2]; exact hk2
    · rw [hs1, hs2, heq]
  rw [solveLoop_cons_invalid f' g [] [] m hsolved hvalid, solveLoop_nil_any]

set_option maxRecDepth 16384 in
/-- C2 is false as stated: the all-ones board has two identical
singletons in its first row and admits no valid completion, yet `solve`
returns a non-empty list (the solved-but-invalid board itself). -/
theorem claim_C2_counterexample :
    (∃ r < 9, ∃ c1 < 9, ∃ c2 < 9, c1 ≠ c2 ∧
      ((Grid.ofBoard boardAllOnes).cellAt r c1).isKnown = true ∧
      ((Grid.ofBoard boardAllOnes).cellAt r c2).isKnown = true ∧
      ((Grid.ofBoard boardAllOnes).cellAt r c1).bmp =
        ((Grid.ofBoard boardAllOnes).cellAt r c2).bmp) ∧
    (¬∃ S : Digits9, completionOK S ∧ extendsGrid S (Grid.ofBoard boardAllOnes)) ∧
    (Grid.ofBoard boardAllOnes).solve (-1) ≠ [] := by
  refine ⟨by decide, ?_, by decide⟩
  rintro ⟨S, hok, hext⟩
  have hcell : ∀ r < 9, ∀ c < 9, (Grid.ofBoard boardAllOnes).cellAt r c = ⟨1⟩ := by
    decide
  have hone : ∀ d : Fin 9, Cell.contains ⟨1⟩ ((d : Nat) + 1) = true → d = 0 := by
    decide
  have h0 : ∀ r c : Fin 9, S r c = 0 := by
    intro r c
    have hx := hext r c
    rw [hcell (r : Nat) r.isLt (c : Nat) c.isLt] at hx
    exact hone _ hx
  have hne01 := hok.1 0 0 1 (by decide)
  rw [h0 0 0, h0 0 1] at hne01
  exact hne01 rfl

set_option maxRecDepth 16384 in
/-- Witness for the amended C2: two 5s in the first row of an otherwise
empty board. -/
theorem claim_C2_witness :
    (Grid.ofBoard [['5', '5']]).flagsOK ∧
    (Grid.ofBoard [['5', '5']]).solve (-1) = [] :=
  ⟨by decide,
    claim_C2_dup_singletons_empty (Grid.ofBoard [['5', '5']]) (-1) (by decide)
      ⟨0, by decide, 0, by decide, 1, by decide, by decide, by decide, by decide,
        by decide⟩
      ⟨0, by decide, 2, by decide, by decide⟩⟩

set_option maxRecDepth 8192 in
/-- Witness for C8 at the all-unknown board. -/
theorem claim_C8_witness :
    gridAllUnknown.wf ∧
      (sweepCount gridAllUnknown ≤ 81 * 9 ∧
        sweep gridAllUnknown.intersectConstraints =
          (gridAllUnknown.intersectConstraints, false)) :=
  ⟨by decide, claim_C8_propagation_terminates gridAllUnknown (by decide)⟩

/-! ## Claim C3: the work-stack invariant of `Grid::generate` -/
/-- If a fold with the change-flag dichotomy fixes an accumulator whose
flag is down, every individual step fixes that accumulator. -/
theorem foldl_fixed_steps (s : (Grid × Bool) → Nat → (Grid × Bool))
    (hs : ∀ acc i, s acc i = acc ∨
      ((s acc i).2 = true ∧ totalBits (s acc i).1 < totalBits acc.1 ∧
        2 ≤ totalBits acc.1)) :
    ∀ (L : List Nat) (acc : Grid × Bool), acc.2 = false →
      L.foldl s acc = acc → ∀ i ∈ L, s acc i = acc
  | [], _, _, _, i, hi => absurd hi (List.not_mem_nil i)
  | i :: L, acc, hfl, hfold, j, hj => by
    rw [List.foldl_cons] at hfold
    rcases hs acc i with heq | ⟨hflag, _, _⟩
    · rcases List.mem_cons.mp hj with rfl | hj
      · exact heq
      · rw [heq] at hfold
        exact foldl_fixed_steps s hs L acc hfl hfold j hj
    · exfalso
      rcases foldl_dichotomy s hs L (s acc i) with h2 | h2
      · rw [h2] at hfold
        rw [hfold, hfl] at hflag
        exact Bool.false_ne_true hflag
      · rw [hfold, hfl] at h2
        exact Bool.false_ne_true h2.1

/-- At a sweep fixpoint, every unresolved cell already equals its
three-way narrowing: the `oldBmp != cell.bmp` test fired nowhere. -/
theorem sweep_fix_narrow (g : Grid) (hfix : sweep g = (g, false))
    (row col : Nat) (hrow : row < 9) (hcol : col < 9)
    (hnk : (g.cellAt row col).isKnown = false) :
    (g.cellAt row col).bmp = narrowedBmp g
      ((List.range 9).map fun c => compl16 (g.colKnownBmp c))
      (compl16 (g.rowKnownBmp row)) row col := by
  have hfold : (List.range 9).foldl
      (sweepRowStep ((List.range 9).map fun c => compl16 (g.colKnownBmp c)))
      (g, false) = (g, false) := hfix
  have hrowfix := foldl_fixed_steps _
    (fun a i => sweepRowStep_dichotomy _ a i) (List.range 9) (g, false) rfl
    hfold row (List.mem_range.mpr hrow)
  have hcellfold : (List.range 9).foldl
      (sweepCellStep ((List.range 9).map fun c => compl16 (g.colKnownBmp c))
        (compl16 (g.rowKnownBmp row)) row) (g, false) = (g, false) := hrowfix
  have hcellfix := foldl_fixed_steps _
    (fun a i => sweepCellStep_dichotomy _ _ row a i) (List.range 9) (g, false) rfl
    hcellfold col (List.mem_range.mpr hcol)
  unfold sweepCellStep at hcellfix
  rw [if_neg (show ¬(((g, false) : Grid × Bool).1.cellAt row col).isKnown = true by
    simp [hnk])] at hcellfix
  have hsnd := congrArg Prod.snd hcellfix
  simp only [Bool.false_or] at hsnd
  have : ((g.cellAt row col).bmp != narrowedBmp g
      ((List.range 9).map fun c => compl16 (g.colKnownBmp c))
      (compl16 (g.rowKnownBmp row)) row col) = false := hsnd
  simpa using this

theorem knownMask_foldl_lt : ∀ (cells : List Cell) (acc : Nat), acc < 512 →
    (∀ c ∈ cells, c.bmp < 512) →
    cells.foldl (fun acc cell => if cell.isKnown then acc ||| cell.bmp else acc)
      acc < 512
  | [], _, ha, _ => ha
  | c :: rest, acc, ha, hb => by
    rw [List.foldl_cons]
    apply knownMask_foldl_lt rest _ _ (fun x hx => hb x (List.mem_cons_of_mem c hx))
    by_cases hk : c.isKnown
    · rw [if_pos hk]
      have h1 : acc < 2 ^ 9 := by omega
      have h2 : c.bmp < 2 ^ 9 := by
        have := hb c (List.mem_cons_self c rest)
        omega
      have := Nat.or_lt_two_pow h1 h2
      omega
    · rw [if_neg hk]
      exact ha

theorem knownMask_lt (cells : List Cell) (h : ∀ c ∈ cells, c.bmp < 512) :
    knownMask cells < 512 :=
  knownMask_foldl_lt cells 0 (by omega) h

theorem mem_rowCells_lt (g : Grid) (hwf : g.wf) (row : Nat) (hrow : row < 9) :
    ∀ c ∈ g.rowCells row, c.bmp < 512 := by
  intro c hc
  rw [Grid.rowCells] at hc
  simp only [List.mem_map, List.mem_range] at hc
  obtain ⟨col, hcol, rfl⟩ := hc
  exact wf_cellAt_lt g hwf row col hrow hcol

theorem rowKnownBmp_lt (g : Grid) (hwf : g.wf) (row : Nat) (hrow : row < 9) :
    g.rowKnownBmp row < 512 :=
  knownMask_lt _ (mem_rowCells_lt g hwf row hrow)

/-- At a sweep fixpoint, an unresolved cell's candidates are disjoint
from the known values of its row. -/
theorem fix_row_disjoint (g : Grid) (hwf : g.wf) (hfix : sweep g = (g, false))
    (row col : Nat) (hrow : row < 9) (hcol : col < 9)
    (hnk : (g.cellAt row col).isKnown = false) :
    (g.cellAt row col).bmp &&& g.rowKnownBmp row = 0 := by
  have hnarrow := sweep_fix_narrow g hfix row col hrow hcol hnk
  unfold narrowedBmp at hnarrow
  have hklt : g.rowKnownBmp row < 512 := rowKnownBmp_lt g hwf row hrow
  apply Nat.eq_of_testBit_eq
  intro t
  rw [Nat.testBit_and, Nat.zero_testBit]
  cases hbt : (g.cellAt row col).bmp.testBit t with
  | false => rw [Bool.false_and]
  | true =>
    rw [Bool.true_and]
    cases hrt : (g.rowKnownBmp row).testBit t with
    | false => rfl
    | true =>
      exfalso
      have ht16 : t < 16 := by
        by_contra h9
        have h2 : g.rowKnownBmp row < 2 ^ t := by
          calc g.rowKnownBmp row < 512 := hklt
          _ = 2 ^ 9 := by norm_num
          _ ≤ 2 ^ t := Nat.pow_le_pow_right (by omega) (by omega)
        rw [Nat.testBit_lt_two_pow h2] at hrt
        exact Bool.false_ne_true hrt
      have hb := congrArg (fun n => Nat.testBit n t) hnarrow
      simp only [Nat.testBit_and] at hb
      rw [hbt] at hb
      have hcompl : (compl16 (g.rowKnownBmp row)).testBit t = false := by
        unfold compl16
        rw [Nat.testBit_xor, hrt]
        rw [show (65535 : Nat) = 2 ^ 16 - 1 from rfl, Nat.testBit_two_pow_sub_one]
        simp [ht16]
      rw [hcompl] at hb
      simp at hb

/-- Pulling the fold accumulator of `knownMask` out as a disjunct of the
final mask. -/
theorem foldl_or_acc : ∀ (cells : List Cell) (acc : Nat),
    cells.foldl (fun acc cell => if cell.isKnown then acc ||| cell.bmp else acc)
      acc = acc ||| knownMask cells
  | [], acc => by
    show acc = acc ||| knownMask []
    rw [show knownMask [] = 0 from rfl, Nat.or_zero]
  | c :: rest, acc => by
    rw [List.foldl_cons, foldl_or_acc rest]
    have hkm : knownMask (c :: rest) =
        (if c.isKnown then (0 : Nat) ||| c.bmp else 0) ||| knownMask rest :=
      foldl_or_acc rest (if c.isKnown then (0 : Nat) ||| c.bmp else 0)
    rw [hkm]
    by_cases hk : c.isKnown
    · rw [if_pos hk, if_pos hk, Nat.zero_or, Nat.or_assoc]
    · rw [if_neg hk, if_neg hk, Nat.zero_or]

theorem knownMask_cons (c : Cell) (rest : List Cell) :
    knownMask (c :: rest) =
      if c.isKnown then c.bmp ||| knownMask rest else knownMask rest := by
  have h : knownMask (c :: rest) =
      (if c.isKnown then (0 : Nat) ||| c.bmp else 0) ||| knownMask rest :=
    foldl_or_acc rest (if c.isKnown then (0 : Nat) ||| c.bmp else 0)
  rw [h]
  by_cases hk : c.isKnown
  · rw [if_pos hk, if_pos hk, Nat.zero_or]
  · rw [if_neg hk, if_neg hk, Nat.zero_or]

theorem testBit_knownMask : ∀ (cells : List Cell) (t : Nat),
    (knownMask cells).testBit t =
      cells.any fun c => c.isKnown && c.bmp.testBit t
  | [], t => by
    rw [show knownMask [] = 0 from rfl, Nat.zero_testBit, List.any_nil]
  | c :: rest, t => by
    rw [knownMask_cons, List.any_cons]
    by_cases hk : c.isKnown
    · rw [if_pos hk, hk, Nat.testBit_or, testBit_knownMask rest t, Bool.true_and]
    · have hkf : c.isKnown = false := by simpa using hk
      rw [if_neg hk, testBit_knownMask rest t, hkf, Bool.false_and, Bool.false_or]

theorem testBit_unionBmp : ∀ (cells : List Cell) (t : Nat),
    (unionBmp cells).testBit t = cells.any fun c => c.bmp.testBit t
  | [], t => by
    rw [show unionBmp [] = 0 from rfl, Nat.zero_testBit, List.any_nil]
  | c :: rest, t => by
    rw [unionBmp_cons, Nat.testBit_or, List.any_cons, testBit_unionBmp rest t]

/-- A bitmap disjoint from every known cell is disjoint from the whole
known-mask. -/
theorem and_knownMask_zero (x : Nat) (cells : List Cell)
    (h : ∀ b ∈ cells, b.isKnown = true → x &&& b.bmp = 0) :
    x &&& knownMask cells = 0 := by
  apply Nat.eq_of_testBit_eq
  intro t
  rw [Nat.testBit_and, Nat.zero_testBit]
  cases hxt : x.testBit t with
  | false => rw [Bool.false_and]
  | true =>
    rw [Bool.true_and, testBit_knownMask]
    by_contra hany
    rw [Bool.not_eq_false, List.any_eq_true] at hany
    obtain ⟨b, hb, hbp⟩ := hany
    rw [Bool.and_eq_true] at hbp
    have h0 := congrArg (fun n => Nat.testBit n t) (h b hb hbp.1)
    simp only [Nat.testBit_and, Nat.zero_testBit] at h0
    rw [hxt, hbp.2] at h0
    simp at h0

/-- A member cell's bitmap is a bitwise subset of the union. -/
theorem bmp_and_union (cells : List Cell) (c : Cell) (hc : c ∈ cells) :
    c.bmp &&& unionBmp cells = c.bmp := by
  apply Nat.eq_of_testBit_eq
  intro t
  rw [Nat.testBit_and]
  cases hct : c.bmp.testBit t with
  | false => rw [Bool.false_and]
  | true =>
    rw [Bool.true_and, testBit_unionBmp]
    exact List.any_eq_true.mpr ⟨c, hc, hct⟩

/-- The known-mask is a bitwise subset of the union. -/
theorem knownMask_and_union (cells : List Cell) :
    knownMask cells &&& unionBmp cells = knownMask cells := by
  apply Nat.eq_of_testBit_eq
  intro t
  rw [Nat.testBit_and]
  cases hkt : (knownMask cells).testBit t with
  | false => rw [Bool.false_and]
  | true =>
    rw [Bool.true_and, testBit_unionBmp]
    rw [testBit_knownMask, List.any_eq_true] at hkt
    obtain ⟨b, hb, hbp⟩ := hkt
    rw [Bool.and_eq_true] at hbp
    exact List.any_eq_true.mpr ⟨b, hb, hbp.2⟩

theorem or_and_subset {a b u : Nat} (ha : a &&& u = a) (hb : b &&& u = b) :
    (a ||| b) &&& u = a ||| b := by
  rw [Nat.and_comm, Nat.and_or_distrib_left, Nat.and_comm u a, Nat.and_comm u b,
    ha, hb]

set_option maxRecDepth 4096 in
theorem known_pc_one : ∀ b < 512, Cell.isKnown ⟨b⟩ = true → popcount b = 1 := by
  decide

/-- Under pairwise disjointness the known-mask has exactly one bit per
known singleton. -/
theorem pc_knownMask : ∀ (cells : List Cell),
    List.Pairwise (fun a b => a.isKnown = true → b.isKnown = true →
      a.bmp &&& b.bmp = 0) cells →
    (∀ c ∈ cells, c.isKnown = true → popcount c.bmp = 1) →
    popcount (knownMask cells) = cells.countP (fun c => c.isKnown)
  | [], _, _ => by
    rw [show knownMask [] = 0 from rfl, popcount_zero, List.countP_nil]
  | c :: rest, hpair, hone => by
    rw [List.pairwise_cons] at hpair
    obtain ⟨hhead, hrest⟩ := hpair
    have hrec := pc_knownMask rest hrest
      (fun x hx => hone x (List.mem_cons_of_mem c hx))
    rw [knownMask_cons, List.countP_cons]
    by_cases hk : c.isKnown
    · rw [if_pos hk, if_pos hk]
      have hdisj : c.bmp &&& knownMask rest = 0 :=
        and_knownMask_zero c.bmp rest (fun b hb hbk => hhead b hb hk hbk)
      rw [popcount_or_disjoint _ _ hdisj, hrec,
        hone c (List.mem_cons_self c rest) hk]
      omega
    · rw [if_neg hk, if_neg hk, hrec]
      omega

theorem countP_range9_eight (p : Nat → Bool) (c0 : Nat) (hc0 : c0 < 9)
    (hp : ∀ c < 9, c ≠ c0 → p c = true) (hp0 : p c0 = false) :
    (List.range 9).countP p = 8 := by
  have hi : ∀ i, i < 9 → (if p i = true then 1 else 0) =
      if i = c0 then (0 : Nat) else 1 := by
    intro i h
    by_cases hic : i = c0
    · rw [hic, hp0]
      simp
    · rw [hp i h hic]
      simp [hic]
  rw [show List.range 9 = [0, 1, 2, 3, 4, 5, 6, 7, 8] from rfl]
  simp only [List.countP_cons, List.countP_nil]
  rw [hi 0 (by omega), hi 1 (by omega), hi 2 (by omega), hi 3 (by omega),
    hi 4 (by omega), hi 5 (by omega), hi 6 (by omega), hi 7 (by omega),
    hi 8 (by omega)]
  interval_cases c0 <;> simp

/-- Two grids agreeing cellwise on a row walk it identically. -/
theorem rowCells_congr (g g' : Grid) (r : Nat)
    (h : ∀ c < 9, g'.cellAt r c = g.cellAt r c) :
    g'.rowCells r = g.rowCells r := by
  show [g'.cellAt r 0, g'.cellAt r 1, g'.cellAt r 2, g'.cellAt r 3, g'.cellAt r 4,
    g'.cellAt r 5, g'.cellAt r 6, g'.cellAt r 7, g'.cellAt r 8] = _
  rw [h 0 (by omega), h 1 (by omega), h 2 (by omega), h 3 (by omega),
    h 4 (by omega), h 5 (by omega), h 6 (by omega), h 7 (by omega),
    h 8 (by omega)]
  rfl

/-- In a valid row at a propagation fixpoint, a single unresolved cell
among eight known singletons is squeezed to at most one candidate: the
eight singletons are pairwise distinct, so the nine-digit union forces
the ninth cell onto the one remaining digit while row-disjointness
removes the other eight. -/
theorem lone_unresolved_bound (g : Grid) (hwf : g.wf) (r0 c0 : Nat)
    (hr0 : r0 < 9) (hc0 : c0 < 9)
    (hrv : g.isRowValid r0 = true)
    (hothers : ∀ c < 9, c ≠ c0 → (g.cellAt r0 c).isKnown = true)
    (hc0nk : (g.cellAt r0 c0).isKnown = false)
    (hdisj : (g.cellAt r0 c0).bmp &&& g.rowKnownBmp r0 = 0) :
    popcount (g.cellAt r0 c0).bmp ≤ 1 := by
  obtain ⟨hnz, hkb, hpair, hun⟩ := houseValidAux_spec (g.rowCells r0) 0 0 hrv
  have hun511 : unionBmp (g.rowCells r0) = 511 := by simpa using hun
  have hone : ∀ x ∈ g.rowCells r0, x.isKnown = true → popcount x.bmp = 1 :=
    fun x hx hxk => known_pc_one x.bmp (mem_rowCells_lt g hwf r0 hr0 x hx)
      (by rw [isKnown_eta]; exact hxk)
  have hpckm : popcount (knownMask (g.rowCells r0)) =
      (g.rowCells r0).countP (fun c => c.isKnown) := pc_knownMask _ hpair hone
  have hcount : (g.rowCells r0).countP (fun c => c.isKnown) = 8 := by
    rw [Grid.rowCells]
    simp only [List.countP_map]
    exact countP_range9_eight _ c0 hc0 (fun c h1 h2 => hothers c h1 h2) hc0nk
  have hc0mem : g.cellAt r0 c0 ∈ g.rowCells r0 := mem_rowCells g r0 c0 hc0
  have hsub := or_and_subset (bmp_and_union _ _ hc0mem)
    (knownMask_and_union (g.rowCells r0))
  have hdisj' : (g.cellAt r0 c0).bmp &&& knownMask (g.rowCells r0) = 0 := hdisj
  have hadd := popcount_or_disjoint _ _ hdisj'
  have hle : popcount ((g.cellAt r0 c0).bmp ||| knownMask (g.rowCells r0)) ≤ 9 := by
    have h1 : popcount ((g.cellAt r0 c0).bmp ||| knownMask (g.rowCells r0)) =
        popcount (unionBmp (g.rowCells r0) &&&
          ((g.cellAt r0 c0).bmp ||| knownMask (g.rowCells r0))) := by
      rw [Nat.and_comm, hsub]
    rw [h1]
    have h2 := popcount_and_le (unionBmp (g.rowCells r0))
      ((g.cellAt r0 c0).bmp ||| knownMask (g.rowCells r0))
    have h3 : popcount (unionBmp (g.rowCells r0)) = 9 := by
      rw [hun511]
      decide
    omega
  omega

/-- When the branch point of `solve` is reached (propagated, not solved,
valid), no unresolved cell is alone: its row holds a second one.  In
particular branching never isolates the last unresolved cell. -/
theorem branch_two_unresolved (g : Grid) (hwf : g.wf) (hok : g.flagsOK)
    (_hsolved : (g.intersectConstraints.isSolvedS).2 = false)
    (hvalid : (g.intersectConstraints.isSolvedS).1.isValid = true) :
    ∀ r0 < 9, ∀ c0 < 9,
      2 ≤ ((g.intersectConstraints.isSolvedS).1.cellAt r0 c0).nbPossibleValues →
      ∃ r' < 9, ∃ c' < 9, ¬(r' = r0 ∧ c' = c0) ∧
        ((g.intersectConstraints.isSolvedS).1.cellAt r' c').isKnown = false ∧
        2 ≤ ((g.intersectConstraints.isSolvedS).1.cellAt r' c').nbPossibleValues := by
  intro r0 hr0 c0 hc0 hpc
  have hwf1 : g.intersectConstraints.wf := wf_of_mono hwf (ic_mono g)
  have hok1 : g.intersectConstraints.flagsOK := flagsOK_of_mono hok (ic_mono g)
  have hfix := intersectConstraints_fix g
  obtain ⟨hEq, hOK2, htrue, hfalse⟩ := isSolvedS_spec g.intersectConstraints hok1
  have hwf2 := wf_of_cellsEq hwf1 hEq
  have hcells : ∀ r < 9, ∀ c < 9,
      (g.intersectConstraints.isSolvedS).1.cellAt r c =
        g.intersectConstraints.cellAt r c := by
    intro r hr c hc
    rw [cellAt_eq_pcell, cellAt_eq_pcell]
    exact (hEq.2 _ _).2
  by_contra hcon
  push_neg at hcon
  have hothers : ∀ c < 9, c ≠ c0 →
      ((g.intersectConstraints.isSolvedS).1.cellAt r0 c).isKnown = true := by
    intro c hc hne
    by_contra hk
    have hkf : ((g.intersectConstraints.isSolvedS).1.cellAt r0 c).isKnown = false := by
      simpa using hk
    have hnz := isValid_no_zero _ hvalid r0 hr0 c hc
    have hlt := wf_cellAt_lt _ hwf2 r0 c hr0 hc
    have h2 := unknown_nonzero_two_le _ hlt (by rw [isKnown_eta]; exact hkf) hnz
    have h2' : 2 ≤ ((g.intersectConstraints.isSolvedS).1.cellAt r0 c).nbPossibleValues :=
      h2
    have hlt2 := hcon r0 hr0 c hc (fun _ => hne) hkf
    omega
  have hrv : (g.intersectConstraints.isSolvedS).1.isRowValid r0 = true :=
    ((isValid_parts _ hvalid).2 r0 hr0).1
  have hnk0 : ((g.intersectConstraints.isSolvedS).1.cellAt r0 c0).isKnown = false := by
    have hlt := wf_cellAt_lt _ hwf2 r0 c0 hr0 hc0
    rw [← isKnown_eta]
    exact two_le_not_known _ hlt hpc
  have hdisj : ((g.intersectConstraints.isSolvedS).1.cellAt r0 c0).bmp &&&
      (g.intersectConstraints.isSolvedS).1.rowKnownBmp r0 = 0 := by
    have hkm : (g.intersectConstraints.isSolvedS).1.rowKnownBmp r0 =
        g.intersectConstraints.rowKnownBmp r0 := by
      show knownMask _ = knownMask _
      rw [rowCells_congr g.intersectConstraints (g.intersectConstraints.isSolvedS).1
        r0 (fun c hc => hcells r0 hr0 c hc)]
    rw [hcells r0 hr0 c0 hc0, hkm]
    exact fix_row_disjoint g.intersectConstraints hwf1 hfix r0 c0 hr0 hc0
      (by rw [← hcells r0 hr0 c0 hc0]; exact hnk0)
  have hb := lone_unresolved_bound (g.intersectConstraints.isSolvedS).1 hwf2
    r0 c0 hr0 hc0 hrv hothers hnk0 hdisj
  have hpc' : 2 ≤ popcount ((g.intersectConstraints.isSolvedS).1.cellAt r0 c0).bmp :=
    hpc
  omega

/-- C3: whenever the driver's loop branches (the popped-and-propagated
grid is unsolved yet valid), each of the two snapshots `generate` pushes
onto the work stack still has a cell with at least two candidates at the
moment of the push — solved snapshots are never pushed. -/
theorem claim_C3_stack_invariant (g : Grid) (rest : List Grid)
    (hwf : g.wf) (hok : g.flagsOK)
    (hsolved : (g.intersectConstraints.isSolvedS).2 = false)
    (hvalid : (g.intersectConstraints.isSolvedS).1.isValid = true) :
    ∀ g' ∈ (g.intersectConstraints.isSolvedS).1.generate rest,
      g' ∈ rest ∨ ∃ r < 9, ∃ c < 9,
        (g'.cellAt r c).isKnown = false ∧ 2 ≤ (g'.cellAt r c).nbPossibleValues := by
  have hwf1 : g.intersectConstraints.wf := wf_of_mono hwf (ic_mono g)
  have hok1 : g.intersectConstraints.flagsOK := flagsOK_of_mono hok (ic_mono g)
  obtain ⟨hEq, hOK2, htrue, hfalse⟩ := isSolvedS_spec g.intersectConstraints hok1
  have hwf2 := wf_of_cellsEq hwf1 hEq
  have hunres : ∃ r < 9, ∃ c < 9,
      2 ≤ ((g.intersectConstraints.isSolvedS).1.cellAt r c).nbPossibleValues := by
    obtain ⟨i, hi, j, hj, hnk⟩ := hfalse hsolved
    rw [← (hEq.2 i j).2] at hnk
    rw [Bool.not_eq_true] at hnk
    rw [pcell_eq_cellAt _ i j hi hj] at hnk
    refine ⟨(i % 3) * 3 + j % 3, by omega, (i / 3) * 3 + j / 3, by omega, ?_⟩
    have hnz := isValid_no_zero _ hvalid ((i % 3) * 3 + j % 3) (by omega)
      ((i / 3) * 3 + j / 3) (by omega)
    have hlt := wf_cellAt_lt _ hwf2 ((i % 3) * 3 + j % 3) ((i / 3) * 3 + j / 3)
      (by omega) (by omega)
    exact unknown_nonzero_two_le
      ((g.intersectConstraints.isSolvedS).1.cellAt ((i % 3) * 3 + j % 3)
        ((i / 3) * 3 + j / 3)).bmp hlt (by rw [isKnown_eta]; exact hnk) hnz
  obtain ⟨hr9, hc9⟩ := gclc_bounds (g.intersectConstraints.isSolvedS).1
  have hpc := gclc_found _ hwf2 hunres
  obtain ⟨r', hr', c', hc', hne, hnk', hpc'⟩ :=
    branch_two_unresolved g hwf hok hsolved hvalid _ hr9 _ hc9 hpc
  have hstable : ∀ x : Cell,
      (((g.intersectConstraints.isSolvedS).1.setCell
          (g.intersectConstraints.isSolvedS).1.getCellWithLowestConstraints.1
          (g.intersectConstraints.isSolvedS).1.getCellWithLowestConstraints.2
          x).cellAt r' c') =
        (g.intersectConstraints.isSolvedS).1.cellAt r' c' := by
    intro x
    rw [cellAt_eq_pcell, cellAt_eq_pcell]
    apply setCell_pcell_ne
    intro hand
    obtain ⟨h1, h2⟩ := hand
    exact hne ⟨by omega, by omega⟩
  intro g' hg'
  rcases List.mem_cons.mp hg' with rfl | hg'
  · right
    refine ⟨r', hr', c', hc', ?_, ?_⟩
    · rw [hstable]
      exact hnk'
    · rw [hstable]
      exact hpc'
  rcases List.mem_cons.mp hg' with rfl | hg'
  · right
    refine ⟨r', hr', c', hc', ?_, ?_⟩
    · rw [hstable]
      exact hnk'
    · rw [hstable]
      exact hpc'
  · exact Or.inl hg'

set_option maxRecDepth 16384 in
/-- Witness for C3 at the all-unknown board, where the loop's first
iteration branches. -/
theorem claim_C3_witness :
    gridAllUnknown.wf ∧ gridAllUnknown.flagsOK ∧
    (gridAllUnknown.intersectConstraints.isSolvedS).2 = false ∧
    (gridAllUnknown.intersectConstraints.isSolvedS).1.isValid = true ∧
    (∀ g' ∈ (gridAllUnknown.intersectConstraints.isSolvedS).1.generate [],
      g' ∈ ([] : List Grid) ∨ ∃ r < 9, ∃ c < 9,
        (g'.cellAt r c).isKnown = false ∧ 2 ≤ (g'.cellAt r c).nbPossibleValues) :=
  ⟨by decide, by decide, by decide, by decide,
    claim_C3_stack_invariant gridAllUnknown [] (by decide) (by decide) (by decide)
      (by decide)⟩

/-! ## Claim C6: completeness of the search and cap obedience -/
theorem contains_testBit (cell : Cell) (d : Nat) :
    cell.contains (d + 1) = cell.bmp.testBit d := by
  unfold Cell.contains
  simp only [Nat.add_sub_cancel]
  rw [Nat.one_shiftLeft]
  cases hbt : cell.bmp.testBit d with
  | false =>
    have h0 : cell.bmp &&& 2 ^ d = 0 := by
      apply Nat.eq_of_testBit_eq
      intro t
      rw [Nat.testBit_and, Nat.zero_testBit, Nat.testBit_two_pow]
      by_cases htd : d = t
      · subst htd
        rw [hbt]
        rfl
      · simp [htd]
    rw [h0]
    rfl
  | true =>
    have hb : (cell.bmp &&& 2 ^ d).testBit d = true := by
      rw [Nat.testBit_and, hbt, Nat.testBit_two_pow]
      simp
    have hne : cell.bmp &&& 2 ^ d ≠ 0 := by
      intro h0
      rw [h0, Nat.zero_testBit] at hb
      exact Bool.false_ne_true hb
    rw [bne_iff_ne]
    exact hne

theorem extends_testBit (S : Digits9) (g : Grid) (hext : extendsGrid S g)
    (r c : Fin 9) : (g.cellAt r c).bmp.testBit (S r c) = true := by
  have h := hext r c
  rwa [contains_testBit] at h

set_option maxRecDepth 8192 in
theorem known_shift : ∀ b < 512, ∀ d < 9, Cell.isKnown ⟨b⟩ = true →
    b.testBit d = true → b = 1 <<< d := by
  decide

theorem shift_testBit_eq : ∀ d < 9, ∀ t < 9, (1 <<< d : Nat).testBit t = true →
    t = d := by
  decide

theorem pow_disjoint : ∀ d1 < 9, ∀ d2 < 9, d1 ≠ d2 →
    (1 <<< d1 : Nat) &&& (1 <<< d2) = 0 := by
  decide

theorem compl16_testBit (x t : Nat) (ht : t < 16) :
    (compl16 x).testBit t = !(x.testBit t) := by
  unfold compl16
  rw [Nat.testBit_xor, show (65535 : Nat) = 2 ^ 16 - 1 from rfl,
    Nat.testBit_two_pow_sub_one]
  simp [ht]

theorem testBit_ne_zero (x t : Nat) (h : x.testBit t = true) : x ≠ 0 := by
  intro h0
  rw [h0, Nat.zero_testBit] at h
  exact Bool.false_ne_true h

theorem mem_scanCells (sg : SubGrid) (x : Cell) :
    x ∈ sg.scanCells ↔ ∃ a, a < 3 ∧ ∃ b, b < 3 ∧ sg.cellAt a b = x := by
  unfold SubGrid.scanCells
  simp

theorem subGridAt_cellAt (g : Grid) (R C a b : Nat) (ha : a < 3) (hb : b < 3) :
    (g.subGridAt R C).cellAt a b = g.cellAt (3 * R + a) (3 * C + b) := by
  unfold Grid.cellAt
  rw [show (3 * R + a) / 3 = R by omega, show (3 * C + b) / 3 = C by omega,
    show (3 * R + a) % 3 = a by omega, show (3 * C + b) % 3 = b by omega]

/-- At an unresolved position, the digit a completion assigns there never
occurs among the known values of its row. -/
theorem rowKnown_digit_safe (g : Grid) (hwf : g.wf) (S : Digits9)
    (hok : completionOK S) (hext : extendsGrid S g) (r c : Fin 9)
    (hnk : (g.cellAt r c).isKnown = false) :
    (g.rowKnownBmp r).testBit (S r c) = false := by
  by_contra h
  rw [Bool.not_eq_false] at h
  rw [show g.rowKnownBmp r = knownMask (g.rowCells r) from rfl,
    testBit_knownMask, List.any_eq_true] at h
  obtain ⟨x, hx, hxp⟩ := h
  rw [Grid.rowCells] at hx
  simp only [List.mem_map, List.mem_range] at hx
  obtain ⟨c', hc', rfl⟩ := hx
  rw [Bool.and_eq_true] at hxp
  have hb512 := wf_cellAt_lt g hwf r c' r.isLt hc'
  have hknown' : Cell.isKnown ⟨(g.cellAt r c').bmp⟩ = true := by
    rw [isKnown_eta]
    exact hxp.1
  have hextc' := extends_testBit S g hext r ⟨c', hc'⟩
  have hsingle := known_shift _ hb512 _ (S r ⟨c', hc'⟩).isLt hknown' hextc'
  rw [hsingle] at hxp
  have heqd := shift_testBit_eq _ (S r ⟨c', hc'⟩).isLt _ (S r c).isLt hxp.2
  by_cases hcc : (⟨c', hc'⟩ : Fin 9) = c
  · have hcv : c' = (c : Nat) := congrArg Fin.val hcc
    rw [← hcv] at hnk
    rw [hxp.1] at hnk
    simp at hnk
  · exact hok.1 r ⟨c', hc'⟩ c hcc (Fin.val_inj.mp heqd.symm)

/-- Column version of the digit-safety fact. -/
theorem colKnown_digit_safe (g : Grid) (hwf : g.wf) (S : Digits9)
    (hok : completionOK S) (hext : extendsGrid S g) (r c : Fin 9)
    (hnk : (g.cellAt r c).isKnown = false) :
    (g.colKnownBmp c).testBit (S r c) = false := by
  by_contra h
  rw [Bool.not_eq_false] at h
  rw [show g.colKnownBmp c = knownMask (g.colCells c) from rfl,
    testBit_knownMask, List.any_eq_true] at h
  obtain ⟨x, hx, hxp⟩ := h
  rw [Grid.colCells] at hx
  simp only [List.mem_map, List.mem_range] at hx
  obtain ⟨r', hr', rfl⟩ := hx
  rw [Bool.and_eq_true] at hxp
  have hb512 := wf_cellAt_lt g hwf r' c hr' c.isLt
  have hknown' : Cell.isKnown ⟨(g.cellAt r' c).bmp⟩ = true := by
    rw [isKnown_eta]
    exact hxp.1
  have hextr' := extends_testBit S g hext ⟨r', hr'⟩ c
  have hsingle := known_shift _ hb512 _ (S ⟨r', hr'⟩ c).isLt hknown' hextr'
  rw [hsingle] at hxp
  have heqd := shift_testBit_eq _ (S ⟨r', hr'⟩ c).isLt _ (S r c).isLt hxp.2
  by_cases hrr : (⟨r', hr'⟩ : Fin 9) = r
  · have hrv : r' = (r : Nat) := congrArg Fin.val hrr
    rw [← hrv] at hnk
    rw [hxp.1] at hnk
    simp at hnk
  · exact hok.2.1 c ⟨r', hr'⟩ r hrr (Fin.val_inj.mp heqd.symm)

/-- Sub-grid version of the digit-safety fact. -/
theorem subKnown_digit_safe (g : Grid) (hwf : g.wf) (S : Digits9)
    (hok : completionOK S) (hext : extendsGrid S g) (r c : Fin 9)
    (hnk : (g.cellAt r c).isKnown = false) :
    ((g.subGridAt ((r : Nat) / 3) ((c : Nat) / 3)).getBmpKnownValues).testBit
      (S r c) = false := by
  by_contra h
  rw [Bool.not_eq_false] at h
  rw [show (g.subGridAt ((r : Nat) / 3) ((c : Nat) / 3)).getBmpKnownValues =
    knownMask (g.subGridAt ((r : Nat) / 3) ((c : Nat) / 3)).scanCells from rfl,
    testBit_knownMask, List.any_eq_true] at h
  obtain ⟨x, hx, hxp⟩ := h
  rw [mem_scanCells] at hx
  obtain ⟨a, ha, b, hb, hxeq⟩ := hx
  subst hxeq
  rw [subGridAt_cellAt g _ _ a b ha hb] at hxp
  rw [Bool.and_eq_true] at hxp
  have hr2 : 3 * ((r : Nat) / 3) + a < 9 := by omega
  have hc2 : 3 * ((c : Nat) / 3) + b < 9 := by omega
  have hb512 := wf_cellAt_lt g hwf _ _ hr2 hc2
  have hknown' :
      Cell.isKnown ⟨(g.cellAt (3 * ((r : Nat) / 3) + a) (3 * ((c : Nat) / 3) + b)).bmp⟩ =
        true := by
    rw [isKnown_eta]
    exact hxp.1
  have hext2 := extends_testBit S g hext ⟨3 * ((r : Nat) / 3) + a, hr2⟩
    ⟨3 * ((c : Nat) / 3) + b, hc2⟩
  have hsingle := known_shift _ hb512 _
    (S ⟨3 * ((r : Nat) / 3) + a, hr2⟩ ⟨3 * ((c : Nat) / 3) + b, hc2⟩).isLt hknown' hext2
  rw [hsingle] at hxp
  have heqd := shift_testBit_eq _
    (S ⟨3 * ((r : Nat) / 3) + a, hr2⟩ ⟨3 * ((c : Nat) / 3) + b, hc2⟩).isLt _
    (S r c).isLt hxp.2
  by_cases hsame : ((⟨3 * ((r : Nat) / 3) + a, hr2⟩ : Fin 9),
      (⟨3 * ((c : Nat) / 3) + b, hc2⟩ : Fin 9)) = (r, c)
  · have hrv : 3 * ((r : Nat) / 3) + a = (r : Nat) :=
      congrArg Fin.val (congrArg Prod.fst hsame)
    have hcv : 3 * ((c : Nat) / 3) + b = (c : Nat) :=
      congrArg Fin.val (congrArg Prod.snd hsame)
    rw [← hrv, ← hcv] at hnk
    rw [hxp.1] at hnk
    simp at hnk
  · exact hok.2.2 ⟨3 * ((r : Nat) / 3) + a, hr2⟩ ⟨3 * ((c : Nat) / 3) + b, hc2⟩ r c
      (by show (3 * ((r : Nat) / 3) + a) / 3 = (r : Nat) / 3; omega)
      (by show (3 * ((c : Nat) / 3) + b) / 3 = (c : Nat) / 3; omega)
      hsame (Fin.val_inj.mp heqd.symm)

theorem range_map_getD (f : Nat → Nat) (i : Nat) (hi : i < 9) :
    ((List.range 9).map f).getD i 0 = f i := by
  rw [List.getD_eq_getElem _ _ (by simpa using hi)]
  simp

theorem sweepRowStep_eq (colBmps : List Nat) (acc : Grid × Bool) (row : Nat) :
    sweepRowStep colBmps acc row =
      (List.range 9).foldl
        (sweepCellStep colBmps (compl16 (acc.1.rowKnownBmp row)) row) acc := rfl

theorem sweep_eq (g : Grid) :
    sweep g = (List.range 9).foldl
      (sweepRowStep ((List.range 9).map fun col => compl16 (g.colKnownBmp col)))
      (g, false) := rfl

theorem foldl_pres {α : Type} (P : α → Prop) (s : α → Nat → α) :
    ∀ L : List Nat, (∀ acc, ∀ i ∈ L, P acc → P (s acc i)) →
      ∀ acc, P acc → P (L.foldl s acc)
  | [], _, _, h => h
  | i :: L, hstep, acc, h => by
    rw [List.foldl_cons]
    exact foldl_pres P s L
      (fun a j hj ha => hstep a j (List.mem_cons_of_mem i hj) ha)
      (s acc i) (hstep acc i (List.mem_cons_self i L) h)

theorem setCell_cellAt_ne (g : Grid) (r c r' c' : Nat) (x : Cell)
    (hne : ¬(r' = r ∧ c' = c)) (hr' : r' < 9) (_hc' : c' < 9)
    (hr : r < 9) (_hc : c < 9) :
    (g.setCell r c x).cellAt r' c' = g.cellAt r' c' := by
  rw [cellAt_eq_pcell, cellAt_eq_pcell]
  apply setCell_pcell_ne
  intro hand
  obtain ⟨h1, h2⟩ := hand
  exact hne ⟨by omega, by omega⟩

theorem setCell_cellAt_self_wf (g : Grid) (hwf : g.wf) (r c : Nat)
    (hr : r < 9) (hc : c < 9) (x : Cell) :
    (g.setCell r c x).cellAt r c = x := by
  rw [cellAt_eq_pcell]
  apply setCell_pcell_self
  · rw [hwf.1]
    omega
  · rw [(hwf.2 _ (by omega)).1]
    omega

theorem extends_setCell (g : Grid) (hwf : g.wf) (S : Digits9)
    (hext : extendsGrid S g) (r c : Nat) (hr : r < 9) (hc : c < 9) (x : Cell)
    (hx : x.bmp.testBit (S ⟨r, hr⟩ ⟨c, hc⟩) = true) :
    extendsGrid S (g.setCell r c x) := by
  intro r' c'
  rw [contains_testBit]
  by_cases hrc : (r' : Nat) = r ∧ (c' : Nat) = c
  · have hcell : (g.setCell r c x).cellAt r' c' = x := by
      rw [show ((r' : Nat)) = r from hrc.1, show ((c' : Nat)) = c from hrc.2]
      exact setCell_cellAt_self_wf g hwf r c hr hc x
    rw [hcell]
    have hr'' : r' = ⟨r, hr⟩ := Fin.ext hrc.1
    have hc'' : c' = ⟨c, hc⟩ := Fin.ext hrc.2
    rw [hr'', hc'']
    exact hx
  · rw [setCell_cellAt_ne g r c r' c' x hrc r'.isLt c'.isLt hr hc,
      ← contains_testBit]
    exact hext r' c'

theorem mono_unknown_back {g g' : Grid} (hm : CellsMono g g') (r c : Nat)
    (h : (g'.cellAt r c).isKnown = false) : (g.cellAt r c).isKnown = false := by
  by_contra hk
  have hk' : (g.cellAt r c).isKnown = true := by simpa using hk
  rw [cellAt_eq_pcell] at hk' h
  rw [(hm.2 _ _).2.2.2 hk'] at h
  rw [hk'] at h
  simp at h

/-- One sweep cell step keeps the digit a completion assigns: the cell
contains it and none of the three known-masks can name it. -/
theorem sweepCellStep_pres (gpre g0 : Grid) (hwfpre : gpre.wf) (S : Digits9)
    (hok : completionOK S) (hextpre : extendsGrid S gpre)
    (hextg0 : extendsGrid S g0) (hm0 : CellsMono gpre g0) (r c : Fin 9)
    (acc : Grid × Bool) (hext : extendsGrid S acc.1)
    (hmp : CellsMono gpre acc.1) (hm0a : CellsMono g0 acc.1) :
    extendsGrid S (sweepCellStep
      ((List.range 9).map fun k => compl16 (gpre.colKnownBmp k))
      (compl16 (g0.rowKnownBmp r)) r acc c).1 := by
  by_cases hknown : (acc.1.cellAt r c).isKnown = true
  · simpa [sweepCellStep, hknown] using hext
  · have hknownf : (acc.1.cellAt r c).isKnown = false := by simpa using hknown
    have hstep : (sweepCellStep
        ((List.range 9).map fun k => compl16 (gpre.colKnownBmp k))
        (compl16 (g0.rowKnownBmp r)) r acc c).1 =
        acc.1.setCell r c ⟨narrowedBmp acc.1
          ((List.range 9).map fun k => compl16 (gpre.colKnownBmp k))
          (compl16 (g0.rowKnownBmp r)) r c⟩ := by
      simp [sweepCellStep, hknownf]
    rw [hstep]
    have hwfacc : acc.1.wf := wf_of_mono hwfpre hmp
    have hd9 := (S r c).isLt
    have hbit := extends_testBit S acc.1 hext r c
    have hsubbit := subKnown_digit_safe acc.1 hwfacc S hok hext r c hknownf
    have hrowbit := rowKnown_digit_safe g0 (wf_of_mono hwfpre hm0) S hok hextg0
      r c (mono_unknown_back hm0a r c hknownf)
    have hcolbit := colKnown_digit_safe gpre hwfpre S hok hextpre r c
      (mono_unknown_back hmp r c hknownf)
    have hnar : (narrowedBmp acc.1
        ((List.range 9).map fun k => compl16 (gpre.colKnownBmp k))
        (compl16 (g0.rowKnownBmp r)) r c).testBit (S r c) = true := by
      unfold narrowedBmp
      rw [range_map_getD _ _ c.isLt]
      simp only [Nat.testBit_and]
      rw [compl16_testBit _ _ (by omega), compl16_testBit _ _ (by omega),
        compl16_testBit _ _ (by omega), hbit, hsubbit, hrowbit, hcolbit]
      rfl
    exact extends_setCell acc.1 hwfacc S hext r c r.isLt c.isLt _ hnar

theorem sweepRowStep_pres (gpre : Grid) (hwfpre : gpre.wf) (S : Digits9)
    (hok : completionOK S) (hextpre : extendsGrid S gpre) (r : Fin 9)
    (acc : Grid × Bool) (hext : extendsGrid S acc.1)
    (hmp : CellsMono gpre acc.1) :
    extendsGrid S (sweepRowStep
      ((List.range 9).map fun k => compl16 (gpre.colKnownBmp k)) acc r).1 ∧
    CellsMono gpre (sweepRowStep
      ((List.range 9).map fun k => compl16 (gpre.colKnownBmp k)) acc r).1 := by
  rw [sweepRowStep_eq]
  have hres := foldl_pres
    (fun a : Grid × Bool => extendsGrid S a.1 ∧ CellsMono gpre a.1 ∧
      CellsMono acc.1 a.1)
    (sweepCellStep ((List.range 9).map fun k => compl16 (gpre.colKnownBmp k))
      (compl16 (acc.1.rowKnownBmp r)) r)
    (List.range 9)
    (fun a i hi ha => by
      have hi9 : i < 9 := List.mem_range.mp hi
      obtain ⟨h1, h2, h3⟩ := ha
      refine ⟨?_, cellsMono_trans h2 (sweepCellStep_mono _ _ _ a i),
        cellsMono_trans h3 (sweepCellStep_mono _ _ _ a i)⟩
      exact sweepCellStep_pres gpre acc.1 hwfpre S hok hextpre hext hmp r
        ⟨i, hi9⟩ a h1 h2 h3)
    acc ⟨hext, hmp, cellsMono_refl _⟩
  exact ⟨hres.1, hres.2.1⟩

theorem sweep_extends (g : Grid) (hwf : g.wf) (S : Digits9)
    (hok : completionOK S) (hext : extendsGrid S g) :
    extendsGrid S (sweep g).1 := by
  rw [sweep_eq]
  have hres := foldl_pres
    (fun a : Grid × Bool => extendsGrid S a.1 ∧ CellsMono g a.1)
    (sweepRowStep ((List.range 9).map fun col => compl16 (g.colKnownBmp col)))
    (List.range 9)
    (fun a i hi ha => by
      have hi9 : i < 9 := List.mem_range.mp hi
      have := sweepRowStep_pres g hwf S hok hext ⟨i, hi9⟩ a ha.1 ha.2
      exact this)
    (g, false) ⟨hext, cellsMono_refl g⟩
  exact hres.1

theorem icAux_extends (S : Digits9) (hok : completionOK S) :
    ∀ (f : Nat) (g : Grid), g.wf → extendsGrid S g →
      extendsGrid S (icAux f g)
  | 0, _, _, hext => hext
  | f + 1, g, hwf, hext => by
    rw [icAux_succ]
    cases hb : (sweep g).2
    · exact sweep_extends g hwf S hok hext
    · exact icAux_extends S hok f (sweep g).1
        (wf_of_mono hwf (sweep_mono g)) (sweep_extends g hwf S hok hext)

theorem ic_extends (g : Grid) (hwf : g.wf) (S : Digits9) (hok : completionOK S)
    (hext : extendsGrid S g) : extendsGrid S g.intersectConstraints :=
  icAux_extends S hok _ g hwf hext

theorem extends_of_cellsEq {g g' : Grid} (S : Digits9) (he : CellsEq g g')
    (hext : extendsGrid S g) : extendsGrid S g' := by
  intro r c
  rw [contains_testBit, cellAt_eq_pcell, (he.2 _ _).2, ← cellAt_eq_pcell,
    ← contains_testBit]
  exact hext r c

theorem range_map_getD_gen {α : Type} [Inhabited α] (f : Nat → α) (i : Nat)
    (hi : i < 9) : ((List.range 9).map f).getD i default = f i := by
  rw [List.getD_eq_getElem _ _ (by simpa using hi)]
  simp

theorem subGridOfDigits_cells (S : Digits9) (i : Nat) :
    (subGridOfDigits S i).cells = (List.range 9).map fun j => cellOfDigits S i j :=
  rfl

theorem subGridOfDigits_flag (S : Digits9) (i : Nat) :
    (subGridOfDigits S i)._isSolved = true := rfl

theorem gridOfDigits_sub (S : Digits9) (i : Nat) (hi : i < 9) :
    (gridOfDigits S).subGrids.getD i default = subGridOfDigits S i := by
  show ((List.range 9).map fun k => subGridOfDigits S k).getD i default = _
  exact range_map_getD_gen _ i hi

theorem gridOfDigits_pcell (S : Digits9) (i j : Nat) (hi : i < 9) (hj : j < 9) :
    (gridOfDigits S).pcell i j = cellOfDigits S i j := by
  unfold Grid.pcell
  rw [gridOfDigits_sub S i hi, subGridOfDigits_cells]
  exact range_map_getD_gen _ j hj

theorem gridOfDigits_cellAt (S : Digits9) (r c : Fin 9) :
    (gridOfDigits S).cellAt r c = ⟨1 <<< (S r c : Nat)⟩ := by
  rw [cellAt_eq_pcell, gridOfDigits_pcell S _ _ (by omega) (by omega)]
  unfold cellOfDigits
  have hA : (⟨((((c : Nat) / 3) * 3 + (r : Nat) / 3) % 3 * 3 +
      (((c : Nat) % 3) * 3 + (r : Nat) % 3) % 3) % 9,
      Nat.mod_lt _ (by omega)⟩ : Fin 9) = r := Fin.ext (by
    show ((((c : Nat) / 3) * 3 + (r : Nat) / 3) % 3 * 3 +
      (((c : Nat) % 3) * 3 + (r : Nat) % 3) % 3) % 9 = (r : Nat)
    omega)
  have hB : (⟨((((c : Nat) / 3) * 3 + (r : Nat) / 3) / 3 * 3 +
      (((c : Nat) % 3) * 3 + (r : Nat) % 3) / 3) % 9,
      Nat.mod_lt _ (by omega)⟩ : Fin 9) = c := Fin.ext (by
    show ((((c : Nat) / 3) * 3 + (r : Nat) / 3) / 3 * 3 +
      (((c : Nat) % 3) * 3 + (r : Nat) % 3) / 3) % 9 = (c : Nat)
    omega)
  rw [hA, hB]

theorem subgrid_eta (sg sg' : SubGrid) (hc : sg.cells = sg'.cells)
    (hf : sg._isSolved = sg'._isSolved) : sg = sg' := by
  obtain ⟨c1, f1⟩ := sg
  obtain ⟨c2, f2⟩ := sg'
  simp only at hc hf
  rw [hc, hf]

/-- A solved, well-formed grid with all cache flags set that a completion
extends is exactly the canonical grid of that completion. -/
theorem solved_eq_gridOfDigits (g : Grid) (hwf : g.wf) (S : Digits9)
    (hext : extendsGrid S g)
    (hknown : ∀ i < 9, ∀ j < 9, (g.pcell i j).isKnown = true)
    (hflags : ∀ i < 9, (g.subGrids.getD i default)._isSolved = true) :
    g = gridOfDigits S := by
  have hcell : ∀ i < 9, ∀ j < 9, g.pcell i j = (gridOfDigits S).pcell i j := by
    intro i hi j hj
    have hr9 : (i % 3) * 3 + j % 3 < 9 := by omega
    have hc9 : (i / 3) * 3 + j / 3 < 9 := by omega
    have hpc := pcell_eq_cellAt g i j hi hj
    have hbit := extends_testBit S g hext ⟨(i % 3) * 3 + j % 3, hr9⟩
      ⟨(i / 3) * 3 + j / 3, hc9⟩
    have hlt := wf_cellAt_lt g hwf _ _ hr9 hc9
    have hk := hknown i hi j hj
    rw [hpc] at hk ⊢
    have hk' : Cell.isKnown
        ⟨(g.cellAt ((i % 3) * 3 + j % 3) ((i / 3) * 3 + j / 3)).bmp⟩ = true := by
      rw [isKnown_eta]
      exact hk
    have hsingle := known_shift _ hlt _
      (S ⟨(i % 3) * 3 + j % 3, hr9⟩ ⟨(i / 3) * 3 + j / 3, hc9⟩).isLt hk' hbit
    rw [gridOfDigits_pcell S i j hi hj]
    unfold cellOfDigits
    have hfin1 : (⟨((i % 3) * 3 + j % 3) % 9, Nat.mod_lt _ (by omega)⟩ : Fin 9) =
        ⟨(i % 3) * 3 + j % 3, hr9⟩ := Fin.ext (by
      show ((i % 3) * 3 + j % 3) % 9 = (i % 3) * 3 + j % 3
      omega)
    have hfin2 : (⟨((i / 3) * 3 + j / 3) % 9, Nat.mod_lt _ (by omega)⟩ : Fin 9) =
        ⟨(i / 3) * 3 + j / 3, hc9⟩ := Fin.ext (by
      show ((i / 3) * 3 + j / 3) % 9 = (i / 3) * 3 + j / 3
      omega)
    rw [hfin1, hfin2]
    calc g.cellAt ((i % 3) * 3 + j % 3) ((i / 3) * 3 + j / 3)
        = ⟨(g.cellAt ((i % 3) * 3 + j % 3) ((i / 3) * 3 + j / 3)).bmp⟩ := rfl
    _ = ⟨1 <<< ((S ⟨(i % 3) * 3 + j % 3, hr9⟩ ⟨(i / 3) * 3 + j / 3, hc9⟩ : Fin 9) :
        Nat)⟩ := by rw [hsingle]
  have hlists : g.subGrids = (gridOfDigits S).subGrids := by
    apply List.ext_getElem
    · rw [hwf.1]
      show (9 : Nat) = ((List.range 9).map _).length
      simp
    · intro i h1 h2
      have hi : i < 9 := by
        have := hwf.1
        omega
      have hL : g.subGrids[i] = g.subGrids.getD i default :=
        (List.getD_eq_getElem _ _ h1).symm
      have hR : (gridOfDigits S).subGrids[i] =
          (gridOfDigits S).subGrids.getD i default :=
        (List.getD_eq_getElem _ _ h2).symm
      rw [hL, hR]
      apply subgrid_eta
      · apply List.ext_getElem
        · rw [(hwf.2 i hi).1]
          show (9 : Nat) = _
          rw [gridOfDigits_sub S i hi, subGridOfDigits_cells]
          simp
        · intro j hj1 hj2
          have hj : j < 9 := by
            have := (hwf.2 i hi).1
            omega
          have hLc : (g.subGrids.getD i default).cells[j] = g.pcell i j :=
            (List.getD_eq_getElem _ _ hj1).symm
          have hRc : ((gridOfDigits S).subGrids.getD i default).cells[j] =
              (gridOfDigits S).pcell i j :=
            (List.getD_eq_getElem _ _ hj2).symm
          rw [hLc, hRc]
          exact hcell i hi j hj
      · rw [hflags i hi, gridOfDigits_sub S i hi, subGridOfDigits_flag]
  calc g = ⟨g.subGrids⟩ := rfl
  _ = ⟨(gridOfDigits S).subGrids⟩ := by rw [hlists]
  _ = gridOfDigits S := rfl

theorem isSolvedS_sub_flag (sg : SubGrid) (h : (sg.isSolvedS).2 = true) :
    ((sg.isSolvedS).1)._isSolved = true := by
  rcases isSolvedS_sub_cases sg with ⟨he, hf⟩ | ⟨he, _, _⟩ | ⟨he, _, _⟩
  · rw [he]
    exact hf
  · rw [he]
  · rw [he] at h
    simp at h

theorem isSolvedLoop_flag_mono : ∀ (L : List Nat) (g : Grid) (i : Nat),
    (g.subGrids.getD i default)._isSolved = true →
    ((isSolvedLoop g L).1.subGrids.getD i default)._isSolved = true
  | [], _, _, h => h
  | j :: L, g, i, h => by
    rw [isSolvedLoop_cons]
    by_cases hp : ((g.subGrids.getD j default).isSolvedS).2 = true
    · rw [if_pos hp]
      apply isSolvedLoop_flag_mono L _ i
      show ((g.subGrids.set j _).getD i default)._isSolved = true
      by_cases hij : i = j
      · subst hij
        by_cases hlen : i < g.subGrids.length
        · rw [getD_set_self _ _ _ _ hlen]
          exact isSolvedS_sub_flag _ hp
        · rw [List.set_eq_of_length_le (by omega)]
          exact h
      · rw [getD_set_ne _ _ _ _ _ (fun hc => hij hc.symm)]
        exact h
    · rw [if_neg hp]
      exact h

theorem isSolvedLoop_flags : ∀ (L : List Nat) (g : Grid),
    (∀ i ∈ L, i < g.subGrids.length) →
    (isSolvedLoop g L).2 = true →
    ∀ i ∈ L, ((isSolvedLoop g L).1.subGrids.getD i default)._isSolved = true
  | [], _, _, _, i, hi => absurd hi (List.not_mem_nil i)
  | j :: L, g, hlen, htrue, i, hi => by
    rw [isSolvedLoop_cons] at htrue ⊢
    by_cases hp : ((g.subGrids.getD j default).isSolvedS).2 = true
    · rw [if_pos hp] at htrue ⊢
      rcases List.mem_cons.mp hi with rfl | hi
      · apply isSolvedLoop_flag_mono
        show ((g.subGrids.set i _).getD i default)._isSolved = true
        rw [getD_set_self _ _ _ _ (hlen i (List.mem_cons_self i L))]
        exact isSolvedS_sub_flag _ hp
      · refine isSolvedLoop_flags L _ ?_ htrue i hi
        intro i' hi'
        rw [List.length_set]
        exact hlen i' (List.mem_cons_of_mem j hi')
    · rw [if_neg hp] at htrue
      simp at htrue

theorem isSolvedS_flags (g : Grid) (hlen : g.subGrids.length = 9)
    (h : (g.isSolvedS).2 = true) :
    ∀ i < 9, ((g.isSolvedS).1.subGrids.getD i default)._isSolved = true := by
  intro i hi
  exact isSolvedLoop_flags (List.range 9) g
    (fun i' hi' => by rw [hlen]; exact List.mem_range.mp hi')
    h i (List.mem_range.mpr hi)

theorem testBit_lt_nine {b t : Nat} (hb : b < 512) (ht : b.testBit t = true) :
    t < 9 := by
  by_contra h9
  have h2 : b < 2 ^ t := by
    calc b < 512 := hb
    _ = 2 ^ 9 := by norm_num
    _ ≤ 2 ^ t := Nat.pow_le_pow_right (by omega) (by omega)
  rw [Nat.testBit_lt_two_pow h2] at ht
  exact Bool.false_ne_true ht

/-- Converse of the house-validity extraction: the loop succeeds on a
list of nonzero cells whose singletons avoid the incoming mask and each
other, provided the accumulated union reaches all nine digits. -/
theorem houseValidAux_of : ∀ (cells : List Cell) (bmp kb : Nat),
    (∀ c ∈ cells, c.bmp ≠ 0) →
    (∀ c ∈ cells, c.isKnown = true → c.bmp &&& kb = 0) →
    List.Pairwise (fun a b => a.isKnown = true → b.isKnown = true →
      a.bmp &&& b.bmp = 0) cells →
    bmp ||| unionBmp cells = 511 →
    houseValidAux cells bmp kb = true
  | [], bmp, _, _, _, _, hun => by
    unfold houseValidAux
    rw [show unionBmp [] = 0 from rfl, Nat.or_zero] at hun
    rw [hun]
    rfl
  | cell :: rest, bmp, kb, hnz, hkb, hpair, hun => by
    unfold houseValidAux
    have hguard : (cell.isKnown && (kb &&& cell.bmp != 0)) = false := by
      by_cases hk : cell.isKnown = true
      · rw [hk, Bool.true_and]
        have h0 : cell.bmp &&& kb = 0 := hkb cell (List.mem_cons_self _ _) hk
        rw [Nat.and_comm] at h0
        rw [h0]
        rfl
      · have hkf : cell.isKnown = false := by simpa using hk
        rw [hkf, Bool.false_and]
    rw [if_neg (show ¬(cell.isKnown && (kb &&& cell.bmp != 0)) = true by
      rw [hguard]; exact Bool.false_ne_true)]
    rw [if_neg (show ¬(cell.bmp == 0) = true by
      simp [hnz cell (List.mem_cons_self _ _)])]
    obtain ⟨hhead, hrest⟩ := List.pairwise_cons.mp hpair
    apply houseValidAux_of rest
    · intro c hc
      exact hnz c (List.mem_cons_of_mem cell hc)
    · intro c hc hck
      by_cases hk : cell.isKnown = true
      · rw [if_pos hk, Nat.and_or_distrib_left,
          hkb c (List.mem_cons_of_mem cell hc) hck,
          Nat.and_comm c.bmp cell.bmp, hhead c hc hk hck]
        rfl
      · rw [if_neg hk]
        exact hkb c (List.mem_cons_of_mem cell hc) hck
    · exact hrest
    · rw [Nat.or_assoc, ← unionBmp_cons]
      exact hun

theorem unionBmp_lt : ∀ cells : List Cell, (∀ c ∈ cells, c.bmp < 512) →
    unionBmp cells < 512
  | [], _ => by
    rw [show unionBmp [] = 0 from rfl]
    omega
  | c :: rest, h => by
    rw [unionBmp_cons]
    have h1 : c.bmp < 2 ^ 9 := by
      have := h c (List.mem_cons_self c rest)
      omega
    have h2 : unionBmp rest < 2 ^ 9 := by
      have := unionBmp_lt rest (fun x hx => h x (List.mem_cons_of_mem c hx))
      omega
    have := Nat.or_lt_two_pow h1 h2
    omega

theorem unionBmp_eq_511 (cells : List Cell) (hlt : ∀ c ∈ cells, c.bmp < 512)
    (hcover : ∀ t < 9, ∃ c ∈ cells, c.bmp.testBit t = true) :
    unionBmp cells = 511 := by
  apply Nat.eq_of_testBit_eq
  intro t
  rw [testBit_unionBmp, show (511 : Nat) = 2 ^ 9 - 1 from rfl,
    Nat.testBit_two_pow_sub_one]
  by_cases ht : t < 9
  · obtain ⟨c, hc, hbit⟩ := hcover t ht
    rw [List.any_eq_true.mpr ⟨c, hc, hbit⟩]
    simp [ht]
  · have hall : ∀ c ∈ cells, (c.bmp.testBit t) = false := by
      intro c hc
      cases hb : c.bmp.testBit t with
      | false => rfl
      | true => exact absurd (testBit_lt_nine (hlt c hc) hb) ht
    rw [List.any_eq_false.mpr
      (fun x hx => by rw [hall x hx]; exact Bool.false_ne_true)]
    simp [ht]

theorem mem_colCells_lt (g : Grid) (hwf : g.wf) (col : Nat) (hcol : col < 9) :
    ∀ c ∈ g.colCells col, c.bmp < 512 := by
  intro c hc
  rw [Grid.colCells] at hc
  simp only [List.mem_map, List.mem_range] at hc
  obtain ⟨r', hr', rfl⟩ := hc
  exact wf_cellAt_lt g hwf r' col hr' hcol

/-- A grid a valid completion extends passes the row validity check. -/
theorem extends_isRowValid (g : Grid) (hwf : g.wf) (S : Digits9)
    (hok : completionOK S) (hext : extendsGrid S g) (r : Fin 9) :
    g.isRowValid r = true := by
  show houseValidAux (g.rowCells r) 0 0 = true
  apply houseValidAux_of
  · intro x hx
    rw [Grid.rowCells] at hx
    simp only [List.mem_map, List.mem_range] at hx
    obtain ⟨c', hc', rfl⟩ := hx
    exact testBit_ne_zero _ _ (extends_testBit S g hext r ⟨c', hc'⟩)
  · intro x _ _
    exact Nat.and_zero _
  · rw [Grid.rowCells, List.pairwise_map]
    apply List.Pairwise.imp_of_mem ?_ (List.pairwise_lt_range 9)
    intro a b ha hb hab hka hkb
    have ha9 := List.mem_range.mp ha
    have hb9 := List.mem_range.mp hb
    have hba := extends_testBit S g hext r ⟨a, ha9⟩
    have hbb := extends_testBit S g hext r ⟨b, hb9⟩
    have hsa := known_shift _ (wf_cellAt_lt g hwf r a r.isLt ha9) _
      (S r ⟨a, ha9⟩).isLt (by rw [isKnown_eta]; exact hka) hba
    have hsb := known_shift _ (wf_cellAt_lt g hwf r b r.isLt hb9) _
      (S r ⟨b, hb9⟩).isLt (by rw [isKnown_eta]; exact hkb) hbb
    rw [hsa, hsb]
    apply pow_disjoint _ (S r ⟨a, ha9⟩).isLt _ (S r ⟨b, hb9⟩).isLt
    intro hval
    exact hok.1 r ⟨a, ha9⟩ ⟨b, hb9⟩
      (fun hfe => Nat.ne_of_lt hab (congrArg Fin.val hfe)) (Fin.ext hval)
  · rw [Nat.zero_or]
    apply unionBmp_eq_511
    · exact mem_rowCells_lt g hwf r r.isLt
    · intro t ht
      have hinj : Function.Injective (fun c : Fin 9 => S r c) := by
        intro a b hab2
        by_contra hne
        exact hok.1 r a b hne hab2
      obtain ⟨c0, hc0⟩ := Finite.injective_iff_surjective.mp hinj ⟨t, ht⟩
      refine ⟨g.cellAt r c0, mem_rowCells g r c0 c0.isLt, ?_⟩
      have hbt := extends_testBit S g hext r c0
      have hc0' : S r c0 = ⟨t, ht⟩ := hc0
      rw [hc0'] at hbt
      exact hbt

/-- Column counterpart. -/
theorem extends_isColValid (g : Grid) (hwf : g.wf) (S : Digits9)
    (hok : completionOK S) (hext : extendsGrid S g) (c : Fin 9) :
    g.isColValid c = true := by
  show houseValidAux (g.colCells c) 0 0 = true
  apply houseValidAux_of
  · intro x hx
    rw [Grid.colCells] at hx
    simp only [List.mem_map, List.mem_range] at hx
    obtain ⟨r', hr', rfl⟩ := hx
    exact testBit_ne_zero _ _ (extends_testBit S g hext ⟨r', hr'⟩ c)
  · intro x _ _
    exact Nat.and_zero _
  · rw [Grid.colCells, List.pairwise_map]
    apply List.Pairwise.imp_of_mem ?_ (List.pairwise_lt_range 9)
    intro a b ha hb hab hka hkb
    have ha9 := List.mem_range.mp ha
    have hb9 := List.mem_range.mp hb
    have hba := extends_testBit S g hext ⟨a, ha9⟩ c
    have hbb := extends_testBit S g hext ⟨b, hb9⟩ c
    have hsa := known_shift _ (wf_cellAt_lt g hwf a c ha9 c.isLt) _
      (S ⟨a, ha9⟩ c).isLt (by rw [isKnown_eta]; exact hka) hba
    have hsb := known_shift _ (wf_cellAt_lt g hwf b c hb9 c.isLt) _
      (S ⟨b, hb9⟩ c).isLt (by rw [isKnown_eta]; exact hkb) hbb
    rw [hsa, hsb]
    apply pow_disjoint _ (S ⟨a, ha9⟩ c).isLt _ (S ⟨b, hb9⟩ c).isLt
    intro hval
    exact hok.2.1 c ⟨a, ha9⟩ ⟨b, hb9⟩
      (fun hfe => Nat.ne_of_lt hab (congrArg Fin.val hfe)) (Fin.ext hval)
  · rw [Nat.zero_or]
    apply unionBmp_eq_511
    · exact mem_colCells_lt g hwf c c.isLt
    · intro t ht
      have hinj : Function.Injective (fun r : Fin 9 => S r c) := by
        intro a b hab2
        by_contra hne
        exact hok.2.1 c a b hne hab2
      obtain ⟨r0, hr0⟩ := Finite.injective_iff_surjective.mp hinj ⟨t, ht⟩
      refine ⟨g.cellAt r0 c, mem_colCells g c r0 r0.isLt, ?_⟩
      have hbt := extends_testBit S g hext r0 c
      have hr0' : S r0 c = ⟨t, ht⟩ := hr0
      rw [hr0'] at hbt
      exact hbt

theorem scanCells_eq_map (sg : SubGrid) :
    sg.scanCells = (List.range 9).map fun k => sg.cellAt (k / 3) (k % 3) := rfl

/-- Sub-grid counterpart. -/
theorem extends_subValid (g : Grid) (hwf : g.wf) (S : Digits9)
    (hok : completionOK S) (hext : extendsGrid S g) (i : Nat) (hi : i < 9) :
    (g.subGrids.getD i default).isValid = true := by
  have hsub : g.subGrids.getD i default = g.subGridAt (i % 3) (i / 3) := by
    unfold Grid.subGridAt
    rw [show (i / 3) * 3 + i % 3 = i by omega]
  rw [hsub]
  show houseValidAux (g.subGridAt (i % 3) (i / 3)).scanCells 0 0 = true
  have hcoord : ∀ k : Nat, k < 9 →
      (g.subGridAt (i % 3) (i / 3)).cellAt (k / 3) (k % 3) =
        g.cellAt (3 * (i % 3) + k / 3) (3 * (i / 3) + k % 3) := by
    intro k hk
    exact subGridAt_cellAt g _ _ _ _ (by omega) (by omega)
  have hrb : ∀ k : Nat, k < 9 → 3 * (i % 3) + k / 3 < 9 := by omega
  have hcb : ∀ k : Nat, k < 9 → 3 * (i / 3) + k % 3 < 9 := by omega
  apply houseValidAux_of
  · intro x hx
    rw [mem_scanCells] at hx
    obtain ⟨a, ha, b, hb, hxeq⟩ := hx
    subst hxeq
    rw [subGridAt_cellAt g _ _ a b ha hb]
    exact testBit_ne_zero _ _
      (extends_testBit S g hext ⟨3 * (i % 3) + a, by omega⟩
        ⟨3 * (i / 3) + b, by omega⟩)
  · intro x _ _
    exact Nat.and_zero _
  · rw [scanCells_eq_map, List.pairwise_map]
    apply List.Pairwise.imp_of_mem ?_ (List.pairwise_lt_range 9)
    intro a b ha hb hab hka hkb
    have ha9 := List.mem_range.mp ha
    have hb9 := List.mem_range.mp hb
    rw [hcoord a ha9] at hka ⊢
    rw [hcoord b hb9] at hkb ⊢
    have hba := extends_testBit S g hext ⟨3 * (i % 3) + a / 3, hrb a ha9⟩
      ⟨3 * (i / 3) + a % 3, hcb a ha9⟩
    have hbb := extends_testBit S g hext ⟨3 * (i % 3) + b / 3, hrb b hb9⟩
      ⟨3 * (i / 3) + b % 3, hcb b hb9⟩
    have hsa := known_shift _
      (wf_cellAt_lt g hwf _ _ (hrb a ha9) (hcb a ha9)) _
      (S ⟨3 * (i % 3) + a / 3, hrb a ha9⟩ ⟨3 * (i / 3) + a % 3, hcb a ha9⟩).isLt
      (by rw [isKnown_eta]; exact hka) hba
    have hsb := known_shift _
      (wf_cellAt_lt g hwf _ _ (hrb b hb9) (hcb b hb9)) _
      (S ⟨3 * (i % 3) + b / 3, hrb b hb9⟩ ⟨3 * (i / 3) + b % 3, hcb b hb9⟩).isLt
      (by rw [isKnown_eta]; exact hkb) hbb
    rw [hsa, hsb]
    apply pow_disjoint _
      (S ⟨3 * (i % 3) + a / 3, hrb a ha9⟩ ⟨3 * (i / 3) + a % 3, hcb a ha9⟩).isLt _
      (S ⟨3 * (i % 3) + b / 3, hrb b hb9⟩ ⟨3 * (i / 3) + b % 3, hcb b hb9⟩).isLt
    intro hval
    apply hok.2.2 ⟨3 * (i % 3) + a / 3, hrb a ha9⟩ ⟨3 * (i / 3) + a % 3, hcb a ha9⟩
      ⟨3 * (i % 3) + b / 3, hrb b hb9⟩ ⟨3 * (i / 3) + b % 3, hcb b hb9⟩
      (by show (3 * (i % 3) + a / 3) / 3 = (3 * (i % 3) + b / 3) / 3; omega)
      (by show (3 * (i / 3) + a % 3) / 3 = (3 * (i / 3) + b % 3) / 3; omega)
      ?_ (Fin.ext hval)
    intro hpair
    have h1 : 3 * (i % 3) + a / 3 = 3 * (i % 3) + b / 3 :=
      congrArg Fin.val (congrArg Prod.fst hpair)
    have h2 : 3 * (i / 3) + a % 3 = 3 * (i / 3) + b % 3 :=
      congrArg Fin.val (congrArg Prod.snd hpair)
    omega
  · rw [Nat.zero_or]
    apply unionBmp_eq_511
    · intro x hx
      rw [mem_scanCells] at hx
      obtain ⟨a, ha, b, hb, hxeq⟩ := hx
      subst hxeq
      rw [subGridAt_cellAt g _ _ a b ha hb]
      exact wf_cellAt_lt g hwf _ _ (by omega) (by omega)
    · intro t ht
      have hinj : Function.Injective (fun k : Fin 9 =>
          S ⟨3 * (i % 3) + (k : Nat) / 3, hrb k k.isLt⟩
            ⟨3 * (i / 3) + (k : Nat) % 3, hcb k k.isLt⟩) := by
        intro a b hab2
        by_contra hne
        apply hok.2.2 ⟨3 * (i % 3) + (a : Nat) / 3, hrb a a.isLt⟩
          ⟨3 * (i / 3) + (a : Nat) % 3, hcb a a.isLt⟩
          ⟨3 * (i % 3) + (b : Nat) / 3, hrb b b.isLt⟩
          ⟨3 * (i / 3) + (b : Nat) % 3, hcb b b.isLt⟩
          (by show (3 * (i % 3) + (a : Nat) / 3) / 3 =
            (3 * (i % 3) + (b : Nat) / 3) / 3; omega)
          (by show (3 * (i / 3) + (a : Nat) % 3) / 3 =
            (3 * (i / 3) + (b : Nat) % 3) / 3; omega)
          ?_ hab2
        intro hpair
        apply hne
        have h1 : 3 * (i % 3) + (a : Nat) / 3 = 3 * (i % 3) + (b : Nat) / 3 :=
          congrArg Fin.val (congrArg Prod.fst hpair)
        have h2 : 3 * (i / 3) + (a : Nat) % 3 = 3 * (i / 3) + (b : Nat) % 3 :=
          congrArg Fin.val (congrArg Prod.snd hpair)
        apply Fin.ext
        show (a : Nat) = (b : Nat)
        omega
      obtain ⟨k0, hk0⟩ := Finite.injective_iff_surjective.mp hinj ⟨t, ht⟩
      refine ⟨(g.subGridAt (i % 3) (i / 3)).cellAt ((k0 : Nat) / 3) ((k0 : Nat) % 3),
        (mem_scanCells _ _).mpr ⟨(k0 : Nat) / 3, by omega, (k0 : Nat) % 3, by omega,
          rfl⟩, ?_⟩
      rw [hcoord k0 k0.isLt]
      have hbt := extends_testBit S g hext
        ⟨3 * (i % 3) + (k0 : Nat) / 3, hrb k0 k0.isLt⟩
        ⟨3 * (i / 3) + (k0 : Nat) % 3, hcb k0 k0.isLt⟩
      have hk0' : S ⟨3 * (i % 3) + (k0 : Nat) / 3, hrb k0 k0.isLt⟩
          ⟨3 * (i / 3) + (k0 : Nat) % 3, hcb k0 k0.isLt⟩ = ⟨t, ht⟩ := hk0
      rw [hk0'] at hbt
      exact hbt

/-- A grid a valid completion extends passes the full validity check. -/
theorem extends_isValid (g : Grid) (hwf : g.wf) (S : Digits9)
    (hok : completionOK S) (hext : extendsGrid S g) : g.isValid = true := by
  unfold Grid.isValid
  rw [Bool.and_eq_true]
  constructor
  · rw [List.all_eq_true]
    intro i hi
    exact extends_subValid g hwf S hok hext i (List.mem_range.mp hi)
  · rw [List.all_eq_true]
    intro i hi
    rw [Bool.and_eq_true]
    have hi9 := List.mem_range.mp hi
    exact ⟨extends_isRowValid g hwf S hok hext ⟨i, hi9⟩,
      extends_isColValid g hwf S hok hext ⟨i, hi9⟩⟩

theorem list_sum_le_of_getD : ∀ (l l' : List Nat), l'.length = l.length →
    (∀ i, i < l.length → l'.getD i 0 ≤ l.getD i 0) → l'.sum ≤ l.sum
  | [], [], _, _ => Nat.le_refl _
  | [], _ :: _, hlen, _ => by simp at hlen
  | _ :: _, [], hlen, _ => by simp at hlen
  | x :: l, y :: l', hlen, h => by
    simp only [List.sum_cons]
    have h0 := h 0 (by simp)
    simp only [List.getD_cons_zero] at h0
    have hrec := list_sum_le_of_getD l l' (by simpa using hlen)
      (fun i hi => by
        have := h (i + 1) (by simpa using hi)
        simpa using this)
    omega

theorem list_sum_eq_of_getD : ∀ (l l' : List Nat), l'.length = l.length →
    (∀ i, i < l.length → l'.getD i 0 = l.getD i 0) → l'.sum = l.sum
  | [], [], _, _ => rfl
  | [], _ :: _, hlen, _ => by simp at hlen
  | _ :: _, [], hlen, _ => by simp at hlen
  | x :: l, y :: l', hlen, h => by
    simp only [List.sum_cons]
    have h0 := h 0 (by simp)
    simp only [List.getD_cons_zero] at h0
    have hrec := list_sum_eq_of_getD l l' (by simpa using hlen)
      (fun i hi => by
        have := h (i + 1) (by simpa using hi)
        simpa using this)
    omega

theorem map_sum_getD (l : List SubGrid) (i : Nat) (hi : i < l.length) :
    (l.map fun sg => (sg.cells.map fun cell => popcount cell.bmp).sum).getD i 0 =
      ((l.getD i default).cells.map fun cell => popcount cell.bmp).sum := by
  rw [List.getD_eq_getElem _ _ (by simpa using hi), List.getElem_map,
    List.getD_eq_getElem _ _ hi]

theorem map_pc_getD (l : List Cell) (j : Nat) (hj : j < l.length) :
    (l.map fun cell => popcount cell.bmp).getD j 0 =
      popcount (l.getD j default).bmp := by
  rw [List.getD_eq_getElem _ _ (by simpa using hj), List.getElem_map,
    List.getD_eq_getElem _ _ hj]

/-- Shrinking cells never raises the total bit count. -/
theorem totalBits_le_of_mono {g g' : Grid} (hm : CellsMono g g') :
    totalBits g' ≤ totalBits g := by
  unfold totalBits
  apply list_sum_le_of_getD
  · simp only [List.length_map]
    exact hm.1
  · intro i hi
    simp only [List.length_map] at hi
    have hi' : i < g'.subGrids.length := by
      rw [hm.1]
      exact hi
    rw [map_sum_getD _ _ hi, map_sum_getD _ _ hi']
    apply list_sum_le_of_getD
    · simp only [List.length_map]
      exact (hm.2 i 0).2.1
    · intro j hj
      simp only [List.length_map] at hj
      have hj' : j < (g'.subGrids.getD i default).cells.length := by
        rw [(hm.2 i 0).2.1]
        exact hj
      rw [map_pc_getD _ _ hj, map_pc_getD _ _ hj']
      have hbit := (hm.2 i j).2.2.1
      have hple := popcount_and_le (g.pcell i j).bmp (g'.pcell i j).bmp
      rw [Nat.and_comm] at hple
      rw [hbit] at hple
      exact hple

/-- Equal cells mean equal total bit counts. -/
theorem totalBits_eq_of_cellsEq {g g' : Grid} (he : CellsEq g g') :
    totalBits g' = totalBits g := by
  unfold totalBits
  apply list_sum_eq_of_getD
  · simp only [List.length_map]
    exact he.1
  · intro i hi
    simp only [List.length_map] at hi
    have hi' : i < g'.subGrids.length := by
      rw [he.1]
      exact hi
    rw [map_sum_getD _ _ hi, map_sum_getD _ _ hi']
    apply list_sum_eq_of_getD
    · simp only [List.length_map]
      exact (he.2 i 0).1
    · intro j hj
      simp only [List.length_map] at hj
      have hj' : j < (g'.subGrids.getD i default).cells.length := by
        rw [(he.2 i 0).1]
        exact hj
      rw [map_pc_getD _ _ hj, map_pc_getD _ _ hj']
      exact congrArg (fun c : Cell => popcount c.bmp) ((he.2 i j).2)

theorem stackMeasure_cons (g : Grid) (rest : List Grid) :
    stackMeasure (g :: rest) = 3 ^ (totalBits g + 1) + stackMeasure rest := by
  unfold stackMeasure
  simp

theorem generate_eq (g : Grid) (stack : List Grid) :
    g.generate stack =
      g.setCell g.getCellWithLowestConstraints.1 g.getCellWithLowestConstraints.2
          (g.cellAt g.getCellWithLowestConstraints.1
            g.getCellWithLowestConstraints.2).split.2 ::
        g.setCell g.getCellWithLowestConstraints.1 g.getCellWithLowestConstraints.2
          (g.cellAt g.getCellWithLowestConstraints.1
            g.getCellWithLowestConstraints.2).split.1 :: stack := rfl

/-- A completion of a branch point extends one of the two split children:
the two halves partition the chosen cell's candidates. -/
theorem extends_split_child (g2 : Grid) (hwf2 : g2.wf) (S : Digits9)
    (hext : extendsGrid S g2)
    (hpc : 2 ≤ (g2.cellAt g2.getCellWithLowestConstraints.1
      g2.getCellWithLowestConstraints.2).nbPossibleValues) :
    extendsGrid S (g2.setCell g2.getCellWithLowestConstraints.1
        g2.getCellWithLowestConstraints.2
        (g2.cellAt g2.getCellWithLowestConstraints.1
          g2.getCellWithLowestConstraints.2).split.1) ∨
    extendsGrid S (g2.setCell g2.getCellWithLowestConstraints.1
        g2.getCellWithLowestConstraints.2
        (g2.cellAt g2.getCellWithLowestConstraints.1
          g2.getCellWithLowestConstraints.2).split.2) := by
  obtain ⟨hr9, hc9⟩ := gclc_bounds g2
  have hblt := wf_cellAt_lt g2 hwf2 _ _ hr9 hc9
  have hs := split_facts _ hblt hpc
  have hunion : ((g2.cellAt g2.getCellWithLowestConstraints.1
      g2.getCellWithLowestConstraints.2).split.1).bmp |||
      ((g2.cellAt g2.getCellWithLowestConstraints.1
        g2.getCellWithLowestConstraints.2).split.2).bmp =
      (g2.cellAt g2.getCellWithLowestConstraints.1
        g2.getCellWithLowestConstraints.2).bmp := hs.2.1
  have hbit := extends_testBit S g2 hext
    ⟨g2.getCellWithLowestConstraints.1, hr9⟩
    ⟨g2.getCellWithLowestConstraints.2, hc9⟩
  have horb : (((g2.cellAt g2.getCellWithLowestConstraints.1
      g2.getCellWithLowestConstraints.2).split.1).bmp |||
      ((g2.cellAt g2.getCellWithLowestConstraints.1
        g2.getCellWithLowestConstraints.2).split.2).bmp).testBit
      (S ⟨g2.getCellWithLowestConstraints.1, hr9⟩
        ⟨g2.getCellWithLowestConstraints.2, hc9⟩) = true := by
    rw [hunion]
    exact hbit
  rw [Nat.testBit_or] at horb
  rcases Bool.or_eq_true_iff.mp horb with hL | hR
  · exact Or.inl (extends_setCell g2 hwf2 S hext _ _ hr9 hc9 _ hL)
  · exact Or.inr (extends_setCell g2 hwf2 S hext _ _ hr9 hc9 _ hR)

/-- Both split children strictly decrease the total bit count. -/
theorem branch_children_lt (g2 : Grid) (hwf2 : g2.wf)
    (hpc : 2 ≤ (g2.cellAt g2.getCellWithLowestConstraints.1
      g2.getCellWithLowestConstraints.2).nbPossibleValues) :
    totalBits (g2.setCell g2.getCellWithLowestConstraints.1
        g2.getCellWithLowestConstraints.2
        (g2.cellAt g2.getCellWithLowestConstraints.1
          g2.getCellWithLowestConstraints.2).split.1) < totalBits g2 ∧
    totalBits (g2.setCell g2.getCellWithLowestConstraints.1
        g2.getCellWithLowestConstraints.2
        (g2.cellAt g2.getCellWithLowestConstraints.1
          g2.getCellWithLowestConstraints.2).split.2) < totalBits g2 := by
  obtain ⟨hr9, hc9⟩ := gclc_bounds g2
  have hblt := wf_cellAt_lt g2 hwf2 _ _ hr9 hc9
  have hs := split_facts _ hblt hpc
  have hin1 : (g2.getCellWithLowestConstraints.2 / 3) * 3 +
      g2.getCellWithLowestConstraints.1 / 3 < g2.subGrids.length := by
    rw [hwf2.1]
    omega
  have hin2 : (g2.getCellWithLowestConstraints.2 % 3) * 3 +
      g2.getCellWithLowestConstraints.1 % 3 <
      (g2.subGrids.getD ((g2.getCellWithLowestConstraints.2 / 3) * 3 +
        g2.getCellWithLowestConstraints.1 / 3) default).cells.length := by
    rw [(hwf2.2 _ (by omega)).1]
    omega
  have ht1 := totalBits_setCell g2 _ _
    ((g2.cellAt g2.getCellWithLowestConstraints.1
      g2.getCellWithLowestConstraints.2).split.1) hin1 hin2
  have ht2 := totalBits_setCell g2 _ _
    ((g2.cellAt g2.getCellWithLowestConstraints.1
      g2.getCellWithLowestConstraints.2).split.2) hin1 hin2
  have hpcn : 2 ≤ popcount (g2.cellAt g2.getCellWithLowestConstraints.1
      g2.getCellWithLowestConstraints.2).bmp := hpc
  have hpc1 : popcount ((g2.cellAt g2.getCellWithLowestConstraints.1
      g2.getCellWithLowestConstraints.2).split.1).bmp =
      (popcount (g2.cellAt g2.getCellWithLowestConstraints.1
        g2.getCellWithLowestConstraints.2).bmp + 1) / 2 := hs.2.2.2.2.2.1
  have hpc2 : popcount ((g2.cellAt g2.getCellWithLowestConstraints.1
      g2.getCellWithLowestConstraints.2).split.2).bmp =
      popcount (g2.cellAt g2.getCellWithLowestConstraints.1
        g2.getCellWithLowestConstraints.2).bmp -
      (popcount (g2.cellAt g2.getCellWithLowestConstraints.1
        g2.getCellWithLowestConstraints.2).bmp + 1) / 2 := hs.2.2.2.2.2.2.1
  omega

/-- At an unsolved-but-valid branch point there is a cell with at least
two candidates. -/
theorem branch_unres (g : Grid) (hwf : g.wf) (hok : g.flagsOK)
    (hsolved : (g.intersectConstraints.isSolvedS).2 = false)
    (hvalid : (g.intersectConstraints.isSolvedS).1.isValid = true) :
    ∃ r < 9, ∃ c < 9,
      2 ≤ ((g.intersectConstraints.isSolvedS).1.cellAt r c).nbPossibleValues := by
  have hwf1 : g.intersectConstraints.wf := wf_of_mono hwf (ic_mono g)
  have hok1 : g.intersectConstraints.flagsOK := flagsOK_of_mono hok (ic_mono g)
  obtain ⟨hEq, hOK2, htrue, hfalse⟩ := isSolvedS_spec g.intersectConstraints hok1
  have hwf2 : (g.intersectConstraints.isSolvedS).1.wf := wf_of_cellsEq hwf1 hEq
  obtain ⟨i, hi, j, hj, hnk⟩ := hfalse hsolved
  rw [← (hEq.2 i j).2] at hnk
  rw [Bool.not_eq_true] at hnk
  rw [pcell_eq_cellAt _ i j hi hj] at hnk
  refine ⟨(i % 3) * 3 + j % 3, by omega, (i / 3) * 3 + j / 3, by omega, ?_⟩
  have hnz := isValid_no_zero _ hvalid ((i % 3) * 3 + j % 3) (by omega)
    ((i / 3) * 3 + j / 3) (by omega)
  have hlt := wf_cellAt_lt _ hwf2 ((i % 3) * 3 + j % 3) ((i / 3) * 3 + j / 3)
    (by omega) (by omega)
  exact unknown_nonzero_two_le
    ((g.intersectConstraints.isSolvedS).1.cellAt ((i % 3) * 3 + j % 3)
      ((i / 3) * 3 + j / 3)).bmp hlt (by rw [isKnown_eta]; exact hnk) hnz

/-- Completeness of the unbounded search: with enough fuel, a valid
completion of any grid on the work stack is eventually surfaced as its
canonical solved grid. -/
theorem solveLoop_complete : ∀ (f : Nat) (stack sols : List Grid) (m : Int)
    (S : Digits9), m ≤ 0 → completionOK S →
    (∀ g ∈ stack, g.wf ∧ g.flagsOK) →
    stackMeasure stack ≤ f →
    (∃ g ∈ stack, extendsGrid S g) →
    gridOfDigits S ∈ solveLoop f stack sols m := by
  intro f
  induction f with
  | zero =>
    intro stack sols m S _ _ _ hsm hex
    obtain ⟨g, hg, _⟩ := hex
    cases stack with
    | nil => exact absurd hg (List.not_mem_nil g)
    | cons g0 rest =>
      rw [stackMeasure_cons] at hsm
      have := Nat.pos_pow_of_pos (totalBits g0 + 1) (show 0 < 3 by omega)
      omega
  | succ f ih =>
    intro stack sols m S hm hokS hstack hsm hex
    cases stack with
    | nil =>
      obtain ⟨g, hg, _⟩ := hex
      exact absurd hg (List.not_mem_nil g)
    | cons g rest =>
      obtain ⟨hwf, hok⟩ := hstack g (List.mem_cons_self g rest)
      have hrest : ∀ g' ∈ rest, g'.wf ∧ g'.flagsOK :=
        fun g' h => hstack g' (List.mem_cons_of_mem g h)
      have hwf1 : g.intersectConstraints.wf := wf_of_mono hwf (ic_mono g)
      have hok1 : g.intersectConstraints.flagsOK := flagsOK_of_mono hok (ic_mono g)
      obtain ⟨hEq, hOK2, htrue, hfalse⟩ := isSolvedS_spec g.intersectConstraints hok1
      have hwf2 : (g.intersectConstraints.isSolvedS).1.wf := wf_of_cellsEq hwf1 hEq
      rw [stackMeasure_cons] at hsm
      have hmeasrest : stackMeasure rest ≤ f := by
        have := Nat.pos_pow_of_pos (totalBits g + 1) (show 0 < 3 by omega)
        omega
      have htb2 : totalBits (g.intersectConstraints.isSolvedS).1 ≤ totalBits g := by
        rw [totalBits_eq_of_cellsEq hEq]
        exact totalBits_le_of_mono (ic_mono g)
      by_cases hsolved : (g.intersectConstraints.isSolvedS).2 = true
      · have hcont : m - 1 ≠ 0 := by omega
        rw [solveLoop_cons_solved_cont f g rest sols m hsolved hcont]
        rcases hex with ⟨g0, hg0, hexg0⟩
        rcases List.mem_cons.mp hg0 with rfl | hg0rest
        · have hext2 : extendsGrid S (g0.intersectConstraints.isSolvedS).1 :=
            extends_of_cellsEq S hEq (ic_extends g0 hwf S hokS hexg0)
          have hgeq : (g0.intersectConstraints.isSolvedS).1 = gridOfDigits S := by
            apply solved_eq_gridOfDigits _ hwf2 S hext2
            · intro i hi j hj
              rw [(hEq.2 i j).2]
              exact htrue hsolved i hi j hj
            · exact isSolvedS_flags g0.intersectConstraints hwf1.1 hsolved
          rw [solveLoop_append]
          exact List.mem_append.mpr (Or.inl (List.mem_append.mpr
            (Or.inr (List.mem_singleton.mpr hgeq.symm))))
        · exact ih rest (sols ++ [(g.intersectConstraints.isSolvedS).1]) (m - 1) S
            (by omega) hokS hrest hmeasrest ⟨g0, hg0rest, hexg0⟩
      · rw [Bool.not_eq_true] at hsolved
        by_cases hvalid : (g.intersectConstraints.isSolvedS).1.isValid = true
        · rw [solveLoop_cons_branch f g rest sols m hsolved hvalid]
          have hunres := branch_unres g hwf hok hsolved hvalid
          have hpc := gclc_found _ hwf2 hunres
          have hgen := generate_preserves (g.intersectConstraints.isSolvedS).1
            rest hwf2 hOK2 hunres
          have hstack' : ∀ g' ∈ (g.intersectConstraints.isSolvedS).1.generate rest,
              g'.wf ∧ g'.flagsOK := by
            intro g' hg'
            rcases hgen g' hg' with h | h
            · exact h
            · exact hrest g' h
          have hclt := branch_children_lt (g.intersectConstraints.isSolvedS).1
            hwf2 hpc
          have hsm' :
              stackMeasure ((g.intersectConstraints.isSolvedS).1.generate rest) ≤
                f := by
            rw [generate_eq, stackMeasure_cons, stackMeasure_cons]
            have hp1 : 3 ^ (totalBits (((g.intersectConstraints.isSolvedS).1.setCell
                (g.intersectConstraints.isSolvedS).1.getCellWithLowestConstraints.1
                (g.intersectConstraints.isSolvedS).1.getCellWithLowestConstraints.2
                ((g.intersectConstraints.isSolvedS).1.cellAt
                  (g.intersectConstraints.isSolvedS).1.getCellWithLowestConstraints.1
                  (g.intersectConstraints.isSolvedS).1.getCellWithLowestConstraints.2).split.1)) +
                1) ≤ 3 ^ totalBits g :=
              Nat.pow_le_pow_right (by omega) (by omega)
            have hp2 : 3 ^ (totalBits (((g.intersectConstraints.isSolvedS).1.setCell
                (g.intersectConstraints.isSolvedS).1.getCellWithLowestConstraints.1
                (g.intersectConstraints.isSolvedS).1.getCellWithLowestConstraints.2
                ((g.intersectConstraints.isSolvedS).1.cellAt
                  (g.intersectConstraints.isSolvedS).1.getCellWithLowestConstraints.1
                  (g.intersectConstraints.isSolvedS).1.getCellWithLowestConstraints.2).split.2)) +
                1) ≤ 3 ^ totalBits g :=
              Nat.pow_le_pow_right (by omega) (by omega)
            have hp3 : 0 < 3 ^ totalBits g := Nat.pos_pow_of_pos _ (by omega)
            have hp4 : 3 ^ (totalBits g + 1) = 3 ^ totalBits g * 3 := by
              rw [Nat.pow_succ]
            omega
          rcases hex with ⟨g0, hg0, hexg0⟩
          rcases List.mem_cons.mp hg0 with rfl | hg0rest
          · have hext2 : extendsGrid S (g0.intersectConstraints.isSolvedS).1 :=
              extends_of_cellsEq S hEq (ic_extends g0 hwf S hokS hexg0)
            rcases extends_split_child _ hwf2 S hext2 hpc with hL | hR
            · apply ih _ sols m S hm hokS hstack' hsm'
              refine ⟨_, ?_, hL⟩
              rw [generate_eq]
              exact List.mem_cons_of_mem _ (List.mem_cons_self _ _)
            · apply ih _ sols m S hm hokS hstack' hsm'
              refine ⟨_, ?_, hR⟩
              rw [generate_eq]
              exact List.mem_cons_self _ _
          · apply ih _ sols m S hm hokS hstack' hsm'
            refine ⟨g0, ?_, hexg0⟩
            rw [generate_eq]
            exact List.mem_cons_of_mem _ (List.mem_cons_of_mem _ hg0rest)
        · rw [Bool.not_eq_true] at hvalid
          rw [solveLoop_cons_invalid f g rest sols m hsolved hvalid]
          rcases hex with ⟨g0, hg0, hexg0⟩
          rcases List.mem_cons.mp hg0 with rfl | hg0rest
          · have hext2 : extendsGrid S (g0.intersectConstraints.isSolvedS).1 :=
              extends_of_cellsEq S hEq (ic_extends g0 hwf S hokS hexg0)
            have hcontra := extends_isValid _ hwf2 S hokS hext2
            rw [hvalid] at hcontra
            simp at hcontra
          · exact ih rest sols m S hm hokS hrest hmeasrest ⟨g0, hg0rest, hexg0⟩

theorem shift_inj : ∀ a < 9, ∀ b < 9, (1 <<< a : Nat) = 1 <<< b → a = b := by
  decide

theorem gridOfDigits_inj : Function.Injective gridOfDigits := by
  intro S1 S2 heq
  funext r c
  have h1 := gridOfDigits_cellAt S1 r c
  have h2 := gridOfDigits_cellAt S2 r c
  rw [heq, h2] at h1
  have hb : (1 <<< ((S2 r c : Nat)) : Nat) = 1 <<< ((S1 r c : Nat)) :=
    congrArg Cell.bmp h1
  exact Fin.ext (shift_inj _ (S2 r c).isLt _ (S1 r c).isLt hb).symm

/-- Every valid completion of the input is found by the unbounded run. -/
theorem solve_complete (g : Grid) (hwf : g.wf) (hok : g.flagsOK) (S : Digits9)
    (hokS : completionOK S) (hext : extendsGrid S g) :
    gridOfDigits S ∈ g.solve (-1) :=
  solveLoop_complete (stackMeasure [g]) [g] [] (-1) S (by omega) hokS
    (fun g' hg' => by rw [List.mem_singleton.mp hg']; exact ⟨hwf, hok⟩)
    (Nat.le_refl _) ⟨g, List.mem_singleton.mpr rfl, hext⟩

/-- An injective family of `n` members of a list bounds its length from
below. -/
theorem card_le_length {β : Type} [DecidableEq β] (n : Nat) (f : Fin n → β)
    (l : List β) (hinj : Function.Injective f) (hmem : ∀ i, f i ∈ l) :
    n ≤ l.length := by
  have h1 : (Finset.univ.image f).card = n := by
    rw [Finset.card_image_of_injective _ hinj, Finset.card_univ,
      Fintype.card_fin]
  have h2 : Finset.univ.image f ⊆ l.toFinset := by
    intro b hb
    rw [Finset.mem_image] at hb
    obtain ⟨i, _, rfl⟩ := hb
    rw [List.mem_toFinset]
    exact hmem i
  calc n = (Finset.univ.image f).card := h1.symm
  _ ≤ l.toFinset.card := Finset.card_le_card h2
  _ ≤ l.length := List.toFinset_card_le _

/-- C6: cap obedience.  For a positive cap `k` the returned list has at
most `k` entries and is the `k`-prefix of the unbounded enumeration; when
the true number of valid completions is at least `k`, exactly `k`
solutions are returned. -/
theorem claim_C6_cap_obedience (g : Grid) (k : Int) (hk : 0 < k)
    (hwf : g.wf) (hok : g.flagsOK) :
    (g.solve k).length ≤ k.toNat ∧
    g.solve k = List.take k.toNat (g.solve (-1)) ∧
    (hasNCompletions g k.toNat → (g.solve k).length = k.toNat) := by
  have htake := solve_take g k hk
  refine ⟨?_, htake, ?_⟩
  · rw [htake, List.length_take]
    exact Nat.min_le_left _ _
  · intro hcomp
    obtain ⟨f, hinj, hprop⟩ := hcomp
    have hlen : k.toNat ≤ (g.solve (-1)).length := by
      apply card_le_length k.toNat (fun i => gridOfDigits (f i)) (g.solve (-1))
      · intro a b hab
        exact hinj (gridOfDigits_inj hab)
      · intro i
        exact solve_complete g hwf hok (f i) (hprop i).1 (hprop i).2
    rw [htake, List.length_take]
    omega

set_option maxRecDepth 16384 in
/-- Witness for C6 at the all-unknown board with cap 1, which does have
at least one completion. -/
theorem claim_C6_witness :
    (0 : Int) < 1 ∧ gridAllUnknown.wf ∧ gridAllUnknown.flagsOK ∧
    hasNCompletions gridAllUnknown (1 : Int).toNat ∧
    ((gridAllUnknown.solve 1).length ≤ (1 : Int).toNat ∧
      gridAllUnknown.solve 1 =
        List.take (1 : Int).toNat (gridAllUnknown.solve (-1)) ∧
      (hasNCompletions gridAllUnknown (1 : Int).toNat →
        (gridAllUnknown.solve 1).length = (1 : Int).toNat)) :=
  ⟨by decide, by decide, by decide,
    show hasNCompletions gridAllUnknown 1 from
      ⟨fun _ => samplePattern, fun a b _ => Subsingleton.elim a b,
        fun _ => ⟨(by decide : completionOK samplePattern),
          (by decide : extendsGrid samplePattern gridAllUnknown)⟩⟩,
    claim_C6_cap_obedience gridAllUnknown 1 (by decide) (by decide) (by decide)⟩

end Sudoku

